import Mathlib

/-!
# BayesFPMM: likelihood and post-processing routines

A shallow embedding of `inst/include/BayesFMMM/CalculateLikelihood.h` and
`src/PostProcessing.cpp`.

* `double` values are elements of a linearly ordered field `α` (the theorems
  that need `log`, `sqrt` and `π` are stated over `ℝ`); rounding is not
  modelled.
* The mathematical library (`std::sqrt`, `std::log`, `std::exp`,
  `arma::datum::pi`) is passed to the routines as a record `Libm α`.
* Armadillo containers are records holding their dimensions and an element
  function.  The likelihood routines read elements directly: Armadillo raises
  an error on an out-of-range access, so those definitions describe the
  routines on inputs whose shapes match.
* `for` loops are left folds over `List.range`, with the mutated variables as
  the accumulator.
-/

namespace BayesFMMM

/-! ## Containers -/

/-- Dense vector `arma::vec`: length and element function. -/
structure Vec (α : Type) where
  n_elem : Nat
  mem : Nat → α

/-- Dense matrix `arma::mat`: dimensions and element function. -/
structure Mat (α : Type) where
  n_rows : Nat
  n_cols : Nat
  mem : Nat → Nat → α

/-- Dense cube `arma::cube`: dimensions and element function
(row, column, slice). -/
structure Cube (α : Type) where
  n_rows : Nat
  n_cols : Nat
  n_slices : Nat
  mem : Nat → Nat → Nat → α

/-- One-column container `arma::field<T>` addressed as `f(i,0)`. -/
structure ArmaField (β : Type) where
  n_elem : Nat
  mem : Nat → β

/-- The functions and constants of the C++ mathematical library used by the
routines. -/
structure Libm (α : Type) where
  sqrt : α → α
  log : α → α
  exp : α → α
  pi : α

section Likelihood

variable {α : Type} [LinearOrderedField α]

/-- The row `m.row(k)` as a function of the column index. -/
def Mat.row (m : Mat α) (k : Nat) : Nat → α := fun p => m.mem k p

/-- The row `c.slice(n).row(k)` as a function of the column index. -/
def Cube.sliceRow (c : Cube α) (n k : Nat) : Nat → α := fun p => c.mem k p n

/-- Inner product `arma::dot` of two vectors of `len` elements. -/
def dot (len : Nat) (a b : Nat → α) : α :=
  (List.range len).foldl (fun acc p => acc + a p * b p) 0

/-- Density `R::dnorm(x, mu, sigma, give_log)` of the normal distribution with
mean `mu` and standard deviation `sigma`, for `sigma > 0` (Rmath `dnorm4`:
`-(M_LN_SQRT_2PI + 0.5*x*x + log(sigma))` on the log scale and
`M_1_SQRT_2PI * exp(-0.5*x*x) / sigma` otherwise, with `x = (x - mu)/sigma`).
The other branches of `dnorm4` (a `sigma` that is not positive, the overflow
guard, the density cut to `0.` where it underflows) are in the definition
`dnorm4` of the part on the special values. -/
def dnorm (L : Libm α) (x mu sigma : α) (give_log : Bool) : α :=
  let z := (x - mu) / sigma
  if give_log then
    -(L.log (L.sqrt (2 * L.pi)) + (1 / 2) * z * z + L.log sigma)
  else
    (1 / L.sqrt (2 * L.pi)) * L.exp (-(1 / 2) * z * z) / sigma

/-- The loop over the clusters `k` shared by `calcLikelihood` (lines 31-39) and
`calcDIC2` (lines 69-77): the mean of subject `i` at the point whose basis row
is `Brow`. -/
def meanLoop (nu : Mat α) (Phi : Cube α) (Z chi : Mat α) (i : Nat)
    (Brow : Nat → α) : α :=
  (List.range Z.n_cols).foldl
    (fun mean k =>
      if Z.mem i k ≠ 0 then
        (List.range Phi.n_slices).foldl
          (fun mean n =>
            mean + Z.mem i k * chi.mem i n * dot Phi.n_cols (Phi.sliceRow n k) Brow)
          (mean + Z.mem i k * dot nu.n_cols (nu.row k) Brow)
      else mean)
    0

/-- Log likelihood `calcLikelihood` of the functional model. -/
def calcLikelihood (L : Libm α) (y_obs : ArmaField (Vec α))
    (B_obs : ArmaField (Mat α)) (nu : Mat α) (Phi : Cube α) (Z chi : Mat α)
    (sigma : α) : α :=
  (List.range Z.n_rows).foldl
    (fun log_lik i =>
      (List.range (y_obs.mem i).n_elem).foldl
        (fun log_lik l =>
          let mean := meanLoop nu Phi Z chi i ((B_obs.mem i).row l)
          log_lik + dnorm L ((y_obs.mem i).mem l) mean (L.sqrt sigma) true)
        log_lik)
    0

/-- Point density `calcDIC2` of observation `j` of subject `i`. -/
def calcDIC2 (L : Libm α) (y_obs : Vec α) (B_obs : Mat α) (nu : Mat α)
    (Phi : Cube α) (Z chi : Mat α) (i j : Nat) (sigma : α) : α :=
  let mean := meanLoop nu Phi Z chi i (B_obs.row j)
  dnorm L (y_obs.mem j) mean (L.sqrt sigma) false

/-- The loop over the clusters `k` shared by `calcLikelihoodMV` (lines 102-109)
and `calcDIC2MV` (lines 135-142): the mean vector of subject `i`. -/
def meanLoopMV (nu : Mat α) (Phi : Cube α) (Z chi : Mat α) (i : Nat) : Nat → α :=
  (List.range Z.n_cols).foldl
    (fun mean k =>
      if Z.mem i k ≠ 0 then
        (List.range Phi.n_slices).foldl
          (fun mean n => fun j => mean j + Z.mem i k * chi.mem i n * Phi.sliceRow n k j)
          (fun j => mean j + Z.mem i k * nu.row k j)
      else mean)
    (fun _ => 0)

/-- Log likelihood `calcLikelihoodMV` of the multivariate model.  The factor
`y_obs.n_cols / 2` divides two integers (`uword` and `int`) before the
conversion to `double`. -/
def calcLikelihoodMV (L : Libm α) (y_obs : Mat α) (nu : Mat α) (Phi : Cube α)
    (Z chi : Mat α) (sigma : α) : α :=
  (List.range chi.n_rows).foldl
    (fun log_lik i =>
      let mean := meanLoopMV nu Phi Z chi i
      let resid : Nat → α := fun j => y_obs.mem i j - mean j
      log_lik - (((y_obs.n_cols / 2 : Nat) : α) * L.log (2 * L.pi * sigma))
        - ((1 / (sigma * 2)) * dot y_obs.n_cols resid resid))
    0

/-- Density `calcDIC2MV` of the observed vector of subject `i`. -/
def calcDIC2MV (L : Libm α) (y_obs : Vec α) (nu : Mat α) (Phi : Cube α)
    (Z chi : Mat α) (i : Nat) (sigma : α) : α :=
  let mean := meanLoopMV nu Phi Z chi i
  (List.range y_obs.n_elem).foldl
    (fun lik j => lik * dnorm L (y_obs.mem j) (mean j) (L.sqrt sigma) false)
    1

/-! ### Reference definitions for the likelihood routines -/

/-- Mean of subject `i` at the point with basis row `Brow`, written as the sum
over every cluster:
`sum_k Z(i,k) * (dot(nu(k,:), B) + sum_n chi(i,n) * dot(Phi(k,:,n), B))`. -/
def specMean (nu : Mat α) (Phi : Cube α) (Z chi : Mat α) (i : Nat)
    (Brow : Nat → α) : α :=
  ∑ k in Finset.range Z.n_cols,
    Z.mem i k * ((∑ p in Finset.range nu.n_cols, nu.mem k p * Brow p)
      + ∑ n in Finset.range Phi.n_slices,
          chi.mem i n * ∑ p in Finset.range Phi.n_cols, Phi.mem k p n * Brow p)

/-- Mean vector of subject `i` in the multivariate model, written as the sum
over every cluster: `sum_k Z(i,k) * (nu(k,j) + sum_n chi(i,n) * Phi(k,j,n))`. -/
def specMeanMV (nu : Mat α) (Phi : Cube α) (Z chi : Mat α) (i j : Nat) : α :=
  ∑ k in Finset.range Z.n_cols,
    Z.mem i k * (nu.mem k j + ∑ n in Finset.range Phi.n_slices, chi.mem i n * Phi.mem k j n)

/-- Log-density at `x` of the normal distribution with mean `mean` and
variance `var`. -/
def gaussianLogDensity (L : Libm α) (x mean var : α) : α :=
  -(1 / 2) * L.log (2 * L.pi * var) - (x - mean) ^ 2 / (2 * var)

/-- Density at `x` of the normal distribution with mean `mean` and variance
`var`: `exp(-(x - mean)^2 / (2 * var)) / sqrt(2 * pi * var)`. -/
def gaussianDensity (L : Libm α) (x mean var : α) : α :=
  1 / L.sqrt (2 * L.pi * var) * L.exp (-(x - mean) ^ 2 / (2 * var))

/-- Dense evaluation of the mean: the loop of `meanLoop` over every cluster,
without the test `Z(i,k) != 0`. -/
def meanLoopDense (nu : Mat α) (Phi : Cube α) (Z chi : Mat α) (i : Nat)
    (Brow : Nat → α) : α :=
  (List.range Z.n_cols).foldl
    (fun mean k =>
      (List.range Phi.n_slices).foldl
        (fun mean n =>
          mean + Z.mem i k * chi.mem i n * dot Phi.n_cols (Phi.sliceRow n k) Brow)
        (mean + Z.mem i k * dot nu.n_cols (nu.row k) Brow))
    0

/-- Dense evaluation of the mean vector: the loop of `meanLoopMV` over every
cluster, without the test `Z(i,k) != 0`. -/
def meanLoopMVDense (nu : Mat α) (Phi : Cube α) (Z chi : Mat α) (i : Nat) : Nat → α :=
  (List.range Z.n_cols).foldl
    (fun mean k =>
      (List.range Phi.n_slices).foldl
        (fun mean n => fun j => mean j + Z.mem i k * chi.mem i n * Phi.sliceRow n k j)
        (fun j => mean j + Z.mem i k * nu.row k j))
    (fun _ => 0)

/-- The routine `calcLikelihood` with the dense mean. -/
def calcLikelihoodDense (L : Libm α) (y_obs : ArmaField (Vec α))
    (B_obs : ArmaField (Mat α)) (nu : Mat α) (Phi : Cube α) (Z chi : Mat α)
    (sigma : α) : α :=
  (List.range Z.n_rows).foldl
    (fun log_lik i =>
      (List.range (y_obs.mem i).n_elem).foldl
        (fun log_lik l =>
          let mean := meanLoopDense nu Phi Z chi i ((B_obs.mem i).row l)
          log_lik + dnorm L ((y_obs.mem i).mem l) mean (L.sqrt sigma) true)
        log_lik)
    0

/-- The routine `calcDIC2` with the dense mean. -/
def calcDIC2Dense (L : Libm α) (y_obs : Vec α) (B_obs : Mat α) (nu : Mat α)
    (Phi : Cube α) (Z chi : Mat α) (i j : Nat) (sigma : α) : α :=
  let mean := meanLoopDense nu Phi Z chi i (B_obs.row j)
  dnorm L (y_obs.mem j) mean (L.sqrt sigma) false

/-- The routine `calcLikelihoodMV` with the dense mean. -/
def calcLikelihoodMVDense (L : Libm α) (y_obs : Mat α) (nu : Mat α) (Phi : Cube α)
    (Z chi : Mat α) (sigma : α) : α :=
  (List.range chi.n_rows).foldl
    (fun log_lik i =>
      let mean := meanLoopMVDense nu Phi Z chi i
      let resid : Nat → α := fun j => y_obs.mem i j - mean j
      log_lik - (((y_obs.n_cols / 2 : Nat) : α) * L.log (2 * L.pi * sigma))
        - ((1 / (sigma * 2)) * dot y_obs.n_cols resid resid))
    0

/-- The routine `calcDIC2MV` with the dense mean. -/
def calcDIC2MVDense (L : Libm α) (y_obs : Vec α) (nu : Mat α) (Phi : Cube α)
    (Z chi : Mat α) (i : Nat) (sigma : α) : α :=
  let mean := meanLoopMVDense nu Phi Z chi i
  (List.range y_obs.n_elem).foldl
    (fun lik j => lik * dnorm L (y_obs.mem j) (mean j) (L.sqrt sigma) false)
    1

/-- Log-likelihood of the multivariate model as the sum over the subjects of
the log-density of the `d`-variate normal distribution with mean
`specMeanMV` and covariance `sigma * I`:
`-(d/2) * log(2*pi*sigma) - ||y_i - mean_i||^2 / (2*sigma)`, where `d/2` is
the exact half of `d = y_obs.n_cols`. -/
def specLikelihoodMV (L : Libm α) (y_obs : Mat α) (nu : Mat α) (Phi : Cube α)
    (Z chi : Mat α) (sigma : α) : α :=
  ∑ i in Finset.range chi.n_rows,
    (-((y_obs.n_cols : α) / 2) * L.log (2 * L.pi * sigma)
      - (∑ j in Finset.range y_obs.n_cols,
          (y_obs.mem i j - specMeanMV nu Phi Z chi i j) ^ 2) / (2 * sigma))

/-- Row `i` of `Z` puts weight 1 on cluster `k0` and weight 0 on every other
cluster. -/
def OneHotRow (Z : Mat α) (i k0 : Nat) : Prop :=
  k0 < Z.n_cols ∧ Z.mem i k0 = 1 ∧ ∀ k, k < Z.n_cols → k ≠ k0 → Z.mem i k = 0

/-- The matrices `nu`, `nu2` and the cubes `Phi`, `Phi2` have the same shapes
and the same entries in the row of cluster `k0`. -/
def AgreeOnCluster (nu nu2 : Mat α) (Phi Phi2 : Cube α) (k0 : Nat) : Prop :=
  nu2.n_cols = nu.n_cols ∧ Phi2.n_cols = Phi.n_cols ∧ Phi2.n_slices = Phi.n_slices ∧
  (∀ p, p < nu.n_cols → nu2.mem k0 p = nu.mem k0 p) ∧
  (∀ p n, p < Phi.n_cols → n < Phi.n_slices → Phi2.mem k0 p n = Phi.mem k0 p n)

/-! ### Sample inputs -/

/-- The matrix with the given rows (entries outside the rows are 0). -/
def Mat.ofRows (rows : List (List α)) : Mat α :=
  { n_rows := rows.length
    n_cols := (rows.headD []).length
    mem := fun i j => (rows.getD i []).getD j 0 }

/-- The vector with the given entries. -/
def Vec.ofList (xs : List α) : Vec α :=
  { n_elem := xs.length, mem := fun i => xs.getD i 0 }

/-- The cube with `n_slices` slices of `n_rows` by `n_cols` zeros. -/
def Cube.zeros (n_rows n_cols n_slices : Nat) : Cube α :=
  { n_rows := n_rows, n_cols := n_cols, n_slices := n_slices, mem := fun _ _ _ => 0 }

/-- Scenario with `K = 2`, `P = 3`, `N = 1`, one subject: cluster means. -/
def exNu : Mat α := Mat.ofRows [[1, 0, 0], [0, 1, 0]]

/-- Scenario: membership of the one subject, one-hot on cluster 0. -/
def exZ : Mat α := Mat.ofRows [[1, 0]]

/-- Scenario: score of the one subject on the one latent component. -/
def exChi : Mat α := Mat.ofRows [[0]]

/-- Scenario: a 4 by 3 selection matrix as basis matrix of the one subject. -/
def exB : ArmaField (Mat α) :=
  { n_elem := 1
    mem := fun _ => Mat.ofRows [[1, 0, 0], [0, 1, 0], [0, 0, 1], [1, 0, 0]] }

/-- Scenario: the four observed values of the one subject. -/
def exY : ArmaField (Vec α) :=
  { n_elem := 1, mem := fun _ => Vec.ofList [1, 0, 0, 2] }

/-- Multivariate input with one subject and dimension `d = 3`: the observed
vector. -/
def exMVy : Mat α := Mat.ofRows [[1, 0, 0]]

/-- Multivariate input: mean vector of the one cluster. -/
def exMVNu : Mat α := Mat.ofRows [[0, 0, 0]]

/-- Multivariate input: membership of the one subject in the one cluster. -/
def exMVZ : Mat α := Mat.ofRows [[1]]

/-- Multivariate input: score of the one subject on the one latent component. -/
def exMVChi : Mat α := Mat.ofRows [[0]]

/-- Scenario with two subjects: memberships. -/
def exTwoZ : Mat α := Mat.ofRows [[1, 0], [0, 1]]

/-- Scenario with two subjects: scores on the one latent component. -/
def exTwoChi : Mat α := Mat.ofRows [[1], [2]]

/-- Scenario with two subjects: basis matrices at the two points of each. -/
def exTwoB : ArmaField (Mat α) :=
  { n_elem := 2
    mem := fun i =>
      if i = 0 then Mat.ofRows [[1, 0, 0], [0, 1, 0]] else Mat.ofRows [[0, 0, 1], [1, 1, 0]] }

/-- Scenario with two subjects: the two observed values of each. -/
def exTwoY : ArmaField (Vec α) :=
  { n_elem := 2, mem := fun i => if i = 0 then Vec.ofList [1, 0] else Vec.ofList [2, 3] }

/-- Scenario with two subjects: the cluster means `exNu` with the row of
cluster 1 replaced by zeros. -/
def exNuOther : Mat α := Mat.ofRows [[1, 0, 0], [0, 0, 0]]

/-- The permutation of the indices 0 and 1 that exchanges them. -/
def exSwap : Nat → Nat := fun i => 1 - i

/-- Covariate scenario: coefficients `eta`, all equal to one, for `K = 2`
clusters, `P = 3` basis functions and one covariate. -/
def exEta : Cube α := { n_rows := 3, n_cols := 1, n_slices := 2, mem := fun _ _ _ => 1 }

/-- Covariate scenario: coefficients `xi(iter,k)`, all equal to one. -/
def exXi : Nat → Nat → Cube α :=
  fun _ _ => { n_rows := 3, n_cols := 1, n_slices := 1, mem := fun _ _ _ => 1 }

/-! ### Covariate-adjusted routines -/

/-- Entry `p` of the product `c.slice(n) * X.row(i).t()` of a slice of a cube
with the covariate row of subject `i`. -/
def sliceTimesRow (c : Cube α) (n : Nat) (X : Mat α) (i : Nat) : Nat → α :=
  fun p => dot c.n_cols (fun q => c.mem p q n) (X.row i)

/-- The loop over the clusters `k` of `calcLikelihoodCovariateAdj` (lines
182-191).  The field `xi` is addressed as `xi(iter,k)`. -/
def meanLoopCovariateAdj (nu : Mat α) (eta Phi : Cube α) (xi : Nat → Nat → Cube α)
    (Z chi : Mat α) (iter : Nat) (X : Mat α) (i : Nat) (Brow : Nat → α) : α :=
  (List.range Z.n_cols).foldl
    (fun mean k =>
      if Z.mem i k ≠ 0 then
        (List.range Phi.n_slices).foldl
          (fun mean n =>
            mean + Z.mem i k * chi.mem i n *
              dot Phi.n_cols
                (fun p => Phi.sliceRow n k p + sliceTimesRow (xi iter k) n X i p) Brow)
          (mean + Z.mem i k *
            dot nu.n_cols (fun p => nu.row k p + sliceTimesRow eta k X i p) Brow)
      else mean)
    0

/-- Log likelihood `calcLikelihoodCovariateAdj` of the covariate-adjusted
functional model. -/
def calcLikelihoodCovariateAdj (L : Libm α) (y_obs : ArmaField (Vec α))
    (B_obs : ArmaField (Mat α)) (nu : Mat α) (eta Phi : Cube α) (xi : Nat → Nat → Cube α)
    (Z chi : Mat α) (iter : Nat) (X : Mat α) (sigma : α) : α :=
  (List.range Z.n_rows).foldl
    (fun log_lik i =>
      (List.range (y_obs.mem i).n_elem).foldl
        (fun log_lik l =>
          let mean := meanLoopCovariateAdj nu eta Phi xi Z chi iter X i ((B_obs.mem i).row l)
          log_lik + dnorm L ((y_obs.mem i).mem l) mean (L.sqrt sigma) true)
        log_lik)
    0

/-- The loop over the clusters `k` of `calcLikelihoodMVCovariateAdj` (lines
226-234): the mean vector of subject `i`. -/
def meanLoopMVCovariateAdj (nu : Mat α) (eta Phi : Cube α) (xi : Nat → Nat → Cube α)
    (Z chi : Mat α) (iter : Nat) (X : Mat α) (i : Nat) : Nat → α :=
  (List.range Z.n_cols).foldl
    (fun mean k =>
      if Z.mem i k ≠ 0 then
        (List.range Phi.n_slices).foldl
          (fun mean n => fun j =>
            mean j + Z.mem i k * chi.mem i n *
              (Phi.sliceRow n k j + sliceTimesRow (xi iter k) n X i j))
          (fun j => mean j + Z.mem i k * (nu.row k j + sliceTimesRow eta k X i j))
      else mean)
    (fun _ => 0)

/-- Log likelihood `calcLikelihoodMVCovariateAdj` of the covariate-adjusted
multivariate model. -/
def calcLikelihoodMVCovariateAdj (L : Libm α) (y_obs : Mat α) (nu : Mat α)
    (eta Phi : Cube α) (xi : Nat → Nat → Cube α) (Z chi : Mat α) (iter : Nat) (X : Mat α)
    (sigma : α) : α :=
  (List.range chi.n_rows).foldl
    (fun log_lik i =>
      let mean := meanLoopMVCovariateAdj nu eta Phi xi Z chi iter X i
      let resid : Nat → α := fun j => y_obs.mem i j - mean j
      log_lik - (((y_obs.n_cols / 2 : Nat) : α) * L.log (2 * L.pi * sigma))
        - ((1 / (sigma * 2)) * dot y_obs.n_cols resid resid))
    0

/-- The covariate effects vanish: `eta` and every `xi(iter,k)` are zero, or
the covariate matrix `X` is zero. -/
def NoCovariateEffect (eta : Cube α) (xi : Nat → Nat → Cube α) (iter : Nat) (X : Mat α) :
    Prop :=
  ((∀ p c k, eta.mem p c k = 0) ∧ ∀ k p c n, (xi iter k).mem p c n = 0) ∨
  ∀ i c, X.mem i c = 0

/-! ### Reordering of the subjects and of the observed points -/

/-- The map `π` permutes the indices `0, ..., n - 1`. -/
def PermOn (π : Nat → Nat) (n : Nat) : Prop :=
  (∀ i, i < n → π i < n) ∧ ∀ i j, i < n → j < n → π i = π j → i = j

/-- The matrix whose row `i` is row `π i` of `m`. -/
def Mat.permuteRows (m : Mat α) (π : Nat → Nat) : Mat α :=
  { m with mem := fun i k => m.mem (π i) k }

/-- The vector whose entry `l` is entry `τ l` of `v`. -/
def Vec.permute (v : Vec α) (τ : Nat → Nat) : Vec α :=
  { v with mem := fun l => v.mem (τ l) }

/-- The field whose entry `i` is entry `π i` of `f`. -/
def ArmaField.permute {β : Type} (f : ArmaField β) (π : Nat → Nat) : ArmaField β :=
  { f with mem := fun i => f.mem (π i) }

/-- The observations with the points of every subject `i` reordered by
`τ i`. -/
def permutePointsY (y_obs : ArmaField (Vec α)) (τ : Nat → Nat → Nat) : ArmaField (Vec α) :=
  { y_obs with mem := fun i => (y_obs.mem i).permute (τ i) }

/-- The basis matrices with the rows of every subject `i` reordered by
`τ i`. -/
def permutePointsB (B_obs : ArmaField (Mat α)) (τ : Nat → Nat → Nat) : ArmaField (Mat α) :=
  { B_obs with mem := fun i => (B_obs.mem i).permuteRows (τ i) }

end Likelihood

section Loading

variable {α : Type} [LinearOrderedField α] {β : Type}

/-! ## Loading the chunk files (`PostProcessing.cpp`)

The directory is a function from the file index `i` to the container stored
in file number `i` (`Nu<i>.txt`, `Phi<i>.txt`).  The routines return `none`
where Armadillo raises an error.  The arguments `n_files` and `n_MCMC` are
non-negative `int`s. -/

/-- Subtraction of the unsigned 64-bit type `arma::uword`. -/
def usub (a b : Nat) : Nat := (a + 2 ^ 64 - b % 2 ^ 64) % 2 ^ 64

/-- Multiplication of the unsigned 64-bit type `arma::uword`. -/
def umul (a b : Nat) : Nat := (a * b) % 2 ^ 64

/-- Assignment `dst.subcube(r1, c1, s1, r2, c2, s2) = src` of Armadillo:
an error when the corners are misordered or outside `dst`, or when `src` has
not the shape of the sub-cube; else the elements of the sub-cube are
replaced by those of `src`. -/
def Cube.assignSubcube (dst : Cube α) (r1 c1 s1 r2 c2 s2 : Nat) (src : Cube α) :
    Option (Cube α) :=
  if r1 > r2 ∨ c1 > c2 ∨ s1 > s2 ∨
      r2 ≥ dst.n_rows ∨ c2 ≥ dst.n_cols ∨ s2 ≥ dst.n_slices then none
  else if src.n_rows ≠ r2 - r1 + 1 ∨ src.n_cols ≠ c2 - c1 + 1 ∨
      src.n_slices ≠ s2 - s1 + 1 then none
  else some
    { dst with
      mem := fun r c s =>
        if r1 ≤ r ∧ r ≤ r2 ∧ c1 ≤ c ∧ c ≤ c2 ∧ s1 ≤ s ∧ s ≤ s2 then
          src.mem (r - r1) (c - c1) (s - s1)
        else dst.mem r c s }

/-- Body of the loop over the files `i = 1, ..., n_files - 1` that fills
`nu_samp` (lines 24-26, the same at lines 79-81 and 409-411). -/
def loadNuStep (file : Nat → Cube α) (nu_samp : Cube α) (i : Nat) : Option (Cube α) :=
  let nu_i := file i
  nu_samp.assignSubcube 0 0 (umul nu_i.n_slices i)
    (usub nu_i.n_rows 1) (usub nu_i.n_cols 1) (usub (umul nu_i.n_slices (i + 1)) 1) nu_i

/-- Assembly of `nu_samp` from the files `Nu0.txt`, ..., in `GetMeanCI_PW`
(lines 19-27), `GetMeanCI_S` (lines 74-82) and `Model_DIC` (lines 404-412). -/
def loadNu (file : Nat → Cube α) (n_files : Nat) : Option (Cube α) :=
  let nu_i := file 0
  let nu_samp := Cube.zeros nu_i.n_rows nu_i.n_cols (umul nu_i.n_slices n_files)
  (nu_samp.assignSubcube 0 0 0
      (usub nu_i.n_rows 1) (usub nu_i.n_cols 1) (usub nu_i.n_slices 1) nu_i).bind
    (fun nu_samp => (List.range' 1 (n_files - 1)).foldlM (loadNuStep file) nu_samp)

/-- Element `f(i,0)` of a field; an error when `i` is out of range. -/
def ArmaField.read (f : ArmaField β) (i : Nat) : Option β :=
  if i < f.n_elem then some (f.mem i) else none

/-- Assignment `f(i,0) = x`; an error when `i` is out of range. -/
def ArmaField.write (f : ArmaField β) (i : Nat) (x : β) : Option (ArmaField β) :=
  if i < f.n_elem then some { f with mem := fun t => if t = i then x else f.mem t }
  else none

/-- Assembly of `phi_samp` from the files `Phi0.txt`, ..., in `GetCovCI_Pw`
(lines 147-159), `GetCovCI_S` (lines 230-242) and `Model_DIC` (lines 415-427).
The loop headers are read with `;` where the source has `,`.  In the loop over
the later files the element copied is `phi_i(i,0)`, `i` being the file
index. -/
def loadPhi [Inhabited β] (file : Nat → ArmaField β) (n_files n_MCMC : Nat) :
    Option (ArmaField β) :=
  let phi_i := file 0
  let phi_samp : ArmaField β := { n_elem := n_MCMC * n_files, mem := fun _ => default }
  ((List.range n_MCMC).foldlM
      (fun phi_samp i => (phi_i.read i).bind (fun x => phi_samp.write i x)) phi_samp).bind
    (fun phi_samp =>
      (List.range' 1 (n_files - 1)).foldlM
        (fun phi_samp i =>
          let phi_i := file i
          (List.range n_MCMC).foldlM
            (fun phi_samp j =>
              (phi_i.read i).bind (fun x => phi_samp.write (i * n_MCMC + j) x))
            phi_samp)
        phi_samp)

/-! ### Reference statements for the loaders -/

/-- The cube `nu_samp` is the concatenation of the chunks in file order: it has
`M_0 + ... + M_(n_files-1)` slices, `M_i` being the number of slices of chunk
`i`, and slice `j` of chunk `i` is at position `M_0 + ... + M_(i-1) + j`. -/
def AssembledInOrder (file : Nat → Cube α) (n_files : Nat) (nu_samp : Cube α) : Prop :=
  nu_samp.n_slices = ∑ t in Finset.range n_files, (file t).n_slices ∧
  ∀ i, i < n_files → ∀ j, j < (file i).n_slices →
    ∀ r, r < (file i).n_rows → ∀ c, c < (file i).n_cols →
      nu_samp.mem r c ((∑ t in Finset.range i, (file t).n_slices) + j) = (file i).mem r c j

/-- Every one of the first `n_files` chunks has shape `K` by `P` by `M`. -/
def ChunksOfShape (file : Nat → Cube α) (n_files K P M : Nat) : Prop :=
  ∀ i, i < n_files → (file i).n_rows = K ∧ (file i).n_cols = P ∧ (file i).n_slices = M

/-- Invariant of the loop over the files: the shape of `nu_samp`, and the
chunks `0, ..., t` in their slices. -/
def NuLoaded (file : Nat → Cube α) (n K P M t : Nat) (acc : Cube α) : Prop :=
  (acc.n_rows = K ∧ acc.n_cols = P ∧ acc.n_slices = M * n) ∧
  ∀ i, i ≤ t → ∀ j, j < M → ∀ r, r < K → ∀ c, c < P →
    acc.mem r c (i * M + j) = (file i).mem r c j

/-! ### Sample chunk files -/

/-- A cube of one row and one column whose slices hold the given values. -/
def Cube.ofSlices (xs : List α) : Cube α :=
  { n_rows := 1, n_cols := 1, n_slices := xs.length, mem := fun _ _ s => xs.getD s 0 }

/-- Two chunk files with draw counts 2 and 1: draws `(10, 11)` and `(20)`. -/
def exChunksUneven : Nat → Cube α := fun i =>
  if i = 0 then Cube.ofSlices [10, 11] else Cube.ofSlices [20]

/-- Two chunk files of shape 2 by 3 with 3 draws each; entry `(r, c)` of draw
`s` of file `i` is `100 * i + 10 * s + 3 * r + c`. -/
def exChunksEven : Nat → Cube α := fun i =>
  { n_rows := 2, n_cols := 3, n_slices := 3
    mem := fun r c s => 100 * (i : α) + 10 * (s : α) + 3 * (r : α) + (c : α) }

/-- Two chunk files of two draws each, the draws being labelled by numbers:
`(10, 11)` and `(20, 21)`. -/
def exPhiChunks : Nat → ArmaField Nat := fun i =>
  if i = 0 then { n_elem := 2, mem := fun j => 10 + j }
  else { n_elem := 2, mem := fun j => 20 + j }

/-! ### The sigma loader -/

/-- The vector of `n_elem` zeros. -/
def Vec.zeros (n_elem : Nat) : Vec α := { n_elem := n_elem, mem := fun _ => 0 }

/-- The entries of a vector in order. -/
def Vec.toList (v : Vec α) : List α := (List.range v.n_elem).map v.mem

/-- Assignment `dst.subvec(a, b) = src`.  Armadillo raises an error when the
indices are out of bounds or incorrectly used, and when the size of `src` is
not that of the view. -/
def Vec.assignSubvec (dst : Vec α) (a b : Nat) (src : Vec α) : Option (Vec α) :=
  if a > b ∨ b ≥ dst.n_elem then none
  else if src.n_elem ≠ b - a + 1 then none
  else some { dst with mem := fun r => if a ≤ r ∧ r ≤ b then src.mem (r - a) else dst.mem r }

/-- One pass of the loop of `GetSigamCI` (lines 324-327) for the file
index `i`. -/
def loadSigmaStep (file : Nat → Vec α) (sigma_samp : Vec α) (i : Nat) : Option (Vec α) :=
  let sigma_i := file i
  sigma_samp.assignSubvec (umul sigma_i.n_elem i) (usub (umul sigma_i.n_elem (i + 1)) 1) sigma_i

/-- Lines 320-327 of `GetSigamCI`: the draws of sigma squared assembled from
the files `Sigma0.txt`, ..., the content of file `i` being `file i`. -/
def loadSigma (file : Nat → Vec α) (n_files : Nat) : Option (Vec α) :=
  let sigma_i := file 0
  let sigma_samp := Vec.zeros (umul sigma_i.n_elem n_files)
  (sigma_samp.assignSubvec 0 (usub sigma_i.n_elem 1) sigma_i).bind
    (fun sigma_samp => (List.range' 1 (n_files - 1)).foldlM (loadSigmaStep file) sigma_samp)

/-- Two files of draws of sigma squared: `(1, 2)` and `(3, 4)`. -/
def exSigmaChunks : Nat → Vec α := fun i =>
  if i = 0 then Vec.ofList [1, 2] else Vec.ofList [3, 4]

/-- One file of three draws `0, 0, 1` of a 1 by 1 membership matrix. -/
def exZChunks : Nat → Cube α := fun _ => Cube.ofSlices [0, 0, 1]

/-- The chunk files `0, ..., n_files - 1` are non-empty, hold `M` draws each
and have sizes in the range of `uword`; their numbers of rows and of columns
may differ. -/
def ChunksOfCount (file : Nat → Cube α) (n_files M : Nat) : Prop :=
  ∀ i, i < n_files →
    (0 < (file i).n_rows ∧ (file i).n_rows < 2 ^ 64) ∧
    (0 < (file i).n_cols ∧ (file i).n_cols < 2 ^ 64) ∧ (file i).n_slices = M

/-- Two chunk files of one draw each: a 2 by 2 draw with entries
`1, 2, 3, 4`, then a 1 by 1 draw with entry `20`. -/
def exChunksShrink : Nat → Cube α := fun i =>
  if i = 0 then { n_rows := 2, n_cols := 2, n_slices := 1, mem := fun r c _ => 2 * (r : α) + (c : α) + 1 }
  else Cube.ofSlices [20]

/-- Two chunk files of one draw each: a 1 by 1 draw with entry `20`, then a
2 by 2 draw with entries `1, 2, 3, 4`. -/
def exChunksGrow : Nat → Cube α := fun i =>
  if i = 0 then Cube.ofSlices [20]
  else { n_rows := 2, n_cols := 2, n_slices := 1, mem := fun r c _ => 2 * (r : α) + (c : α) + 1 }

end Loading

section CredibleIntervals

variable {α : Type} [LinearOrderedField α] [FloorRing α]

/-! ## Credible intervals (`PostProcessing.cpp`)

The statistics of Armadillo are defined on the list of the entries of a
vector, for a non-empty vector. -/

/-- Column `m.col(j)` as the list of its entries. -/
def Mat.col (m : Mat α) (j : Nat) : List α :=
  (List.range m.n_rows).map (fun i => m.mem i j)

/-- Sample quantile `arma::quantile(X, p)` for a probability `0 <= p <= 1`
(definition 5 of Hyndman and Fan): with `Y` the entries in ascending order
and `N` their number, the smallest entry when `p < (1 - 0.5)/N`, the largest
when `p > (N - 0.5)/N`, and otherwise `(1 - g) * Y[j-1] + g * Y[j]` with
`j = floor(N*p + 0.5)` and `g = N*p + 0.5 - j`. -/
def quantile (X : List α) (p : α) : α :=
  let Y := X.insertionSort (fun a b => a ≤ b)
  let N : α := (X.length : α)
  let P_min : α := (1 - 1 / 2) / N
  let P_max : α := (N - 1 / 2) / N
  if p < P_min then Y.getD 0 0
  else if p > P_max then Y.getD (X.length - 1) 0
  else
    let tmp : α := N * p + 1 / 2
    let j : Nat := Nat.floor tmp
    let g : α := tmp - (j : α)
    (1 - g) * Y.getD (j - 1) 0 + g * Y.getD j 0

/-- Sample mean `arma::mean` of the entries of a vector. -/
def mean (X : List α) : α := X.sum / (X.length : α)

/-- Sample standard deviation `arma::stddev(X, 0)`, normalised by `N - 1`; 0
for fewer than two entries. -/
def stddev (L : Libm α) (X : List α) : α :=
  if 2 ≤ X.length then
    L.sqrt ((X.map (fun x => (x - mean X) ^ 2)).sum / ((X.length : α) - 1))
  else 0

/-- Largest entry `arma::max` of a vector. -/
def vecMax (X : List α) : α := X.foldl max (X.headD 0)

/-- The vector of `n` zeros whose entry `i` is then set to `f i` in a loop
over `i = 0, ..., n - 1`. -/
def fillVec (n : Nat) (f : Nat → α) : List α :=
  (List.range n).foldl (fun v i => v.set i (f i)) (List.replicate n 0)

/-- The list returned by the interval routines for a curve: the three
vectors `CI_975`, `CI_50` and `CI_025`. -/
structure CI (α : Type) where
  CI_975 : List α
  CI_50 : List α
  CI_025 : List α

/-- Lines 40-57 of `GetMeanCI_PW`: the pointwise band computed from the
matrix `f_samp` of the draws (rows) of the curve at the points of `time`
(columns). -/
def GetMeanCI_PW_band (f_samp : Mat α) : CI α :=
  let time_n_elem := f_samp.n_cols
  let CI_975 : List α := List.replicate time_n_elem 0
  let CI_50 : List α := List.replicate time_n_elem 0
  let CI_025 : List α := List.replicate time_n_elem 0
  (List.range time_n_elem).foldl
    (fun ci i =>
      let q0 := quantile (f_samp.col i) 0.025
      let q1 := quantile (f_samp.col i) 0.5
      let q2 := quantile (f_samp.col i) 0.975
      { CI_975 := ci.CI_975.set i q2, CI_50 := ci.CI_50.set i q1, CI_025 := ci.CI_025.set i q0 })
    { CI_975 := CI_975, CI_50 := CI_50, CI_025 := CI_025 }

/-- Lines 94-123 of `GetMeanCI_S`: the simultaneous band computed from the
matrix `f_samp` of the draws (rows) of the curve at the points of `time`
(columns), for a standard deviation different from 0 at every point.  The
quotient by a standard deviation of 0 is in the definition
`GetMeanCI_S_band_dbl` of the part on the special values. -/
def GetMeanCI_S_band (L : Libm α) (f_samp : Mat α) : CI α :=
  let time_n_elem := f_samp.n_cols
  let f_mean : Nat → α := fun j => mean (f_samp.col j)
  let f_sd : Nat → α := fun j => stddev L (f_samp.col j)
  let C : List α :=
    fillVec f_samp.n_rows (fun i =>
      let ph1 := fillVec time_n_elem (fun j => |(f_samp.mem i j - f_mean j) / f_sd j|)
      vecMax ph1)
  let q0 := quantile C 0.95
  (List.range time_n_elem).foldl
    (fun ci i =>
      { CI_975 := ci.CI_975.set i (f_mean i + q0 * f_sd i),
        CI_50 := ci.CI_50.set i (f_mean i),
        CI_025 := ci.CI_025.set i (f_mean i - q0 * f_sd i) })
    { CI_975 := List.replicate time_n_elem 0,
      CI_50 := List.replicate time_n_elem 0,
      CI_025 := List.replicate time_n_elem 0 }

/-! ### Reference definitions for the bands -/

/-- Mean across the draws of the curve value at grid point `g`. -/
def colMean (f_samp : Mat α) (g : Nat) : α :=
  (∑ s in Finset.range f_samp.n_rows, f_samp.mem s g) / (f_samp.n_rows : α)

/-- Standard deviation across the draws of the curve value at grid point `g`,
normalised by `S - 1`. -/
def colSd (L : Libm α) (f_samp : Mat α) (g : Nat) : α :=
  L.sqrt ((∑ s in Finset.range f_samp.n_rows, (f_samp.mem s g - colMean f_samp g) ^ 2)
    / ((f_samp.n_rows : α) - 1))

/-- The studentized deviations `|f_samp(s,g) - mean(g)| / sd(g)` of draw `s`
over the grid points `g`. -/
def studentized (L : Libm α) (f_samp : Mat α) (s : Nat) : Set α :=
  {x | ∃ g, g < f_samp.n_cols ∧
    x = |f_samp.mem s g - colMean f_samp g| / colSd L f_samp g}

/-! ### Sample draws -/

/-- Three draws of a curve at one point: 11, 13 and 0 (mean 8, standard
deviation 7). -/
def exDraws3 : Mat α := Mat.ofRows [[11], [13], [0]]

/-- Twenty-one draws of a curve at one point: twenty draws 0 and one
draw 21. -/
def exDraws21 : Mat α :=
  { n_rows := 21, n_cols := 1, mem := fun s _ => if s = 20 then 21 else 0 }

/-! ### Intervals for sigma squared and for the memberships -/

/-- The list returned by `GetSigamCI`: three numbers. -/
structure ScalarCI (α : Type) where
  CI_975 : α
  CI_50 : α
  CI_025 : α

/-- The routine `GetSigamCI` (lines 317-341): `q = quantile(sigma_samp, p)`
with `p = (0.025, 0.5, 0.975)`, then `CI_975 = q(0)`, `CI_50 = q(1)` and
`CI_025 = q(2)`. -/
def GetSigamCI (file : Nat → Vec α) (n_files : Nat) : Option (ScalarCI α) :=
  (loadSigma file n_files).map (fun sigma_samp =>
    let q0 := quantile sigma_samp.toList 0.025
    let q1 := quantile sigma_samp.toList 0.5
    let q2 := quantile sigma_samp.toList 0.975
    { CI_975 := q0, CI_50 := q1, CI_025 := q2 })

/-- The matrix of `n_rows` by `n_cols` zeros. -/
def Mat.zeros (n_rows n_cols : Nat) : Mat α :=
  { n_rows := n_rows, n_cols := n_cols, mem := fun _ _ => 0 }

/-- Element assignment `m(i,j) = v`.  Armadillo raises an error when the index
is out of bounds. -/
def Mat.write (m : Mat α) (i j : Nat) (v : α) : Option (Mat α) :=
  if i ≥ m.n_rows ∨ j ≥ m.n_cols then none
  else some { m with mem := fun r c => if r = i ∧ c = j then v else m.mem r c }

/-- The draws of cell `(i, j)` of a cube over its slices. -/
def Cube.tube (c : Cube α) (i j : Nat) : List α :=
  (List.range c.n_slices).map (fun s => c.mem i j s)

/-- The list returned by the interval routines for a matrix or a surface: the
three matrices `CI_975`, `CI_50` and `CI_025`. -/
structure MatCI (α : Type) where
  CI_975 : Mat α
  CI_50 : Mat α
  CI_025 : Mat α

/-- Lines 362-376 of `GetZCI`, with `Z_samp` the assembled draws and `Z_i` the
chunk loaded last: `q = quantile(Z_samp.row(i).col(j), p)` with
`p = (0.025, 0.5, 0.975)`, then `CI_975(i,j) = q(0)`, `CI_50(i,j) = q(1)` and
`CI_025(i,j) = q(2)`.  The source declares `Z_samp` as `arma::vec`; it is read
as the cube that `subcube` addresses, and `Z_samp.row(i).col(j)` as the draws
of cell `(i, j)`. -/
def GetZCI_band (Z_samp Z_i : Cube α) : Option (MatCI α) :=
  (List.range Z_i.n_rows).foldlM
    (fun ci i =>
      (List.range Z_i.n_cols).foldlM
        (fun ci j =>
          let q0 := quantile (Z_samp.tube i j) 0.025
          let q1 := quantile (Z_samp.tube i j) 0.5
          let q2 := quantile (Z_samp.tube i j) 0.975
          (ci.CI_975.write i j q0).bind (fun CI_975 =>
            (ci.CI_50.write i j q1).bind (fun CI_50 =>
              (ci.CI_025.write i j q2).bind (fun CI_025 =>
                some { CI_975 := CI_975, CI_50 := CI_50, CI_025 := CI_025 }))))
        ci)
    { CI_975 := Mat.zeros Z_i.n_rows Z_i.n_cols,
      CI_50 := Mat.zeros Z_i.n_rows Z_i.n_cols,
      CI_025 := Mat.zeros Z_i.n_rows Z_i.n_cols }

/-- The routine `GetZCI` (lines 351-383); the chunks are assembled by the loop
of the Nu loader, and the content of file `i` is `file i`. -/
def GetZCI (file : Nat → Cube α) (n_files : Nat) : Option (MatCI α) :=
  (loadNu file n_files).bind (fun Z_samp => GetZCI_band Z_samp (file (n_files - 1)))

/-! ### Curve and covariance samples, intervals for the covariance

`GetCovCI_Pw` and `GetCovCI_S` are not well-typed C++ as they stand.  They
are read as follows: the loop headers with `;` for `,`; the placeholders
`CI_975`, `CI_50`, `CI_025` and `ph1`, declared `arma::vec`, as the matrices
of the shapes given to `arma::zeros`; `phi_samp.n_slices` and
`phi_samp.slice(j)` as those of the cube `phi_samp(i,0)` of draw `i`, the two
rows being transposed so that the products conform; in `GetCovCI_S`,
`nu_samp.n_slices` as `cov_samp.n_slices`, `f_mean` and `f_sd` as `cov_mean`
and `cov_sd`, and `arma::ph1.max()` as `ph1.max()`.  The basis matrices `B`,
`B1` and `B2` computed by `splines2` are inputs. -/

/-- The row `c.slice(n).row(k)`, with the bounds checks of Armadillo. -/
def Cube.sliceRowAt (c : Cube α) (n k : Nat) : Option (Nat → α) :=
  if n < c.n_slices ∧ k < c.n_rows then some (c.sliceRow n k) else none

/-- Lines 35-38 of `GetMeanCI_PW` (and 90-93 of `GetMeanCI_S`): row `i` of
`f_samp` is `(B * nu_samp.slice(i).row(k-1).t()).t()`.  The product needs
`B.n_cols = nu_samp.n_cols`; the matrix `B` has `time.n_elem` rows. -/
def curveSamples (B : Mat α) (nu_samp : Cube α) (k : Nat) : Option (Mat α) :=
  (List.range nu_samp.n_slices).foldlM
    (fun f_samp i =>
      (nu_samp.sliceRowAt i (usub k 1)).bind (fun row =>
        if B.n_cols ≠ nu_samp.n_cols then none
        else some { f_samp with
          mem := fun r c => if r = i then dot B.n_cols (B.row c) row else f_samp.mem r c }))
    (Mat.zeros nu_samp.n_slices B.n_rows)

/-- Lines 177-183 of `GetCovCI_Pw` (and 260-266 of `GetCovCI_S`): slice `i`
of `cov_samp` is the sum over the components `j` of
`B1 * phi(j).row(l) * (B2 * phi(j).row(m)).t()`, with `phi(j)` slice `j` of
draw `i` and `n_draws = n_MCMC * n_files`. -/
def covSamples (B1 B2 : Mat α) (phi_samp : ArmaField (Cube α)) (n_draws l m : Nat) :
    Option (Cube α) :=
  (List.range n_draws).foldlM
    (fun cov_samp i =>
      (List.range (phi_samp.mem i).n_slices).foldlM
        (fun cov_samp j =>
          ((phi_samp.mem i).sliceRowAt j l).bind (fun row_l =>
            ((phi_samp.mem i).sliceRowAt j m).bind (fun row_m =>
              some { cov_samp with
                mem := fun r c s =>
                  if s = i then
                    cov_samp.mem r c s +
                      dot B1.n_cols (B1.row r) row_l * dot B2.n_cols (B2.row c) row_m
                  else cov_samp.mem r c s })))
        cov_samp)
    (Cube.zeros B1.n_rows B2.n_rows n_draws)

/-- The three assignments `CI_025(i,j) = lo`, `CI_50(i,j) = mid` and
`CI_975(i,j) = hi`, in this order, of the loops of `GetCovCI_Pw` (lines
196-198) and `GetCovCI_S` (lines 298-300). -/
def MatCI.assignCell (ci : MatCI α) (i j : Nat) (lo mid hi : α) : Option (MatCI α) :=
  (ci.CI_025.write i j lo).bind (fun CI_025 =>
    (ci.CI_50.write i j mid).bind (fun CI_50 =>
      (ci.CI_975.write i j hi).bind (fun CI_975 =>
        some { CI_975 := CI_975, CI_50 := CI_50, CI_025 := CI_025 })))

/-- The placeholders and the two loops over the grid shared by `GetCovCI_Pw`
(lines 186-200) and `GetCovCI_S` (lines 291-302): `CI_975` and `CI_50` are
`zeros(time1.n_elem, time2.n_elem)`, `CI_025` is
`zeros(time2.n_elem, time2.n_elem)`, and cell `(i, j)` receives the values
`lo i j`, `mid i j` and `hi i j`. -/
def fillCovCI (time1_n_elem time2_n_elem : Nat) (lo mid hi : Nat → Nat → α) :
    Option (MatCI α) :=
  (List.range time1_n_elem).foldlM
    (fun ci i =>
      (List.range time2_n_elem).foldlM
        (fun ci j => ci.assignCell i j (lo i j) (mid i j) (hi i j))
        ci)
    { CI_975 := Mat.zeros time1_n_elem time2_n_elem,
      CI_50 := Mat.zeros time1_n_elem time2_n_elem,
      CI_025 := Mat.zeros time2_n_elem time2_n_elem }

/-- Lines 185-200 of `GetCovCI_Pw`, with `time1.n_elem` and `time2.n_elem`
the numbers of rows and of columns of `cov_samp`: in the loops,
`q = quantile(cov_samp.col(i), p)` with `p = (0.025, 0.5, 0.975)`, then
`CI_025(i,j) = q(0)`, `CI_50(i,j) = q(1)` and `CI_975(i,j) = q(2)`.  The
argument `colOf` is the sample that the expression `cov_samp.col(i)` passes
to `arma::quantile`; the expression names column `i` of the cube and has no
`j`. -/
def GetCovCI_Pw_band (colOf : Cube α → Nat → List α) (cov_samp : Cube α) :
    Option (MatCI α) :=
  fillCovCI cov_samp.n_rows cov_samp.n_cols
    (fun i _ => quantile (colOf cov_samp i) 0.025)
    (fun i _ => quantile (colOf cov_samp i) 0.5)
    (fun i _ => quantile (colOf cov_samp i) 0.975)

/-- Lines 268-302 of `GetCovCI_S`, with `time1.n_elem` and `time2.n_elem` the
numbers of rows and of columns of `cov_samp`: mean and standard deviation of
every cell over the draws, the maxima `C(i)` of the studentized deviations,
their 0.95 quantile `q(0)`, and in the loops
`CI_025(i,j) = mean(i,j) - q(0) * sd(i,j)`, `CI_50(i,j) = mean(i,j)` and
`CI_975(i,j) = mean(i,j) + q(0) * sd(i,j)`. -/
def GetCovCI_S_band (L : Libm α) (cov_samp : Cube α) : Option (MatCI α) :=
  let time1_n_elem := cov_samp.n_rows
  let time2_n_elem := cov_samp.n_cols
  let cov_mean : Nat → Nat → α := fun i j => mean (cov_samp.tube i j)
  let cov_sd : Nat → Nat → α := fun i j => stddev L (cov_samp.tube i j)
  let C : List α :=
    fillVec cov_samp.n_slices (fun i =>
      let ph1 := (List.range time1_n_elem).flatMap (fun j =>
        (List.range time2_n_elem).map (fun k =>
          |(cov_samp.mem j k i - cov_mean j k) / cov_sd j k|))
      vecMax ph1)
  let q0 := quantile C 0.95
  fillCovCI time1_n_elem time2_n_elem
    (fun i j => cov_mean i j - q0 * cov_sd i j)
    (fun i j => cov_mean i j)
    (fun i j => cov_mean i j + q0 * cov_sd i j)

/-- Covariance draws on a grid of one point by two points: three draws, all
equal to 1 at cell `(0, 0)` and to 2 at cell `(0, 1)`. -/
def exCovSamp : Cube α :=
  { n_rows := 1, n_cols := 2, n_slices := 3, mem := fun _ c _ => if c = 0 then 1 else 2 }

/-- Loadings of `K = 2` clusters on `P = 1` basis function and one component,
one draw: 3 for the first cluster and 5 for the second. -/
def exPhiSamp : ArmaField (Cube α) :=
  { n_elem := 1
    mem := fun _ => { n_rows := 2, n_cols := 1, n_slices := 1, mem := fun r _ _ => if r = 0 then 3 else 5 } }

/-- Means of `K = 2` clusters on `P = 1` basis function, one draw: 3 for the
first cluster and 5 for the second. -/
def exNuSamp : Cube α :=
  { n_rows := 2, n_cols := 1, n_slices := 1, mem := fun r _ _ => if r = 0 then 3 else 5 }

/-- The statistic `C(s)` of draw `s` computed by the loops of lines 99-104 of
`GetMeanCI_S`: the largest entry of `ph1`, with
`ph1(j) = abs((f_samp(s,j) - f_mean(j)) / f_sd(j))`. -/
def GetMeanCI_S_C (L : Libm α) (f_samp : Mat α) (s : Nat) : α :=
  vecMax (fillVec f_samp.n_cols (fun j =>
    |(f_samp.mem s j - mean (f_samp.col j)) / stddev L (f_samp.col j)|))

/-- The critical value `q(0)` of `GetMeanCI_S` (lines 111-113): the 0.95
quantile of the statistics `C(s)` of the draws. -/
def GetMeanCI_S_q (L : Libm α) (f_samp : Mat α) : α :=
  quantile (fillVec f_samp.n_rows (fun i => GetMeanCI_S_C L f_samp i)) 0.95

/-! ### The routine `Model_DIC`

`Model_DIC` (lines 397-479) is not well-typed C++ as it stands.  It is read
as follows: the loop headers with `;` for `,`; `Z_samp` and `chi_samp`,
declared `arma::vec`, as the cubes that `subcube` and `slice` address;
`sigma(i)` as `sigma_samp(i)`; the field `B_obs` of basis matrices computed
by `splines2` (lines 461-469, with the undeclared `n_funct` and `Phi`) as an
input. -/

/-- The slice `c.slice(i)` as a matrix. -/
def Cube.slice (c : Cube α) (i : Nat) : Mat α :=
  { n_rows := c.n_rows, n_cols := c.n_cols, mem := fun r k => c.mem r k i }

/-- The slice `c.slice(i)`, with the bounds check of Armadillo. -/
def Cube.sliceAt (c : Cube α) (i : Nat) : Option (Mat α) :=
  if i < c.n_slices then some (c.slice i) else none

/-- The element `v(i)`, with the bounds check of Armadillo. -/
def Vec.read (v : Vec α) (i : Nat) : Option α :=
  if i < v.n_elem then some (v.mem i) else none

/-- The loop of lines 471-476 of `Model_DIC`: the log-likelihoods of the
draws `i = 0, ..., nu_samp.n_slices - 1` are added to `expected_log_f`. -/
def Model_DIC_loop (L : Libm α) (Y : ArmaField (Vec α)) (B_obs : ArmaField (Mat α))
    (nu_samp : Cube α) (phi_samp : ArmaField (Cube α)) (Z_samp chi_samp : Cube α)
    (sigma_samp : Vec α) : Option α :=
  (List.range nu_samp.n_slices).foldlM
    (fun expected_log_f i =>
      (phi_samp.read i).bind (fun Phi =>
        (Z_samp.sliceAt i).bind (fun Z =>
          (chi_samp.sliceAt i).bind (fun chi =>
            (sigma_samp.read i).bind (fun sigma =>
              some (expected_log_f +
                calcLikelihood L Y B_obs (nu_samp.slice i) Phi Z chi sigma))))))
    0

/-- What a run of `Model_DIC` that reaches the end of the body leaves: the
value of the local variable `expected_log_f`, and the value given to a
`return` statement, if there is one. -/
structure DICRun (α : Type) where
  expected_log_f : α
  returned : Option α

/-- The routine `Model_DIC` (lines 397-479): the samples of `nu`, `Phi`, `Z`,
`sigma` and `chi` are assembled from the files, the loop adds the
log-likelihoods of the draws, and the body ends there, at line 479, with no
`return` statement.  The field `phi_samp` is filled with empty cubes at its
construction. -/
def Model_DIC (L : Libm α) (nuFile : Nat → Cube α) (phiFile : Nat → ArmaField (Cube α))
    (ZFile chiFile : Nat → Cube α) (sigmaFile : Nat → Vec α) (n_files n_MCMC : Nat)
    (Y : ArmaField (Vec α)) (B_obs : ArmaField (Mat α)) : Option (DICRun α) :=
  (loadNu nuFile n_files).bind (fun nu_samp =>
    (@loadPhi (Cube α) ⟨Cube.zeros 0 0 0⟩ phiFile n_files n_MCMC).bind (fun phi_samp =>
      (loadNu ZFile n_files).bind (fun Z_samp =>
        (loadSigma sigmaFile n_files).bind (fun sigma_samp =>
          (loadNu chiFile n_files).bind (fun chi_samp =>
            (Model_DIC_loop L Y B_obs nu_samp phi_samp Z_samp chi_samp sigma_samp).map
              (fun expected_log_f =>
                { expected_log_f := expected_log_f, returned := none }))))))

/-- Deviance `D(s) = -2 * calcLikelihood(draw s)` of a draw. -/
def deviance (L : Libm α) (Y : ArmaField (Vec α)) (B_obs : ArmaField (Mat α)) (nu : Mat α)
    (Phi : Cube α) (Z chi : Mat α) (sigma : α) : α :=
  -2 * calcLikelihood L Y B_obs nu Phi Z chi sigma

/-- One file of one draw of the cluster means of the scenario `exNu`. -/
def exNuFile : Nat → Cube α := fun _ =>
  { n_rows := 2, n_cols := 3, n_slices := 1, mem := fun r c _ => (exNu : Mat α).mem r c }

/-- One file of one draw of the loadings: 2 by 3 zeros, one component. -/
def exPhiFile : Nat → ArmaField (Cube α) := fun _ =>
  { n_elem := 1, mem := fun _ => Cube.zeros 2 3 1 }

/-- One file of one draw of the memberships of the scenario `exZ`. -/
def exZFile : Nat → Cube α := fun _ =>
  { n_rows := 1, n_cols := 2, n_slices := 1, mem := fun r c _ => (exZ : Mat α).mem r c }

/-- One file of one draw of the scores of the scenario `exChi`. -/
def exChiFile : Nat → Cube α := fun _ =>
  { n_rows := 1, n_cols := 1, n_slices := 1, mem := fun r c _ => (exChi : Mat α).mem r c }

/-- One file of one draw of sigma squared: 1. -/
def exSigmaFile : Nat → Vec α := fun _ => Vec.ofList [1]

end CredibleIntervals

section SpecialValues

variable {α : Type} [LinearOrderedField α]

/-! ## Special values of `double`

The definitions above compute in exact arithmetic.  The definitions of this
part add the three special values of `double` that the library functions
return from finite arguments (`sqrt` and `log` of a negative number, `log` of
zero, a division by zero, the branches of `dnorm4`) and the arithmetic of
IEEE 754 on them.  A finite result is exact: rounding, the overflow of an
operation on finite numbers and the sign of zero are not represented. -/

/-- A value of type `double`: a finite number, `+Inf`, `-Inf` or NaN. -/
inductive Dbl (α : Type) where
  | fin : α → Dbl α
  | posInf : Dbl α
  | negInf : Dbl α
  | nan : Dbl α

/-- Negation `-a`. -/
def Dbl.neg : Dbl α → Dbl α
  | Dbl.fin a => Dbl.fin (-a)
  | Dbl.posInf => Dbl.negInf
  | Dbl.negInf => Dbl.posInf
  | Dbl.nan => Dbl.nan

/-- Addition `a + b`: NaN when an operand is NaN or the operands are
infinities of opposite signs. -/
def Dbl.add : Dbl α → Dbl α → Dbl α
  | Dbl.nan, _ => Dbl.nan
  | _, Dbl.nan => Dbl.nan
  | Dbl.fin a, Dbl.fin b => Dbl.fin (a + b)
  | Dbl.fin _, Dbl.posInf => Dbl.posInf
  | Dbl.fin _, Dbl.negInf => Dbl.negInf
  | Dbl.posInf, Dbl.fin _ => Dbl.posInf
  | Dbl.negInf, Dbl.fin _ => Dbl.negInf
  | Dbl.posInf, Dbl.posInf => Dbl.posInf
  | Dbl.negInf, Dbl.negInf => Dbl.negInf
  | Dbl.posInf, Dbl.negInf => Dbl.nan
  | Dbl.negInf, Dbl.posInf => Dbl.nan

/-- Subtraction `a - b`. -/
def Dbl.sub (a b : Dbl α) : Dbl α := a.add b.neg

/-- The infinity with the sign of the finite number `a`, NaN for `a = 0`: the
product of `a` and `+Inf`. -/
def Dbl.infOfSign (a : α) : Dbl α :=
  if 0 < a then Dbl.posInf else if a < 0 then Dbl.negInf else Dbl.nan

/-- Multiplication `a * b`: NaN when an operand is NaN or the operands are
zero and an infinity. -/
def Dbl.mul : Dbl α → Dbl α → Dbl α
  | Dbl.nan, _ => Dbl.nan
  | _, Dbl.nan => Dbl.nan
  | Dbl.fin a, Dbl.fin b => Dbl.fin (a * b)
  | Dbl.fin a, Dbl.posInf => Dbl.infOfSign a
  | Dbl.fin a, Dbl.negInf => Dbl.infOfSign (-a)
  | Dbl.posInf, Dbl.fin b => Dbl.infOfSign b
  | Dbl.negInf, Dbl.fin b => Dbl.infOfSign (-b)
  | Dbl.posInf, Dbl.posInf => Dbl.posInf
  | Dbl.negInf, Dbl.negInf => Dbl.posInf
  | Dbl.posInf, Dbl.negInf => Dbl.negInf
  | Dbl.negInf, Dbl.posInf => Dbl.negInf

/-- Quotient `a / b` of two finite numbers: an infinity with the sign of `a`
when `b = 0` and `a != 0`, NaN for `0 / 0`. -/
def Dbl.divFin (a b : α) : Dbl α :=
  if b = 0 then Dbl.infOfSign a else Dbl.fin (a / b)

/-- Absolute value `std::abs(a)`. -/
def Dbl.abs : Dbl α → Dbl α
  | Dbl.fin a => Dbl.fin |a|
  | Dbl.posInf => Dbl.posInf
  | Dbl.negInf => Dbl.posInf
  | Dbl.nan => Dbl.nan

/-- The test `a > b` on two values of type `double`: false when an operand is
NaN. -/
def Dbl.gt : Dbl α → Dbl α → Bool
  | Dbl.nan, _ => false
  | _, Dbl.nan => false
  | Dbl.fin a, Dbl.fin b => decide (b < a)
  | Dbl.fin _, Dbl.posInf => false
  | Dbl.fin _, Dbl.negInf => true
  | Dbl.posInf, Dbl.posInf => false
  | Dbl.posInf, Dbl.fin _ => true
  | Dbl.posInf, Dbl.negInf => true
  | Dbl.negInf, _ => false

/-- Largest entry `arma::max` of a non-empty vector of `double`: the running
maximum starts at `-Inf` and an entry `x` replaces it when `x > max_val`, so
that a NaN entry never replaces it. -/
def armaMax (X : List (Dbl α)) : Dbl α :=
  X.foldl (fun max_val x => if x.gt max_val then x else max_val) Dbl.negInf

/-- Sample quantile `arma::quantile(X, p)` of a non-empty vector of `double`
without NaN, for a probability `0 <= p <= 1`: the routine `quantile` with the
entries in ascending order of the extended line and the arithmetic of the
special values in the interpolation. -/
def quantileD [FloorRing α] (X : List (Dbl α)) (p : α) : Dbl α :=
  let Y := X.insertionSort (fun a b => a.gt b = false)
  let N : α := (X.length : α)
  let P_min : α := (1 - 1 / 2) / N
  let P_max : α := (N - 1 / 2) / N
  if p < P_min then Y.getD 0 (Dbl.fin 0)
  else if p > P_max then Y.getD (X.length - 1) (Dbl.fin 0)
  else
    let tmp : α := N * p + 1 / 2
    let j : Nat := Nat.floor tmp
    let g : α := tmp - (j : α)
    ((Dbl.fin (1 - g)).mul (Y.getD (j - 1) (Dbl.fin 0))).add
      ((Dbl.fin g).mul (Y.getD j (Dbl.fin 0)))

/-- The vector of `n` zeros of type `double` whose entry `i` is then set to
`f i` in a loop over `i = 0, ..., n - 1`. -/
def fillVecD (n : Nat) (f : Nat → Dbl α) : List (Dbl α) :=
  (List.range n).foldl (fun v i => v.set i (f i)) (List.replicate n (Dbl.fin 0))

/-- Lines 99-101 of `GetMeanCI_S`: the vector `ph1` after the loop over the
grid points `j` at draw `i`, with entry
`std::abs((f_samp(i,j) - f_mean(j)) / f_sd(j))`.  The mean and the standard
deviation of a column are finite numbers; the quotient is a `double`. -/
def GetMeanCI_S_ph1 (L : Libm α) (f_samp : Mat α) (i : Nat) : List (Dbl α) :=
  let f_mean : Nat → α := fun j => mean (f_samp.col j)
  let f_sd : Nat → α := fun j => stddev L (f_samp.col j)
  fillVecD f_samp.n_cols (fun j => (Dbl.divFin (f_samp.mem i j - f_mean j) (f_sd j)).abs)

/-- Lines 96-103 of `GetMeanCI_S`: the vector `C` of the maxima
`C(i) = arma::max(ph1)` over the draws `i`. -/
def GetMeanCI_S_Cvec (L : Libm α) (f_samp : Mat α) : List (Dbl α) :=
  fillVecD f_samp.n_rows (fun i => armaMax (GetMeanCI_S_ph1 L f_samp i))

/-- Lines 94-123 of `GetMeanCI_S` with the special values of `double`: the
simultaneous band computed from the matrix `f_samp` of the draws (rows) of
the curve at the points of `time` (columns), for at least one draw and one
point. -/
def GetMeanCI_S_band_dbl [FloorRing α] (L : Libm α) (f_samp : Mat α) : CI (Dbl α) :=
  let time_n_elem := f_samp.n_cols
  let f_mean : Nat → α := fun j => mean (f_samp.col j)
  let f_sd : Nat → α := fun j => stddev L (f_samp.col j)
  let q0 := quantileD (GetMeanCI_S_Cvec L f_samp) 0.95
  (List.range time_n_elem).foldl
    (fun ci i =>
      { CI_975 := ci.CI_975.set i ((Dbl.fin (f_mean i)).add (q0.mul (Dbl.fin (f_sd i)))),
        CI_50 := ci.CI_50.set i (Dbl.fin (f_mean i)),
        CI_025 := ci.CI_025.set i ((Dbl.fin (f_mean i)).sub (q0.mul (Dbl.fin (f_sd i)))) })
    { CI_975 := List.replicate time_n_elem (Dbl.fin 0),
      CI_50 := List.replicate time_n_elem (Dbl.fin 0),
      CI_025 := List.replicate time_n_elem (Dbl.fin 0) }

/-- Three draws of a curve at two points that agree at the first point: 5, 5
and 5 there, and 11, 13 and 0 at the second (mean 8, standard deviation
7). -/
def exDrawsAgree : Mat α := Mat.ofRows [[5, 11], [5, 13], [5, 0]]

end SpecialValues

/-! ## Theorems -/

section LikelihoodTheorems

variable {α : Type} [LinearOrderedField α]

/-- A loop that adds `g i` to its accumulator at step `i` returns the initial
value plus the sum of the `g i`. -/
theorem foldl_range_add (step : α → Nat → α) (g : Nat → α)
    (h : ∀ acc i, step acc i = acc + g i) (n : Nat) (a : α) :
    (List.range n).foldl step a = a + ∑ i in Finset.range n, g i := by
  induction n with
  | zero => simp
  | succ n ih =>
    rw [List.range_succ, List.foldl_append, ih, Finset.sum_range_succ]
    simp [h, add_assoc]

theorem dot_eq_sum (len : Nat) (a b : Nat → α) :
    dot len a b = ∑ p in Finset.range len, a p * b p := by
  unfold dot
  rw [foldl_range_add _ (fun p => a p * b p) (fun _ _ => rfl)]
  simp

/-- Both mean loops return the sum over every cluster. -/
theorem meanLoopDense_eq_specMean (nu : Mat α) (Phi : Cube α) (Z chi : Mat α) (i : Nat)
    (Brow : Nat → α) : meanLoopDense nu Phi Z chi i Brow = specMean nu Phi Z chi i Brow := by
  unfold meanLoopDense specMean
  rw [foldl_range_add _ (fun k => Z.mem i k *
      ((∑ p in Finset.range nu.n_cols, nu.mem k p * Brow p)
      + ∑ n in Finset.range Phi.n_slices,
          chi.mem i n * ∑ p in Finset.range Phi.n_cols, Phi.mem k p n * Brow p))]
  · simp
  · intro acc k
    rw [foldl_range_add _ (fun n => Z.mem i k * chi.mem i n *
      dot Phi.n_cols (Phi.sliceRow n k) Brow) (fun _ _ => rfl)]
    simp only [dot_eq_sum, Mat.row, Cube.sliceRow, mul_add, Finset.mul_sum, add_assoc, mul_assoc]

theorem meanLoop_eq_dense (nu : Mat α) (Phi : Cube α) (Z chi : Mat α) (i : Nat)
    (Brow : Nat → α) : meanLoop nu Phi Z chi i Brow = meanLoopDense nu Phi Z chi i Brow := by
  unfold meanLoop meanLoopDense
  congr 1
  funext mean k
  by_cases hz : Z.mem i k = 0
  · rw [if_neg (by simpa using hz)]
    rw [foldl_range_add _ (fun n => Z.mem i k * chi.mem i n *
      dot Phi.n_cols (Phi.sliceRow n k) Brow) (fun _ _ => rfl)]
    simp [hz]
  · rw [if_pos hz]

theorem meanLoop_eq_specMean (nu : Mat α) (Phi : Cube α) (Z chi : Mat α) (i : Nat)
    (Brow : Nat → α) : meanLoop nu Phi Z chi i Brow = specMean nu Phi Z chi i Brow := by
  rw [meanLoop_eq_dense, meanLoopDense_eq_specMean]

theorem meanLoopMV_eq_dense (nu : Mat α) (Phi : Cube α) (Z chi : Mat α) (i : Nat) :
    meanLoopMV nu Phi Z chi i = meanLoopMVDense nu Phi Z chi i := by
  unfold meanLoopMV meanLoopMVDense
  congr 1
  funext mean k
  by_cases hz : Z.mem i k = 0
  · rw [if_neg (by simpa using hz)]
    have key : ∀ (n : Nat) (m : Nat → α), m = (List.range n).foldl
        (fun mean n => fun j => mean j + Z.mem i k * chi.mem i n * Phi.sliceRow n k j) m := by
      intro n
      induction n with
      | zero => intro m; simp
      | succ n ih =>
        intro m
        rw [List.range_succ, List.foldl_append, ← ih m]
        funext j
        simp [hz]
    have h0 : (fun j => mean j + Z.mem i k * nu.row k j) = mean := by
      funext j; simp [hz]
    rw [h0]
    exact key _ _
  · rw [if_pos hz]

theorem calcLikelihood_eq_sum (L : Libm α) (y_obs : ArmaField (Vec α))
    (B_obs : ArmaField (Mat α)) (nu : Mat α) (Phi : Cube α) (Z chi : Mat α) (sigma : α) :
    calcLikelihood L y_obs B_obs nu Phi Z chi sigma =
      ∑ i in Finset.range Z.n_rows, ∑ l in Finset.range (y_obs.mem i).n_elem,
        dnorm L ((y_obs.mem i).mem l) (specMean nu Phi Z chi i ((B_obs.mem i).row l))
          (L.sqrt sigma) true := by
  unfold calcLikelihood
  rw [foldl_range_add _ (fun i => ∑ l in Finset.range (y_obs.mem i).n_elem,
        dnorm L ((y_obs.mem i).mem l) (specMean nu Phi Z chi i ((B_obs.mem i).row l))
          (L.sqrt sigma) true)]
  · simp
  · intro acc i
    rw [foldl_range_add _ (fun l =>
        dnorm L ((y_obs.mem i).mem l) (specMean nu Phi Z chi i ((B_obs.mem i).row l))
          (L.sqrt sigma) true)]
    intro acc l
    simp only [meanLoop_eq_specMean]

/-- With the real `sqrt`, `log` and `π`, the log-scale `dnorm` at standard
deviation `sqrt sigma` is the normal log-density with variance `sigma`. -/
theorem dnorm_log_sqrt_real (x mu sigma : ℝ) (hs : 0 < sigma) :
    dnorm (Libm.mk Real.sqrt Real.log Real.exp Real.pi) x mu (Real.sqrt sigma) true =
      gaussianLogDensity (Libm.mk Real.sqrt Real.log Real.exp Real.pi) x mu sigma := by
  have hpi : (0 : ℝ) < 2 * Real.pi := by positivity
  have hsq : Real.sqrt sigma * Real.sqrt sigma = sigma := Real.mul_self_sqrt hs.le
  have hsq0 : Real.sqrt sigma ≠ 0 := (Real.sqrt_pos.mpr hs).ne'
  simp only [dnorm, gaussianLogDensity, if_true]
  rw [Real.log_sqrt hpi.le, Real.log_sqrt hs.le, Real.log_mul hpi.ne' hs.ne']
  have hz : (x - mu) / Real.sqrt sigma * ((x - mu) / Real.sqrt sigma) = (x - mu) ^ 2 / sigma := by
    rw [div_mul_div_comm, hsq, sq]
  have hz2 : 1 / 2 * ((x - mu) / Real.sqrt sigma) * ((x - mu) / Real.sqrt sigma)
      = (x - mu) ^ 2 / (2 * sigma) := by
    rw [mul_assoc, hz]; field_simp
  rw [hz2]
  ring

/-- C1: for every draw with `sigma > 0`, `calcLikelihood` returns the sum,
over every subject `i` and every observed point `l` of subject `i`, of the
log-density at `y_obs(i)(l)` of the normal distribution with variance `sigma`
and mean `sum_k Z(i,k) * (dot(nu(k,:), B_i(l,:)) +
sum_n chi(i,n) * dot(Phi(k,:,n), B_i(l,:)))`. -/
theorem calcLikelihood_eq_sum_gaussianLogDensity (y_obs : ArmaField (Vec ℝ))
    (B_obs : ArmaField (Mat ℝ)) (nu : Mat ℝ) (Phi : Cube ℝ) (Z chi : Mat ℝ) (sigma : ℝ)
    (hs : 0 < sigma) :
    calcLikelihood (Libm.mk Real.sqrt Real.log Real.exp Real.pi) y_obs B_obs nu Phi Z chi sigma =
      ∑ i in Finset.range Z.n_rows, ∑ l in Finset.range (y_obs.mem i).n_elem,
        gaussianLogDensity (Libm.mk Real.sqrt Real.log Real.exp Real.pi)
          ((y_obs.mem i).mem l)
          (∑ k in Finset.range Z.n_cols,
            Z.mem i k * ((∑ p in Finset.range nu.n_cols, nu.mem k p * (B_obs.mem i).mem l p)
              + ∑ n in Finset.range Phi.n_slices,
                  chi.mem i n * ∑ p in Finset.range Phi.n_cols,
                    Phi.mem k p n * (B_obs.mem i).mem l p))
          sigma := by
  rw [calcLikelihood_eq_sum]
  refine Finset.sum_congr rfl (fun i _ => Finset.sum_congr rfl (fun l _ => ?_))
  rw [dnorm_log_sqrt_real _ _ _ hs]
  rfl

/-- C2: the mean computed with the test `Z(i,k) != 0` is the mean of the dense
evaluation over every cluster, in the functional and in the multivariate
routines, and each of `calcLikelihood`, `calcDIC2`, `calcLikelihoodMV` and
`calcDIC2MV` returns the value of its dense version. -/
theorem skip_eq_dense (L : Libm α) (y_obs : ArmaField (Vec α)) (B_obs : ArmaField (Mat α))
    (y_i : Vec α) (B_i : Mat α) (y_mv : Mat α) (y_row : Vec α)
    (nu : Mat α) (Phi : Cube α) (Z chi : Mat α) (i j : Nat) (Brow : Nat → α) (sigma : α) :
    meanLoop nu Phi Z chi i Brow = meanLoopDense nu Phi Z chi i Brow ∧
    meanLoopMV nu Phi Z chi i = meanLoopMVDense nu Phi Z chi i ∧
    calcLikelihood L y_obs B_obs nu Phi Z chi sigma =
      calcLikelihoodDense L y_obs B_obs nu Phi Z chi sigma ∧
    calcDIC2 L y_i B_i nu Phi Z chi i j sigma = calcDIC2Dense L y_i B_i nu Phi Z chi i j sigma ∧
    calcLikelihoodMV L y_mv nu Phi Z chi sigma = calcLikelihoodMVDense L y_mv nu Phi Z chi sigma ∧
    calcDIC2MV L y_row nu Phi Z chi i sigma = calcDIC2MVDense L y_row nu Phi Z chi i sigma := by
  refine ⟨meanLoop_eq_dense _ _ _ _ _ _, meanLoopMV_eq_dense _ _ _ _ _, ?_, ?_, ?_, ?_⟩
  · simp only [calcLikelihood, calcLikelihoodDense, meanLoop_eq_dense]
  · simp only [calcDIC2, calcDIC2Dense, meanLoop_eq_dense]
  · simp only [calcLikelihoodMV, calcLikelihoodMVDense, meanLoopMV_eq_dense]
  · simp only [calcDIC2MV, calcDIC2MVDense, meanLoopMV_eq_dense]

theorem specMean_oneHot (nu : Mat α) (Phi : Cube α) (Z chi : Mat α) (i k0 : Nat)
    (h : OneHotRow Z i k0) (Brow : Nat → α) :
    specMean nu Phi Z chi i Brow =
      (∑ p in Finset.range nu.n_cols, nu.mem k0 p * Brow p)
        + ∑ n in Finset.range Phi.n_slices,
            chi.mem i n * ∑ p in Finset.range Phi.n_cols, Phi.mem k0 p n * Brow p := by
  obtain ⟨hk, h1, h0⟩ := h
  unfold specMean
  rw [Finset.sum_eq_single k0]
  · rw [h1, one_mul]
  · intro k hk' hne
    rw [h0 k (Finset.mem_range.mp hk') hne, zero_mul]
  · intro hn
    exact absurd (Finset.mem_range.mpr hk) hn

theorem meanLoop_oneHot_congr (nu nu2 : Mat α) (Phi Phi2 : Cube α) (Z chi : Mat α)
    (i k0 : Nat) (h : OneHotRow Z i k0) (ha : AgreeOnCluster nu nu2 Phi Phi2 k0)
    (Brow : Nat → α) :
    meanLoop nu2 Phi2 Z chi i Brow = meanLoop nu Phi Z chi i Brow := by
  obtain ⟨hc, hpc, hsl, hnu, hphi⟩ := ha
  rw [meanLoop_eq_specMean, meanLoop_eq_specMean, specMean_oneHot _ _ _ _ _ _ h,
    specMean_oneHot _ _ _ _ _ _ h, hc, hpc, hsl]
  congr 1
  · exact Finset.sum_congr rfl (fun p hp => by rw [hnu p (Finset.mem_range.mp hp)])
  · refine Finset.sum_congr rfl (fun n hn => ?_)
    congr 1
    exact Finset.sum_congr rfl (fun p hp => by
      rw [hphi p n (Finset.mem_range.mp hp) (Finset.mem_range.mp hn)])

/-- C3, amended: when row `i` of `Z` is one-hot on cluster `k0`, the mean of subject `i`
computed inside `calcLikelihood` and `calcDIC2` is
`dot(nu(k0,:), B) + sum_n chi(i,n) * dot(Phi(k0,:,n), B)`; that mean and the
value returned by `calcDIC2` for subject `i` are the same for every `nu`, `Phi`
with the same row `k0`; and so is the value returned by `calcLikelihood`, a sum
over all the subjects, when every subject's row is one-hot and `nu`, `Phi` keep
the rows of the clusters the subjects select. -/
theorem oneHot_mean_and_value (L : Libm α) (nu : Mat α) (Phi : Cube α) (Z chi : Mat α)
    (i k0 : Nat) (h : OneHotRow Z i k0) :
    (∀ Brow : Nat → α, meanLoop nu Phi Z chi i Brow =
      (∑ p in Finset.range nu.n_cols, nu.mem k0 p * Brow p)
        + ∑ n in Finset.range Phi.n_slices,
            chi.mem i n * ∑ p in Finset.range Phi.n_cols, Phi.mem k0 p n * Brow p) ∧
    (∀ (nu2 : Mat α) (Phi2 : Cube α), AgreeOnCluster nu nu2 Phi Phi2 k0 →
      ∀ Brow : Nat → α, meanLoop nu2 Phi2 Z chi i Brow = meanLoop nu Phi Z chi i Brow) ∧
    (∀ (nu2 : Mat α) (Phi2 : Cube α), AgreeOnCluster nu nu2 Phi Phi2 k0 →
      ∀ (y_obs : Vec α) (B_obs : Mat α) (j : Nat) (sigma : α),
        calcDIC2 L y_obs B_obs nu2 Phi2 Z chi i j sigma =
          calcDIC2 L y_obs B_obs nu Phi Z chi i j sigma) ∧
    (∀ (nu2 : Mat α) (Phi2 : Cube α) (c : Nat → Nat),
      (∀ s, s < Z.n_rows → OneHotRow Z s (c s) ∧ AgreeOnCluster nu nu2 Phi Phi2 (c s)) →
      ∀ (y_obs : ArmaField (Vec α)) (B_obs : ArmaField (Mat α)) (sigma : α),
        calcLikelihood L y_obs B_obs nu2 Phi2 Z chi sigma =
          calcLikelihood L y_obs B_obs nu Phi Z chi sigma) := by
  refine ⟨fun Brow => ?_, ?_, ?_, ?_⟩
  · rw [meanLoop_eq_specMean, specMean_oneHot _ _ _ _ _ _ h]
  · intro nu2 Phi2 ha Brow
    exact meanLoop_oneHot_congr nu nu2 Phi Phi2 Z chi i k0 h ha Brow
  · intro nu2 Phi2 ha y_obs B_obs j sigma
    simp only [calcDIC2, meanLoop_oneHot_congr nu nu2 Phi Phi2 Z chi i k0 h ha]
  · intro nu2 Phi2 c hall y_obs B_obs sigma
    rw [calcLikelihood_eq_sum, calcLikelihood_eq_sum]
    refine Finset.sum_congr rfl (fun s hs => Finset.sum_congr rfl (fun l _ => ?_))
    obtain ⟨hoh, hag⟩ := hall s (Finset.mem_range.mp hs)
    rw [← meanLoop_eq_specMean, ← meanLoop_eq_specMean,
      meanLoop_oneHot_congr nu nu2 Phi Phi2 Z chi s (c s) hoh hag]

/-- A loop that adds `g i` pointwise to a vector accumulator returns the
initial vector plus the sums of the `g i`. -/
theorem foldl_range_add_fun (step : (Nat → α) → Nat → (Nat → α)) (g : Nat → Nat → α)
    (h : ∀ acc i, step acc i = fun j => acc j + g i j) (n : Nat) (a : Nat → α) (j : Nat) :
    (List.range n).foldl step a j = a j + ∑ i in Finset.range n, g i j := by
  induction n with
  | zero => simp
  | succ n ih =>
    rw [List.range_succ, List.foldl_append, Finset.sum_range_succ, ← add_assoc, ← ih]
    simp [h]

theorem meanLoopMV_eq_specMeanMV (nu : Mat α) (Phi : Cube α) (Z chi : Mat α) (i j : Nat) :
    meanLoopMV nu Phi Z chi i j = specMeanMV nu Phi Z chi i j := by
  rw [meanLoopMV_eq_dense]
  unfold meanLoopMVDense specMeanMV
  rw [foldl_range_add_fun _ (fun k j => Z.mem i k *
      (nu.mem k j + ∑ n in Finset.range Phi.n_slices, chi.mem i n * Phi.mem k j n))]
  · simp
  · intro acc k
    funext j
    rw [foldl_range_add_fun _ (fun n j => Z.mem i k * chi.mem i n * Phi.sliceRow n k j)
      (fun _ _ => rfl)]
    simp only [Mat.row, Cube.sliceRow, mul_add, Finset.mul_sum, add_assoc, mul_assoc]

/-- The value of `calcLikelihoodMV`: the log term is weighted by the integer
quotient of `d = y_obs.n_cols` by 2. -/
theorem calcLikelihoodMV_eq_sum (L : Libm α) (y_obs nu : Mat α) (Phi : Cube α)
    (Z chi : Mat α) (sigma : α) :
    calcLikelihoodMV L y_obs nu Phi Z chi sigma =
      ∑ i in Finset.range chi.n_rows,
        (-((y_obs.n_cols / 2 : Nat) : α) * L.log (2 * L.pi * sigma)
          - (∑ j in Finset.range y_obs.n_cols,
              (y_obs.mem i j - specMeanMV nu Phi Z chi i j) ^ 2) / (2 * sigma)) := by
  unfold calcLikelihoodMV
  rw [foldl_range_add _ (fun i => -((y_obs.n_cols / 2 : Nat) : α) * L.log (2 * L.pi * sigma)
          - (∑ j in Finset.range y_obs.n_cols,
              (y_obs.mem i j - specMeanMV nu Phi Z chi i j) ^ 2) / (2 * sigma))]
  · simp
  · intro acc i
    simp only [dot_eq_sum, meanLoopMV_eq_specMeanMV, ← sq]
    rw [mul_comm sigma 2, one_div, inv_mul_eq_div]
    ring

/-- For an even dimension `d`, `calcLikelihoodMV` returns the isotropic
normal log-likelihood. -/
theorem calcLikelihoodMV_even (L : Libm α) (y_obs nu : Mat α) (Phi : Cube α)
    (Z chi : Mat α) (sigma : α) (hd : y_obs.n_cols % 2 = 0) :
    calcLikelihoodMV L y_obs nu Phi Z chi sigma =
      specLikelihoodMV L y_obs nu Phi Z chi sigma := by
  rw [calcLikelihoodMV_eq_sum]
  unfold specLikelihoodMV
  obtain ⟨m, hm⟩ := Nat.dvd_of_mod_eq_zero hd
  rw [hm]
  have : ((2 * m / 2 : Nat) : α) = ((2 * m : Nat) : α) / 2 := by
    rw [Nat.mul_div_cancel_left m (by norm_num)]
    push_cast
    ring
  rw [this]

/-- C4 (dimension `d = 3`, one subject with `y = (1, 0, 0)`, mean 0 and
`sigma = 1`): `calcLikelihoodMV` returns `-log(2*pi) - 1/2`, with the integer
quotient `3 / 2 = 1` as weight of the log term, whereas the log-density of the
normal distribution with covariance `sigma * I` is `-(3/2) * log(2*pi) - 1/2`,
which is smaller. -/
theorem calcLikelihoodMV_odd_dimension :
    calcLikelihoodMV (Libm.mk Real.sqrt Real.log Real.exp Real.pi)
        exMVy exMVNu (Cube.zeros 1 3 1) exMVZ exMVChi 1 = -Real.log (2 * Real.pi) - 1 / 2 ∧
    specLikelihoodMV (Libm.mk Real.sqrt Real.log Real.exp Real.pi)
        exMVy exMVNu (Cube.zeros 1 3 1) exMVZ exMVChi 1
      = -(3 / 2) * Real.log (2 * Real.pi) - 1 / 2 ∧
    specLikelihoodMV (Libm.mk Real.sqrt Real.log Real.exp Real.pi)
        exMVy exMVNu (Cube.zeros 1 3 1) exMVZ exMVChi 1 <
      calcLikelihoodMV (Libm.mk Real.sqrt Real.log Real.exp Real.pi)
        exMVy exMVNu (Cube.zeros 1 3 1) exMVZ exMVChi 1 := by
  have h : 0 < Real.log (2 * Real.pi) :=
    Real.log_pos (by linarith [Real.pi_gt_three])
  have e1 : calcLikelihoodMV (Libm.mk Real.sqrt Real.log Real.exp Real.pi)
      exMVy exMVNu (Cube.zeros 1 3 1) exMVZ exMVChi 1 = -Real.log (2 * Real.pi) - 1 / 2 := by
    rw [calcLikelihoodMV_eq_sum]
    simp [exMVy, exMVNu, exMVZ, exMVChi, Mat.ofRows, Cube.zeros, specMeanMV,
      Finset.sum_range_succ]
  have e2 : specLikelihoodMV (Libm.mk Real.sqrt Real.log Real.exp Real.pi)
      exMVy exMVNu (Cube.zeros 1 3 1) exMVZ exMVChi 1
      = -(3 / 2) * Real.log (2 * Real.pi) - 1 / 2 := by
    simp [specLikelihoodMV, exMVy, exMVNu, exMVZ, exMVChi, Mat.ofRows, Cube.zeros, specMeanMV,
      Finset.sum_range_succ]
  refine ⟨e1, e2, ?_⟩
  rw [e1, e2]
  linarith

/-- C1 at the scenario `K = 2`, `P = 3`, `N = 1`, one subject with four
points, `sigma = 1`: the mean is row 0 of `nu` through the selection matrix,
`(1, 0, 0, 1)`, and the log-likelihood of `y = (1, 0, 0, 2)` is
`-2 * log(2*pi) - 1/2`. -/
theorem calcLikelihood_eq_sum_gaussianLogDensity_witness :
    (0 : ℝ) < 1 ∧
    calcLikelihood (Libm.mk Real.sqrt Real.log Real.exp Real.pi)
      exY exB exNu (Cube.zeros 2 3 1) exZ exChi 1 = -2 * Real.log (2 * Real.pi) - 1 / 2 := by
  refine ⟨one_pos, ?_⟩
  rw [calcLikelihood_eq_sum_gaussianLogDensity exY exB exNu (Cube.zeros 2 3 1) exZ exChi 1 one_pos]
  simp [exY, exB, exNu, exZ, exChi, Mat.ofRows, Vec.ofList, Cube.zeros, gaussianLogDensity,
    Finset.sum_range_succ]
  ring

/-- C3 at the scenario `Z = [[1, 0]]`: the mean of the one subject is the
contribution of cluster 0. -/
theorem oneHot_mean_and_value_witness :
    OneHotRow (exZ : Mat ℝ) 0 0 ∧
    ∀ Brow : Nat → ℝ, meanLoop exNu (Cube.zeros 2 3 1) exZ exChi 0 Brow =
      (∑ p in Finset.range (exNu : Mat ℝ).n_cols, (exNu : Mat ℝ).mem 0 p * Brow p)
        + ∑ n in Finset.range (Cube.zeros 2 3 1 : Cube ℝ).n_slices,
            (exChi : Mat ℝ).mem 0 n * ∑ p in Finset.range (Cube.zeros 2 3 1 : Cube ℝ).n_cols,
              (Cube.zeros 2 3 1 : Cube ℝ).mem 0 p n * Brow p :=
  have h : OneHotRow (exZ : Mat ℝ) 0 0 := by
    refine ⟨by decide, by simp [exZ, Mat.ofRows], ?_⟩
    intro k hk hne
    have hk2 : k < 2 := hk
    interval_cases k
    · exact absurd rfl hne
    · simp [exZ, Mat.ofRows]
  ⟨h, (oneHot_mean_and_value (Libm.mk Real.sqrt Real.log Real.exp Real.pi)
    exNu (Cube.zeros 2 3 1) exZ exChi 0 0 h).1⟩

/-- C3, counterexample: two subjects, the first one-hot on cluster 0 and the
second on cluster 1, and `sigma = 1`.  Replacing the row of cluster 1 in `nu`
by zeros keeps the row of cluster 0, the cluster of the first subject, and
changes the value of `calcLikelihood`: the residual sum of squares of the
second subject goes from 8 to 13. -/
theorem calcLikelihood_depends_on_other_cluster :
    OneHotRow (exTwoZ : Mat ℝ) 0 0 ∧
    AgreeOnCluster (exNu : Mat ℝ) exNuOther (Cube.zeros 2 3 1) (Cube.zeros 2 3 1) 0 ∧
    calcLikelihood (Libm.mk Real.sqrt Real.log Real.exp Real.pi) exTwoY exTwoB exNuOther
        (Cube.zeros 2 3 1) exTwoZ exTwoChi 1 =
      calcLikelihood (Libm.mk Real.sqrt Real.log Real.exp Real.pi) exTwoY exTwoB exNu
        (Cube.zeros 2 3 1) exTwoZ exTwoChi 1 - 5 / 2 := by
  refine ⟨⟨by decide, by simp [exTwoZ, Mat.ofRows], ?_⟩, ⟨rfl, rfl, rfl, ?_, ?_⟩, ?_⟩
  · intro k hk hne
    have hk2 : k < 2 := hk
    interval_cases k
    · exact absurd rfl hne
    · simp [exTwoZ, Mat.ofRows]
  · intro p hp
    have hp3 : p < 3 := hp
    interval_cases p <;> simp [exNu, exNuOther, Mat.ofRows]
  · intro p n _ _
    rfl
  · rw [calcLikelihood_eq_sum, calcLikelihood_eq_sum]
    simp [exTwoY, exTwoB, exNu, exNuOther, exTwoZ, exTwoChi, specMean, dnorm, Mat.row,
      Mat.ofRows, Vec.ofList, Cube.zeros, Finset.sum_range_succ]
    ring

/-- A sum over `0, ..., n - 1` does not depend on the order of the terms. -/
theorem sum_range_perm {M : Type} [AddCommMonoid M] (π : Nat → Nat) (n : Nat) (hπ : PermOn π n)
    (F : Nat → M) :
    ∑ i in Finset.range n, F (π i) = ∑ i in Finset.range n, F i := by
  obtain ⟨hmap, hinj⟩ := hπ
  have hinjOn : Set.InjOn π (Finset.range n : Set Nat) := by
    intro a ha b hb hab
    exact hinj a b (Finset.mem_range.mp ha) (Finset.mem_range.mp hb) hab
  have himg : (Finset.range n).image π = Finset.range n := by
    apply Finset.eq_of_subset_of_card_le
    · intro x hx
      obtain ⟨a, ha, rfl⟩ := Finset.mem_image.mp hx
      exact Finset.mem_range.mpr (hmap a (Finset.mem_range.mp ha))
    · rw [Finset.card_image_of_injOn hinjOn]
  rw [← Finset.sum_image (f := F) (fun a ha b hb hab => hinjOn ha hb hab), himg]

/-- C19: `calcLikelihood` returns the same value when the subjects are
reordered by a permutation `π` (rows of `Z` and `chi`, entries of `y_obs` and
`B_obs`), and when the observed points of every subject `i` are reordered by a
permutation `τ i` (entries of `y_obs(i)` together with the rows of
`B_obs(i)`). -/
theorem calcLikelihood_reorder (L : Libm α) (y_obs : ArmaField (Vec α))
    (B_obs : ArmaField (Mat α)) (nu : Mat α) (Phi : Cube α) (Z chi : Mat α) (sigma : α) :
    (∀ π : Nat → Nat, PermOn π Z.n_rows →
      calcLikelihood L (y_obs.permute π) (B_obs.permute π) nu Phi
          (Z.permuteRows π) (chi.permuteRows π) sigma =
        calcLikelihood L y_obs B_obs nu Phi Z chi sigma) ∧
    (∀ τ : Nat → Nat → Nat, (∀ i, i < Z.n_rows → PermOn (τ i) (y_obs.mem i).n_elem) →
      calcLikelihood L (permutePointsY y_obs τ) (permutePointsB B_obs τ) nu Phi Z chi sigma =
        calcLikelihood L y_obs B_obs nu Phi Z chi sigma) := by
  constructor
  · intro π hπ
    rw [calcLikelihood_eq_sum, calcLikelihood_eq_sum]
    exact sum_range_perm π Z.n_rows hπ (fun i =>
      ∑ l in Finset.range (y_obs.mem i).n_elem,
        dnorm L ((y_obs.mem i).mem l) (specMean nu Phi Z chi i ((B_obs.mem i).row l))
          (L.sqrt sigma) true)
  · intro τ hτ
    rw [calcLikelihood_eq_sum, calcLikelihood_eq_sum]
    refine Finset.sum_congr rfl (fun i hi => ?_)
    exact sum_range_perm (τ i) (y_obs.mem i).n_elem (hτ i (Finset.mem_range.mp hi)) (fun l =>
      dnorm L ((y_obs.mem i).mem l) (specMean nu Phi Z chi i ((B_obs.mem i).row l))
        (L.sqrt sigma) true)

/-- C19 at two subjects with two points each: exchanging the subjects, or
the two points of every subject, leaves the value unchanged. -/
theorem calcLikelihood_reorder_witness :
    PermOn exSwap (exTwoZ : Mat ℝ).n_rows ∧
    (∀ i, i < (exTwoZ : Mat ℝ).n_rows → PermOn exSwap ((exTwoY : ArmaField (Vec ℝ)).mem i).n_elem) ∧
    calcLikelihood (Libm.mk Real.sqrt Real.log Real.exp Real.pi) (exTwoY.permute exSwap)
        (exTwoB.permute exSwap) exNu (Cube.zeros 2 3 1) (exTwoZ.permuteRows exSwap)
        (exTwoChi.permuteRows exSwap) 1 =
      calcLikelihood (Libm.mk Real.sqrt Real.log Real.exp Real.pi) exTwoY exTwoB exNu
        (Cube.zeros 2 3 1) exTwoZ exTwoChi 1 ∧
    calcLikelihood (Libm.mk Real.sqrt Real.log Real.exp Real.pi)
        (permutePointsY exTwoY (fun _ => exSwap)) (permutePointsB exTwoB (fun _ => exSwap))
        exNu (Cube.zeros 2 3 1) exTwoZ exTwoChi 1 =
      calcLikelihood (Libm.mk Real.sqrt Real.log Real.exp Real.pi) exTwoY exTwoB exNu
        (Cube.zeros 2 3 1) exTwoZ exTwoChi 1 :=
  have h : PermOn exSwap 2 := by
    refine ⟨fun i hi => ?_, fun i j hi hj hij => ?_⟩
    · show 1 - i < 2
      omega
    · have hij2 : 1 - i = 1 - j := hij
      omega
  have h2 : ∀ i, i < (exTwoZ : Mat ℝ).n_rows →
      PermOn exSwap ((exTwoY : ArmaField (Vec ℝ)).mem i).n_elem := by
    intro i hi
    have hi2 : i < 2 := hi
    interval_cases i
    · exact h
    · exact h
  ⟨h, h2,
    (calcLikelihood_reorder (Libm.mk Real.sqrt Real.log Real.exp Real.pi) exTwoY exTwoB exNu
      (Cube.zeros 2 3 1) exTwoZ exTwoChi 1).1 exSwap h,
    (calcLikelihood_reorder (Libm.mk Real.sqrt Real.log Real.exp Real.pi) exTwoY exTwoB exNu
      (Cube.zeros 2 3 1) exTwoZ exTwoChi 1).2 (fun _ => exSwap) h2⟩

/-- Without covariate effect the products `eta.slice(k) * X.row(i).t()` and
`xi(iter,k).slice(n) * X.row(i).t()` are zero. -/
theorem sliceTimesRow_eq_zero (eta : Cube α) (xi : Nat → Nat → Cube α) (iter : Nat) (X : Mat α)
    (h : NoCovariateEffect eta xi iter X) :
    (∀ k i p, sliceTimesRow eta k X i p = 0) ∧
    ∀ k n i p, sliceTimesRow (xi iter k) n X i p = 0 := by
  rcases h with ⟨h1, h2⟩ | h
  · constructor
    · intro k i p
      simp [sliceTimesRow, dot_eq_sum, h1]
    · intro k n i p
      simp [sliceTimesRow, dot_eq_sum, h2]
  · constructor
    · intro k i p
      simp [sliceTimesRow, dot_eq_sum, Mat.row, h]
    · intro k n i p
      simp [sliceTimesRow, dot_eq_sum, Mat.row, h]

/-- Without covariate effect the covariate-adjusted mean is the mean of
`calcLikelihood`. -/
theorem meanLoopCovariateAdj_eq (nu : Mat α) (eta Phi : Cube α) (xi : Nat → Nat → Cube α)
    (Z chi : Mat α) (iter : Nat) (X : Mat α) (h : NoCovariateEffect eta xi iter X) (i : Nat)
    (Brow : Nat → α) :
    meanLoopCovariateAdj nu eta Phi xi Z chi iter X i Brow = meanLoop nu Phi Z chi i Brow := by
  obtain ⟨h1, h2⟩ := sliceTimesRow_eq_zero eta xi iter X h
  unfold meanLoopCovariateAdj meanLoop
  simp only [h1, h2, add_zero]

/-- Without covariate effect the covariate-adjusted mean vector is the mean
vector of `calcLikelihoodMV`. -/
theorem meanLoopMVCovariateAdj_eq (nu : Mat α) (eta Phi : Cube α) (xi : Nat → Nat → Cube α)
    (Z chi : Mat α) (iter : Nat) (X : Mat α) (h : NoCovariateEffect eta xi iter X) (i : Nat) :
    meanLoopMVCovariateAdj nu eta Phi xi Z chi iter X i = meanLoopMV nu Phi Z chi i := by
  obtain ⟨h1, h2⟩ := sliceTimesRow_eq_zero eta xi iter X h
  unfold meanLoopMVCovariateAdj meanLoopMV
  simp only [h1, h2, add_zero]

/-- C20: when `eta` and `xi` are all zero, or `X` is all zero,
`calcLikelihoodCovariateAdj` returns the value of `calcLikelihood` and
`calcLikelihoodMVCovariateAdj` returns the value of `calcLikelihoodMV` on the
remaining arguments. -/
theorem covariateAdj_eq_of_no_effect (L : Libm α) (y_obs : ArmaField (Vec α))
    (B_obs : ArmaField (Mat α)) (y_mv : Mat α) (nu : Mat α) (eta Phi : Cube α)
    (xi : Nat → Nat → Cube α) (Z chi : Mat α) (iter : Nat) (X : Mat α) (sigma : α)
    (h : NoCovariateEffect eta xi iter X) :
    calcLikelihoodCovariateAdj L y_obs B_obs nu eta Phi xi Z chi iter X sigma =
      calcLikelihood L y_obs B_obs nu Phi Z chi sigma ∧
    calcLikelihoodMVCovariateAdj L y_mv nu eta Phi xi Z chi iter X sigma =
      calcLikelihoodMV L y_mv nu Phi Z chi sigma := by
  constructor
  · unfold calcLikelihoodCovariateAdj calcLikelihood
    simp only [meanLoopCovariateAdj_eq nu eta Phi xi Z chi iter X h]
  · unfold calcLikelihoodMVCovariateAdj calcLikelihoodMV
    simp only [meanLoopMVCovariateAdj_eq nu eta Phi xi Z chi iter X h]

/-- C20 at coefficients `eta` and `xi` equal to one and a zero covariate
matrix. -/
theorem covariateAdj_eq_of_no_effect_witness :
    NoCovariateEffect (exEta : Cube ℝ) exXi 0 (Mat.ofRows [[0], [0]]) ∧
    calcLikelihoodCovariateAdj (Libm.mk Real.sqrt Real.log Real.exp Real.pi) exTwoY exTwoB
        exNu exEta (Cube.zeros 2 3 1) exXi exTwoZ exTwoChi 0 (Mat.ofRows [[0], [0]]) 1 =
      calcLikelihood (Libm.mk Real.sqrt Real.log Real.exp Real.pi) exTwoY exTwoB exNu
        (Cube.zeros 2 3 1) exTwoZ exTwoChi 1 ∧
    calcLikelihoodMVCovariateAdj (Libm.mk Real.sqrt Real.log Real.exp Real.pi)
        (Mat.ofRows [[1, 0, 0], [0, 2, 0]]) exNu exEta (Cube.zeros 2 3 1) exXi exTwoZ exTwoChi 0
        (Mat.ofRows [[0], [0]]) 1 =
      calcLikelihoodMV (Libm.mk Real.sqrt Real.log Real.exp Real.pi)
        (Mat.ofRows [[1, 0, 0], [0, 2, 0]]) exNu (Cube.zeros 2 3 1) exTwoZ exTwoChi 1 :=
  have h : NoCovariateEffect (exEta : Cube ℝ) exXi 0 (Mat.ofRows [[0], [0]]) := by
    refine Or.inr (fun i c => ?_)
    show ((([[0], [0]] : List (List ℝ)).getD i []).getD c 0) = 0
    rcases i with _ | _ | i
    · rcases c with _ | c <;> simp
    · rcases c with _ | c <;> simp
    · simp
  ⟨h, covariateAdj_eq_of_no_effect (Libm.mk Real.sqrt Real.log Real.exp Real.pi) exTwoY exTwoB
    (Mat.ofRows [[1, 0, 0], [0, 2, 0]]) exNu exEta (Cube.zeros 2 3 1) exXi exTwoZ exTwoChi 0
    (Mat.ofRows [[0], [0]]) 1 h⟩

/-- The value of `calcLikelihoodMV` on one subject of dimension 3 with
residual `(1, 0, 0)`, for any `sigma`. -/
theorem calcLikelihoodMV_exMV (L : Libm α) (sigma : α) :
    calcLikelihoodMV L exMVy exMVNu (Cube.zeros 1 3 1) exMVZ exMVChi sigma =
      -(L.log (2 * L.pi * sigma)) - 1 / (sigma * 2) := by
  simp [calcLikelihoodMV, meanLoopMV, dot, exMVy, exMVNu, exMVZ, exMVChi, Cube.zeros,
    Mat.ofRows, Mat.row, Cube.sliceRow, List.range_succ, List.range_zero]

/-- A loop that multiplies its accumulator by `g j` at step `j` returns the
initial value times the product of the `g j`. -/
theorem foldl_range_mul (step : α → Nat → α) (g : Nat → α)
    (h : ∀ acc j, step acc j = acc * g j) (n : Nat) (a : α) :
    (List.range n).foldl step a = a * ∏ j in Finset.range n, g j := by
  induction n with
  | zero => simp
  | succ n ih =>
    rw [List.range_succ, List.foldl_append, ih, Finset.prod_range_succ]
    simp [h, mul_assoc]

/-- With the real `sqrt`, `exp` and `π`, the `dnorm` on the natural scale at
standard deviation `sqrt sigma` is the normal density with variance
`sigma`. -/
theorem dnorm_density_sqrt_real (x mu sigma : ℝ) (hs : 0 < sigma) :
    dnorm (Libm.mk Real.sqrt Real.log Real.exp Real.pi) x mu (Real.sqrt sigma) false =
      gaussianDensity (Libm.mk Real.sqrt Real.log Real.exp Real.pi) x mu sigma := by
  have hpi : (0 : ℝ) < 2 * Real.pi := by positivity
  have hsq : Real.sqrt sigma * Real.sqrt sigma = sigma := Real.mul_self_sqrt hs.le
  have hsq0 : Real.sqrt sigma ≠ 0 := (Real.sqrt_pos.mpr hs).ne'
  have hpi0 : Real.sqrt (2 * Real.pi) ≠ 0 := (Real.sqrt_pos.mpr hpi).ne'
  have hz : -(1 / 2) * ((x - mu) / Real.sqrt sigma) * ((x - mu) / Real.sqrt sigma)
      = -(x - mu) ^ 2 / (2 * sigma) := by
    rw [mul_assoc, div_mul_div_comm, hsq, sq]; field_simp
  simp only [dnorm, gaussianDensity, Bool.false_eq_true, if_false]
  rw [hz, Real.sqrt_mul hpi.le]
  field_simp

/-- The power `(1 / sqrt A) ^ d` is `A ^ (-d / 2)`, for `A > 0`. -/
theorem inv_sqrt_pow_eq_rpow (A : ℝ) (hA : 0 < A) (d : Nat) :
    (1 / Real.sqrt A) ^ d = A ^ (-(d : ℝ) / 2) := by
  rw [Real.sqrt_eq_rpow, one_div, inv_pow, ← Real.rpow_natCast, ← Real.rpow_mul hA.le,
    ← Real.rpow_neg hA.le]
  congr 1
  ring

/-- C23: for `sigma > 0`, `calcDIC2MV` returns the product over the
coordinates `j` of the densities at `y_obs(j)` of the normal distribution with
variance `sigma` and mean `mean(j) = sum_k Z(i,k) * (nu(k,j) +
sum_n chi(i,n) * Phi(k,j,n))`, which is the isotropic density
`(2*pi*sigma)^(-d/2) * exp(-||y_obs - mean||^2 / (2*sigma))` in dimension
`d = y_obs.n_elem`. -/
theorem calcDIC2MV_eq_isotropic (y_obs : Vec ℝ) (nu : Mat ℝ) (Phi : Cube ℝ) (Z chi : Mat ℝ)
    (i : Nat) (sigma : ℝ) (hs : 0 < sigma) :
    calcDIC2MV (Libm.mk Real.sqrt Real.log Real.exp Real.pi) y_obs nu Phi Z chi i sigma =
      ∏ j in Finset.range y_obs.n_elem,
        gaussianDensity (Libm.mk Real.sqrt Real.log Real.exp Real.pi) (y_obs.mem j)
          (specMeanMV nu Phi Z chi i j) sigma ∧
    calcDIC2MV (Libm.mk Real.sqrt Real.log Real.exp Real.pi) y_obs nu Phi Z chi i sigma =
      (2 * Real.pi * sigma) ^ (-(y_obs.n_elem : ℝ) / 2) *
        Real.exp (-(∑ j in Finset.range y_obs.n_elem,
          (y_obs.mem j - specMeanMV nu Phi Z chi i j) ^ 2) / (2 * sigma)) := by
  have hA : (0 : ℝ) < 2 * Real.pi * sigma := by positivity
  have h1 : calcDIC2MV (Libm.mk Real.sqrt Real.log Real.exp Real.pi) y_obs nu Phi Z chi i sigma =
      ∏ j in Finset.range y_obs.n_elem,
        gaussianDensity (Libm.mk Real.sqrt Real.log Real.exp Real.pi) (y_obs.mem j)
          (specMeanMV nu Phi Z chi i j) sigma := by
    unfold calcDIC2MV
    simp only []
    rw [foldl_range_mul _ (fun j =>
      gaussianDensity (Libm.mk Real.sqrt Real.log Real.exp Real.pi) (y_obs.mem j)
        (specMeanMV nu Phi Z chi i j) sigma), one_mul]
    intro acc j
    rw [meanLoopMV_eq_specMeanMV]
    show acc * dnorm (Libm.mk Real.sqrt Real.log Real.exp Real.pi) (y_obs.mem j) _
      (Real.sqrt sigma) false = _
    rw [dnorm_density_sqrt_real _ _ _ hs]
  refine ⟨h1, ?_⟩
  rw [h1]
  simp only [gaussianDensity]
  rw [Finset.prod_mul_distrib, Finset.prod_const, Finset.card_range, ← Real.exp_sum,
    inv_sqrt_pow_eq_rpow _ hA]
  congr 2
  rw [← Finset.sum_neg_distrib, Finset.sum_div]

/-- C23 at dimension `d = 3`, one cluster with mean zero, the observed vector
`(1, 0, 0)` and `sigma = 1`: the density is `(2*pi)^(-3/2) * exp(-1/2)`. -/
theorem calcDIC2MV_eq_isotropic_witness :
    (0 : ℝ) < 1 ∧
    calcDIC2MV (Libm.mk Real.sqrt Real.log Real.exp Real.pi) (Vec.ofList [1, 0, 0]) exMVNu
        (Cube.zeros 1 3 1) exMVZ exMVChi 0 1 =
      (2 * Real.pi * 1) ^ (-((Vec.ofList [1, 0, 0] : Vec ℝ).n_elem : ℝ) / 2) *
        Real.exp (-(∑ j in Finset.range (Vec.ofList [1, 0, 0] : Vec ℝ).n_elem,
          ((Vec.ofList [1, 0, 0] : Vec ℝ).mem j -
            specMeanMV exMVNu (Cube.zeros 1 3 1) exMVZ exMVChi 0 j) ^ 2) / (2 * 1)) :=
  ⟨one_pos, (calcDIC2MV_eq_isotropic (Vec.ofList [1, 0, 0]) exMVNu (Cube.zeros 1 3 1) exMVZ
    exMVChi 0 1 one_pos).2⟩

end LikelihoodTheorems


section LoadingTheorems

variable {α : Type} {β : Type}

theorem usub_one (a : Nat) (h0 : 0 < a) (h1 : a < 2 ^ 64) : usub a 1 = a - 1 := by
  unfold usub; omega

theorem umul_of_lt (a b : Nat) (h : a * b < 2 ^ 64) : umul a b = a * b := by
  unfold umul; exact Nat.mod_eq_of_lt h

/-- One pass of the loop body on a chunk of the common shape writes the chunk
into the slices `M * i, ..., M * (i + 1) - 1` and leaves the other slices. -/
theorem loadNuStep_spec (file : Nat → Cube α) (acc : Cube α) (n K P M i : Nat)
    (hK : 0 < K) (hP : 0 < P) (hM : 0 < M) (hKb : K < 2 ^ 64) (hPb : P < 2 ^ 64)
    (hb : M * n < 2 ^ 64) (hi : i < n)
    (hf : (file i).n_rows = K ∧ (file i).n_cols = P ∧ (file i).n_slices = M)
    (hacc : acc.n_rows = K ∧ acc.n_cols = P ∧ acc.n_slices = M * n) :
    ∃ acc2, loadNuStep file acc i = some acc2 ∧
      (acc2.n_rows = K ∧ acc2.n_cols = P ∧ acc2.n_slices = M * n) ∧
      (∀ r c s, r < K → c < P → M * i ≤ s → s < M * (i + 1) →
        acc2.mem r c s = (file i).mem r c (s - M * i)) ∧
      (∀ r c s, ¬ (M * i ≤ s ∧ s < M * (i + 1)) → acc2.mem r c s = acc.mem r c s) := by
  obtain ⟨hfr, hfc, hfs⟩ := hf
  obtain ⟨har, hac, has⟩ := hacc
  have h1 : M * (i + 1) ≤ M * n := Nat.mul_le_mul_left M hi
  have h2 : M * i < M * (i + 1) := by rw [Nat.mul_succ]; omega
  have e1 : umul M i = M * i := umul_of_lt _ _ (by omega)
  have e2 : umul M (i + 1) = M * (i + 1) := umul_of_lt _ _ (by omega)
  have e3 : usub (M * (i + 1)) 1 = M * (i + 1) - 1 := usub_one _ (by omega) (by omega)
  have e4 : usub K 1 = K - 1 := usub_one _ hK hKb
  have e5 : usub P 1 = P - 1 := usub_one _ hP hPb
  unfold loadNuStep Cube.assignSubcube
  simp only [hfr, hfc, hfs, har, hac, has, e1, e2, e3, e4, e5]
  rw [if_neg (by omega), if_neg (by rw [Nat.mul_succ] at *; omega)]
  refine ⟨_, rfl, ⟨rfl, rfl, rfl⟩, ?_, ?_⟩
  · intro r c s hr hc hs1 hs2
    simp only
    rw [if_pos (by omega)]
    simp
  · intro r c s hs
    simp only
    rw [if_neg (by omega)]

theorem loadNuStep_invariant (file : Nat → Cube α) (acc : Cube α) (n K P M t : Nat)
    (hK : 0 < K) (hP : 0 < P) (hM : 0 < M) (hKb : K < 2 ^ 64) (hPb : P < 2 ^ 64)
    (hb : M * n < 2 ^ 64) (ht : t + 1 < n) (hshape : ChunksOfShape file n K P M)
    (hacc : NuLoaded file n K P M t acc) :
    ∃ acc2, loadNuStep file acc (t + 1) = some acc2 ∧ NuLoaded file n K P M (t + 1) acc2 := by
  obtain ⟨acc2, h1, h2, h3, h4⟩ := loadNuStep_spec file acc n K P M (t + 1) hK hP hM hKb hPb hb ht
    (hshape _ ht) hacc.1
  refine ⟨acc2, h1, h2, ?_⟩
  intro i hi j hj r hr c hc
  have hcomm : ∀ x, x * M = M * x := fun x => Nat.mul_comm x M
  rcases Nat.lt_or_ge i (t + 1) with hlt | hge
  · have hle : M * (i + 1) ≤ M * (t + 1) := Nat.mul_le_mul_left M hlt
    have hsucc : M * (i + 1) = M * i + M := Nat.mul_succ M i
    have hci := hcomm i
    rw [h4 r c (i * M + j) (by omega)]
    exact hacc.2 i (by omega) j hj r hr c hc
  · have hit : i = t + 1 := by omega
    subst hit
    have hsucc : M * (t + 1 + 1) = M * (t + 1) + M := Nat.mul_succ M (t + 1)
    have hci := hcomm (t + 1)
    rw [h3 r c ((t + 1) * M + j) hr hc (by omega) (by omega)]
    congr 1
    omega

theorem loadNu_loop (file : Nat → Cube α) (n K P M : Nat)
    (hK : 0 < K) (hP : 0 < P) (hM : 0 < M) (hKb : K < 2 ^ 64) (hPb : P < 2 ^ 64)
    (hb : M * n < 2 ^ 64) (hshape : ChunksOfShape file n K P M) :
    ∀ (t : Nat) (acc : Cube α), t + 1 ≤ n → NuLoaded file n K P M 0 acc →
      ∃ acc2, (List.range' 1 t).foldlM (loadNuStep file) acc = some acc2 ∧
        NuLoaded file n K P M t acc2 := by
  intro t
  induction t with
  | zero => intro acc _ h; exact ⟨acc, rfl, h⟩
  | succ t ih =>
    intro acc ht h
    obtain ⟨acc1, e1, inv1⟩ := ih acc (by omega) h
    obtain ⟨acc2, e2, inv2⟩ := loadNuStep_invariant file acc1 n K P M t hK hP hM hKb hPb hb
      (by omega) hshape inv1
    refine ⟨acc2, ?_, inv2⟩
    rw [List.range'_concat, List.foldlM_append, e1]
    simp [Nat.add_comm 1 t, e2]

/-- The Nu-loading loop on chunks of one common shape returns a cube that
satisfies the invariant for all the files. -/
theorem loadNu_result [LinearOrderedField α] (file : Nat → Cube α) (n_files K P M : Nat)
    (hn : 1 ≤ n_files) (hshape : ChunksOfShape file n_files K P M)
    (hK : 0 < K) (hP : 0 < P) (hM : 0 < M) (hKb : K < 2 ^ 64) (hPb : P < 2 ^ 64)
    (hb : M * n_files < 2 ^ 64) :
    ∃ nu_samp, loadNu file n_files = some nu_samp ∧
      NuLoaded file n_files K P M (n_files - 1) nu_samp := by
  obtain ⟨hfr, hfc, hfs⟩ := hshape 0 (by omega)
  have hz : (Cube.zeros (file 0).n_rows (file 0).n_cols (umul (file 0).n_slices n_files) :
      Cube α).n_rows = K ∧
      (Cube.zeros (file 0).n_rows (file 0).n_cols (umul (file 0).n_slices n_files) :
      Cube α).n_cols = P ∧
      (Cube.zeros (file 0).n_rows (file 0).n_cols (umul (file 0).n_slices n_files) :
      Cube α).n_slices = M * n_files := by
    simp [Cube.zeros, hfr, hfc, hfs, umul_of_lt _ _ hb]
  obtain ⟨acc0, e0, d0, w0, _⟩ := loadNuStep_spec file _ n_files K P M 0 hK hP hM hKb hPb hb
    (by omega) (hshape 0 (by omega)) hz
  have inv0 : NuLoaded file n_files K P M 0 acc0 := by
    refine ⟨d0, ?_⟩
    intro i hi j hj r hr c hc
    have hi0 : i = 0 := by omega
    subst hi0
    rw [w0 r c (0 * M + j) hr hc (by omega) (by omega)]
    congr 1
    omega
  obtain ⟨acc, e, hinv⟩ := loadNu_loop file n_files K P M hK hP hM hKb hPb hb hshape
    (n_files - 1) acc0 (by omega) inv0
  refine ⟨acc, ?_, hinv⟩
  · unfold loadNu
    have u0 : umul (file 0).n_slices 0 = 0 := by simp [umul]
    have hMle : M * 1 ≤ M * n_files := Nat.mul_le_mul_left M hn
    have u1 : umul (file 0).n_slices (0 + 1) = (file 0).n_slices := by
      rw [umul_of_lt _ _ (by rw [hfs]; omega)]; simp
    unfold loadNuStep at e0
    simp only [u0, u1] at e0
    simp only [e0, Option.some_bind]
    exact e

/-- C5: for `n_files >= 1` chunks of the common shape `K` by `P` by `M`
(non-empty, with sizes in the range of `uword`), the Nu-loading loop returns a
cube of `n_files * M` slices in which slice `i * M + j` is slice `j` of chunk
`i`, for every file `i < n_files` and every `j < M`. -/
theorem loadNu_concatenates [LinearOrderedField α] (file : Nat → Cube α) (n_files K P M : Nat)
    (hn : 1 ≤ n_files) (hshape : ChunksOfShape file n_files K P M)
    (hK : 0 < K) (hP : 0 < P) (hM : 0 < M) (hKb : K < 2 ^ 64) (hPb : P < 2 ^ 64)
    (hb : M * n_files < 2 ^ 64) :
    ∃ nu_samp, loadNu file n_files = some nu_samp ∧
      nu_samp.n_rows = K ∧ nu_samp.n_cols = P ∧ nu_samp.n_slices = n_files * M ∧
      ∀ i, i < n_files → ∀ j, j < M → ∀ r, r < K → ∀ c, c < P →
        nu_samp.mem r c (i * M + j) = (file i).mem r c j := by
  obtain ⟨nu_samp, hload, ⟨hrows, hcols, hslices⟩, hdraws⟩ :=
    loadNu_result file n_files K P M hn hshape hK hP hM hKb hPb hb
  refine ⟨nu_samp, hload, hrows, hcols, ?_, ?_⟩
  · rw [hslices, Nat.mul_comm]
  · intro i hi j hj r hr c hc
    exact hdraws i (by omega) j hj r hr c hc

/-- C5 at two chunks of shape 2 by 3 with 3 draws each: the loop returns the
6-draw cube whose slice `i * 3 + j` is slice `j` of chunk `i`. -/
theorem loadNu_concatenates_witness :
    ∃ nu_samp, loadNu (exChunksEven : Nat → Cube ℚ) 2 = some nu_samp ∧
      nu_samp.n_rows = 2 ∧ nu_samp.n_cols = 3 ∧ nu_samp.n_slices = 2 * 3 ∧
      ∀ i, i < 2 → ∀ j, j < 3 → ∀ r, r < 2 → ∀ c, c < 3 →
        nu_samp.mem r c (i * 3 + j) = ((exChunksEven : Nat → Cube ℚ) i).mem r c j :=
  loadNu_concatenates exChunksEven 2 2 3 3 (by decide) (fun _ _ => ⟨rfl, rfl, rfl⟩)
    (by decide) (by decide) (by decide) (by decide) (by decide) (by decide)

/-- C6 (two files of two draws each, `n_MCMC = 2`): position `1 * 2 + 0` of
`phi_samp` holds draw 1 of chunk 1, not draw 0, and so does position
`1 * 2 + 1`. -/
theorem loadPhi_repeats_draw :
    ∃ phi_samp, loadPhi exPhiChunks 2 2 = some phi_samp ∧
      phi_samp.n_elem = 4 ∧
      phi_samp.mem (1 * 2 + 0) = (exPhiChunks 1).mem 1 ∧
      phi_samp.mem (1 * 2 + 1) = (exPhiChunks 1).mem 1 ∧
      phi_samp.mem (1 * 2 + 0) ≠ (exPhiChunks 1).mem 0 := by
  cases h : loadPhi exPhiChunks 2 2 with
  | none => exact absurd (congrArg Option.isSome h) (by decide)
  | some x =>
    have h1 : (loadPhi exPhiChunks 2 2).map
        (fun f => (f.n_elem, f.mem (1 * 2 + 0), f.mem (1 * 2 + 1))) = some (4, 21, 21) := by
      decide
    rw [h] at h1
    simp only [Option.map_some', Option.some.injEq, Prod.mk.injEq] at h1
    obtain ⟨e1, e2, e3⟩ := h1
    refine ⟨x, rfl, e1, ?_, ?_, ?_⟩
    · rw [e2]; decide
    · rw [e3]; decide
    · rw [e2]; decide

/-- C7 fails for draw counts 2 and 1: the loop returns a cube of 4 slices, not
3, in which the draw of chunk 1 has replaced draw 1 of chunk 0 at position 1
and position 2 holds 0. -/
theorem loadNu_uneven_chunks :
    ∃ nu_samp, loadNu (exChunksUneven : Nat → Cube ℚ) 2 = some nu_samp ∧
      nu_samp.n_slices = 4 ∧ nu_samp.mem 0 0 1 = 20 ∧ nu_samp.mem 0 0 2 = 0 ∧
      ¬ AssembledInOrder (exChunksUneven : Nat → Cube ℚ) 2 nu_samp := by
  cases h : loadNu (exChunksUneven : Nat → Cube ℚ) 2 with
  | none => exact absurd (congrArg Option.isSome h) (by decide)
  | some x =>
    have h1 : (loadNu (exChunksUneven : Nat → Cube ℚ) 2).map
        (fun f => (f.n_slices, f.mem 0 0 1, f.mem 0 0 2)) = some (4, 20, 0) := by
      decide
    rw [h] at h1
    simp only [Option.map_some', Option.some.injEq, Prod.mk.injEq] at h1
    obtain ⟨e1, e2, e3⟩ := h1
    refine ⟨x, rfl, e1, e2, e3, ?_⟩
    intro hA
    have h3 := hA.1
    rw [e1] at h3
    revert h3
    decide

/-- C7 as amended: for `n_files >= 1` chunks that agree on `K`, `P` and on the
draw count `M` (non-empty, with sizes in the range of `uword`), the loop
returns a cube with `M + ... + M` slices (`n_files` terms) in which the draws
of chunk `i` are at the positions after those of the chunks before it, in
their order in the file. -/
theorem loadNu_assembled_of_equal_counts [LinearOrderedField α] (file : Nat → Cube α)
    (n_files K P M : Nat) (hn : 1 ≤ n_files) (hshape : ChunksOfShape file n_files K P M)
    (hK : 0 < K) (hP : 0 < P) (hM : 0 < M) (hKb : K < 2 ^ 64) (hPb : P < 2 ^ 64)
    (hb : M * n_files < 2 ^ 64) :
    ∃ nu_samp, loadNu file n_files = some nu_samp ∧ AssembledInOrder file n_files nu_samp := by
  obtain ⟨x, hx, ⟨_, _, hs⟩, hw⟩ :=
    loadNu_result file n_files K P M hn hshape hK hP hM hKb hPb hb
  have hsum : ∀ i, i ≤ n_files → ∑ t in Finset.range i, (file t).n_slices = i * M := by
    intro i hi
    rw [Finset.sum_congr rfl (fun t ht => (hshape t (by
      have := Finset.mem_range.mp ht; omega)).2.2)]
    simp
  refine ⟨x, hx, ?_, ?_⟩
  · rw [hs, hsum n_files le_rfl, Nat.mul_comm]
  · intro i hi j hj r hr c hc
    obtain ⟨s1, s2, s3⟩ := hshape i hi
    rw [hsum i (by omega)]
    exact hw i (by omega) j (by omega) r (by omega) c (by omega)

/-- C7 as amended, at two chunks of shape 2 by 3 with 3 draws each. -/
theorem loadNu_assembled_of_equal_counts_witness :
    ∃ nu_samp, loadNu (exChunksEven : Nat → Cube ℚ) 2 = some nu_samp ∧
      AssembledInOrder (exChunksEven : Nat → Cube ℚ) 2 nu_samp :=
  loadNu_assembled_of_equal_counts exChunksEven 2 2 3 3 (by decide) (fun _ _ => ⟨rfl, rfl, rfl⟩)
    (by decide) (by decide) (by decide) (by decide) (by decide) (by decide)

/-- A loop of fallible steps that keeps an invariant fails exactly when it
meets an index at which the step fails. -/
theorem foldlM_none_iff {σ : Type} (f : σ → Nat → Option σ) (I : σ → Prop) (bad : Nat → Prop)
    (l : List Nat) (s0 : σ) (h0 : I s0)
    (hgood : ∀ s i, i ∈ l → I s → ¬ bad i → ∃ s', f s i = some s' ∧ I s')
    (hbad : ∀ s i, i ∈ l → I s → bad i → f s i = none) :
    l.foldlM f s0 = none ↔ ∃ i, i ∈ l ∧ bad i := by
  induction l generalizing s0 with
  | nil => simp
  | cons i l ih =>
    rw [List.foldlM_cons]
    by_cases hb : bad i
    · rw [hbad s0 i (List.mem_cons_self i l) h0 hb]
      exact ⟨fun _ => ⟨i, List.mem_cons_self i l, hb⟩, fun _ => rfl⟩
    · obtain ⟨s1, e1, i1⟩ := hgood s0 i (List.mem_cons_self i l) h0 hb
      rw [e1]
      show l.foldlM f s1 = none ↔ _
      rw [ih s1 i1 (fun s j hj => hgood s j (List.mem_cons_of_mem i hj))
        (fun s j hj => hbad s j (List.mem_cons_of_mem i hj))]
      constructor
      · rintro ⟨j, hj, hbj⟩
        exact ⟨j, List.mem_cons_of_mem i hj, hbj⟩
      · rintro ⟨j, hj, hbj⟩
        rcases List.mem_cons.mp hj with rfl | hj2
        · exact absurd hbj hb
        · exact ⟨j, hj2, hbj⟩

/-- One pass of the loop body on a non-empty chunk of `M` draws: the chunk is
written when it has at most the rows and the columns of the destination, and
Armadillo raises an error when it has more. -/
theorem loadNuStep_shape (file : Nat → Cube α) (acc : Cube α) (n M i : Nat)
    (hM : 0 < M) (hb : M * n < 2 ^ 64) (hi : i < n)
    (hr : 0 < (file i).n_rows ∧ (file i).n_rows < 2 ^ 64)
    (hc : 0 < (file i).n_cols ∧ (file i).n_cols < 2 ^ 64)
    (hs : (file i).n_slices = M) (hacc : acc.n_slices = M * n) :
    (¬ (acc.n_rows < (file i).n_rows ∨ acc.n_cols < (file i).n_cols) →
      ∃ acc2, loadNuStep file acc i = some acc2 ∧ acc2.n_rows = acc.n_rows ∧
        acc2.n_cols = acc.n_cols ∧ acc2.n_slices = acc.n_slices) ∧
    ((acc.n_rows < (file i).n_rows ∨ acc.n_cols < (file i).n_cols) →
      loadNuStep file acc i = none) := by
  have h1 : M * (i + 1) ≤ M * n := Nat.mul_le_mul_left M hi
  have h2 : M * (i + 1) = M * i + M := Nat.mul_succ M i
  have e1 : umul M i = M * i := umul_of_lt _ _ (by omega)
  have e2 : umul M (i + 1) = M * (i + 1) := umul_of_lt _ _ (by omega)
  have e3 : usub (M * (i + 1)) 1 = M * (i + 1) - 1 := usub_one _ (by omega) (by omega)
  have e4 : usub (file i).n_rows 1 = (file i).n_rows - 1 := usub_one _ hr.1 hr.2
  have e5 : usub (file i).n_cols 1 = (file i).n_cols - 1 := usub_one _ hc.1 hc.2
  unfold loadNuStep Cube.assignSubcube
  simp only [hs, hacc, e1, e2, e3, e4, e5]
  constructor
  · intro hle
    rw [if_neg (by omega), if_neg (by omega)]
    exact ⟨_, rfl, rfl, rfl, rfl⟩
  · intro hgt
    rw [if_pos (by omega)]

/-- C15, counterexample: a 2 by 2 chunk followed by a 1 by 1 chunk.  The loop
returns a cube of two 2 by 2 slices; the entry of chunk 1 is copied into cell
`(0, 0)` of slice 1 and the three other cells of that slice stay zero. -/
theorem loadNu_smaller_chunk_copied :
    ∃ nu_samp, loadNu (exChunksShrink : Nat → Cube ℚ) 2 = some nu_samp ∧
      ((exChunksShrink 1 : Cube ℚ).n_rows = 1 ∧ (exChunksShrink 1 : Cube ℚ).n_cols = 1 ∧
        (exChunksShrink 0 : Cube ℚ).n_rows = 2 ∧ (exChunksShrink 0 : Cube ℚ).n_cols = 2) ∧
      (nu_samp.n_rows = 2 ∧ nu_samp.n_cols = 2 ∧ nu_samp.n_slices = 2) ∧
      nu_samp.mem 0 0 1 = 20 ∧ nu_samp.mem 0 1 1 = 0 ∧ nu_samp.mem 1 0 1 = 0 ∧
      nu_samp.mem 1 1 1 = 0 := by
  cases h : loadNu (exChunksShrink : Nat → Cube ℚ) 2 with
  | none => exact absurd (congrArg Option.isSome h) (by decide)
  | some x =>
    have h1 : (loadNu (exChunksShrink : Nat → Cube ℚ) 2).map
        (fun f => (f.n_rows, f.n_cols, f.n_slices)) = some (2, 2, 2) := by
      decide
    have h2 : (loadNu (exChunksShrink : Nat → Cube ℚ) 2).map
        (fun f => (f.mem 0 0 1, f.mem 0 1 1, f.mem 1 0 1, f.mem 1 1 1)) =
          some (20, 0, 0, 0) := by
      decide
    rw [h] at h1 h2
    simp only [Option.map_some', Option.some.injEq, Prod.mk.injEq] at h1 h2
    obtain ⟨e1, e2, e3⟩ := h1
    obtain ⟨e4, e5, e6, e7⟩ := h2
    exact ⟨x, rfl, ⟨rfl, rfl, rfl, rfl⟩, ⟨e1, e2, e3⟩, e4, e5, e6, e7⟩

/-- For `n_files >= 1` non-empty chunks of `M` draws each (sizes in the range
of `uword`), the Nu-loading loop fails if and only if some chunk `i >= 1` has
more rows or more columns than chunk 0. -/
theorem loadNu_fails_iff_larger [LinearOrderedField α] (file : Nat → Cube α) (n_files M : Nat)
    (hn : 1 ≤ n_files) (hM : 0 < M) (hb : M * n_files < 2 ^ 64)
    (hch : ChunksOfCount file n_files M) :
    loadNu file n_files = none ↔
      ∃ i, 1 ≤ i ∧ i < n_files ∧
        ((file 0).n_rows < (file i).n_rows ∨ (file 0).n_cols < (file i).n_cols) := by
  obtain ⟨hr0, hc0, hs0⟩ := hch 0 (by omega)
  have hz : (Cube.zeros (file 0).n_rows (file 0).n_cols (umul (file 0).n_slices n_files) :
      Cube α).n_slices = M * n_files := by
    simp [Cube.zeros, hs0, umul_of_lt _ _ hb]
  obtain ⟨acc0, e0, d1, d2, d3⟩ := (loadNuStep_shape file
    (Cube.zeros (file 0).n_rows (file 0).n_cols (umul (file 0).n_slices n_files)) n_files M 0
    hM hb (by omega) hr0 hc0 hs0 hz).1 (by simp [Cube.zeros])
  have hMle : M * 1 ≤ M * n_files := Nat.mul_le_mul_left M hn
  have u0 : umul (file 0).n_slices 0 = 0 := by simp [umul]
  have u1 : umul (file 0).n_slices (0 + 1) = (file 0).n_slices := by
    rw [umul_of_lt _ _ (by rw [hs0]; omega)]; simp
  unfold loadNuStep at e0
  simp only [u0, u1] at e0
  unfold loadNu
  simp only [e0, Option.some_bind]
  rw [foldlM_none_iff (loadNuStep file)
    (fun acc => acc.n_rows = (file 0).n_rows ∧ acc.n_cols = (file 0).n_cols ∧
      acc.n_slices = M * n_files)
    (fun i => (file 0).n_rows < (file i).n_rows ∨ (file 0).n_cols < (file i).n_cols)
    (List.range' 1 (n_files - 1)) acc0 ⟨d1, d2, d3.trans hz⟩]
  · constructor
    · rintro ⟨i, hi, hbad⟩
      rw [List.mem_range'_1] at hi
      exact ⟨i, hi.1, by omega, hbad⟩
    · rintro ⟨i, hi1, hi2, hbad⟩
      exact ⟨i, List.mem_range'_1.mpr ⟨hi1, by omega⟩, hbad⟩
  · intro s i hi hI hgood
    rw [List.mem_range'_1] at hi
    obtain ⟨hr, hc, hs⟩ := hch i (by omega)
    obtain ⟨acc2, e, a1, a2, a3⟩ := (loadNuStep_shape file s n_files M i hM hb (by omega) hr hc hs
      hI.2.2).1 (by rw [hI.1, hI.2.1]; exact hgood)
    exact ⟨acc2, e, a1.trans hI.1, a2.trans hI.2.1, a3.trans hI.2.2⟩
  · intro s i hi hI hbad
    rw [List.mem_range'_1] at hi
    obtain ⟨hr, hc, hs⟩ := hch i (by omega)
    exact (loadNuStep_shape file s n_files M i hM hb (by omega) hr hc hs hI.2.2).2
      (by rw [hI.1, hI.2.1]; exact hbad)

/-- One pass of the loop body on a non-empty chunk of `M` draws that has at
most the rows and the columns of the destination: the chunk is written into
the leading rows and columns of the slices `M * i, ..., M * (i + 1) - 1` and
every other element is left as it was. -/
theorem loadNuStep_block (file : Nat → Cube α) (acc : Cube α) (n M i : Nat)
    (hM : 0 < M) (hb : M * n < 2 ^ 64) (hi : i < n)
    (hr : 0 < (file i).n_rows ∧ (file i).n_rows < 2 ^ 64)
    (hc : 0 < (file i).n_cols ∧ (file i).n_cols < 2 ^ 64)
    (hs : (file i).n_slices = M) (hacc : acc.n_slices = M * n)
    (hle : (file i).n_rows ≤ acc.n_rows ∧ (file i).n_cols ≤ acc.n_cols) :
    ∃ acc2, loadNuStep file acc i = some acc2 ∧
      (acc2.n_rows = acc.n_rows ∧ acc2.n_cols = acc.n_cols ∧ acc2.n_slices = acc.n_slices) ∧
      ∀ r c s, acc2.mem r c s =
        if r < (file i).n_rows ∧ c < (file i).n_cols ∧ M * i ≤ s ∧ s < M * (i + 1) then
          (file i).mem r c (s - M * i)
        else acc.mem r c s := by
  have h1 : M * (i + 1) ≤ M * n := Nat.mul_le_mul_left M hi
  have h2 : M * (i + 1) = M * i + M := Nat.mul_succ M i
  have e1 : umul M i = M * i := umul_of_lt _ _ (by omega)
  have e2 : umul M (i + 1) = M * (i + 1) := umul_of_lt _ _ (by omega)
  have e3 : usub (M * (i + 1)) 1 = M * (i + 1) - 1 := usub_one _ (by omega) (by omega)
  have e4 : usub (file i).n_rows 1 = (file i).n_rows - 1 := usub_one _ hr.1 hr.2
  have e5 : usub (file i).n_cols 1 = (file i).n_cols - 1 := usub_one _ hc.1 hc.2
  unfold loadNuStep Cube.assignSubcube
  simp only [hs, hacc, e1, e2, e3, e4, e5]
  rw [if_neg (by omega), if_neg (by omega)]
  refine ⟨_, rfl, ⟨rfl, rfl, rfl⟩, ?_⟩
  intro r c s
  simp only []
  by_cases hin : r < (file i).n_rows ∧ c < (file i).n_cols ∧ M * i ≤ s ∧ s < M * (i + 1)
  · rw [if_pos hin, if_pos (by omega)]
    simp
  · rw [if_neg hin, if_neg (by omega)]

/-- The state of the Nu-loading loop after the files `0, ..., t`: the
assembled cube has the rows and the columns of chunk 0, every chunk read so
far is in the leading rows and columns of its slices with zeros around it,
and the slices of the files not yet read are zero. -/
theorem loadNu_loop_block [LinearOrderedField α] (file : Nat → Cube α) (n M : Nat)
    (hM : 0 < M) (hb : M * n < 2 ^ 64) (hch : ChunksOfCount file n M)
    (hsmall : ∀ i, 1 ≤ i → i < n →
      (file i).n_rows ≤ (file 0).n_rows ∧ (file i).n_cols ≤ (file 0).n_cols) :
    ∀ (t : Nat) (acc : Cube α), t + 1 ≤ n →
      ((acc.n_rows = (file 0).n_rows ∧ acc.n_cols = (file 0).n_cols ∧
          acc.n_slices = M * n) ∧
        (∀ i j r c, i ≤ 0 → j < M → acc.mem r c (i * M + j) =
          if r < (file i).n_rows ∧ c < (file i).n_cols then (file i).mem r c j else 0) ∧
        ∀ s r c, M * (0 + 1) ≤ s → acc.mem r c s = 0) →
      ∃ acc2, (List.range' 1 t).foldlM (loadNuStep file) acc = some acc2 ∧
        (acc2.n_rows = (file 0).n_rows ∧ acc2.n_cols = (file 0).n_cols ∧
          acc2.n_slices = M * n) ∧
        (∀ i j r c, i ≤ t → j < M → acc2.mem r c (i * M + j) =
          if r < (file i).n_rows ∧ c < (file i).n_cols then (file i).mem r c j else 0) ∧
        ∀ s r c, M * (t + 1) ≤ s → acc2.mem r c s = 0 := by
  intro t
  induction t with
  | zero => intro acc _ h; exact ⟨acc, rfl, h⟩
  | succ t ih =>
    intro acc ht h
    obtain ⟨acc1, e1, ⟨d1, d2, d3⟩, hdone, hzero⟩ := ih acc (by omega) h
    obtain ⟨hr, hc, hs⟩ := hch (t + 1) (by omega)
    obtain ⟨hR, hC⟩ := hsmall (t + 1) (by omega) (by omega)
    obtain ⟨acc2, e2, ⟨a1, a2, a3⟩, hmem⟩ := loadNuStep_block file acc1 n M (t + 1) hM hb
      (by omega) hr hc hs d3 ⟨by omega, by omega⟩
    refine ⟨acc2, ?_, ⟨a1.trans d1, a2.trans d2, a3.trans d3⟩, ?_, ?_⟩
    · rw [List.range'_concat, List.foldlM_append, e1]
      simp [Nat.add_comm 1 t, e2]
    · intro i j r c hi hj
      have hcomm : i * M = M * i := Nat.mul_comm i M
      have hsucc1 : M * (t + 1 + 1) = M * (t + 1) + M := Nat.mul_succ M (t + 1)
      rw [hmem r c (i * M + j)]
      rcases Nat.lt_or_ge i (t + 1) with hlt | hge
      · have hle : M * (i + 1) ≤ M * (t + 1) := Nat.mul_le_mul_left M hlt
        have hsucc : M * (i + 1) = M * i + M := Nat.mul_succ M i
        rw [if_neg (by omega)]
        exact hdone i j r c (by omega) hj
      · have hit : i = t + 1 := by omega
        subst hit
        by_cases hin : r < (file (t + 1)).n_rows ∧ c < (file (t + 1)).n_cols
        · rw [if_pos ⟨hin.1, hin.2, by omega, by omega⟩, if_pos hin]
          congr 1
          omega
        · rw [if_neg (fun h4 => hin ⟨h4.1, h4.2.1⟩), if_neg hin]
          exact hzero _ r c (by omega)
    · intro s r c hs2
      have hsucc1 : M * (t + 1 + 1) = M * (t + 1) + M := Nat.mul_succ M (t + 1)
      rw [hmem r c s, if_neg (by omega)]
      exact hzero s r c (by omega)

/-- C15, amended: for `n_files >= 1` non-empty chunks of `M` draws each (sizes
in the range of `uword`), the Nu-loading loop fails if and only if some chunk
`i >= 1` has more rows or more columns than chunk 0; when it returns, the
assembled cube has the rows and the columns of chunk 0 and `n_files * M`
slices, and draw `j` of every chunk `i` is in the leading rows and columns of
slice `i * M + j`, every other element of that slice being zero: a later
chunk with fewer rows or columns is copied into a sub-block. -/
theorem loadNu_larger_fails_smaller_copied [LinearOrderedField α] (file : Nat → Cube α)
    (n_files M : Nat) (hn : 1 ≤ n_files) (hM : 0 < M) (hb : M * n_files < 2 ^ 64)
    (hch : ChunksOfCount file n_files M) :
    (loadNu file n_files = none ↔
      ∃ i, 1 ≤ i ∧ i < n_files ∧
        ((file 0).n_rows < (file i).n_rows ∨ (file 0).n_cols < (file i).n_cols)) ∧
    (∀ nu_samp, loadNu file n_files = some nu_samp →
      (nu_samp.n_rows = (file 0).n_rows ∧ nu_samp.n_cols = (file 0).n_cols ∧
        nu_samp.n_slices = n_files * M) ∧
      ∀ i j r c, i < n_files → j < M →
        nu_samp.mem r c (i * M + j) =
          if r < (file i).n_rows ∧ c < (file i).n_cols then (file i).mem r c j else 0) := by
  have hiff := loadNu_fails_iff_larger file n_files M hn hM hb hch
  refine ⟨hiff, ?_⟩
  intro nu_samp hload
  have hsmall : ∀ i, 1 ≤ i → i < n_files →
      (file i).n_rows ≤ (file 0).n_rows ∧ (file i).n_cols ≤ (file 0).n_cols := by
    intro i h1 h2
    by_contra hnot
    have hnone := hiff.mpr ⟨i, h1, h2, by omega⟩
    rw [hnone] at hload
    exact absurd hload (by simp)
  obtain ⟨hr0, hc0, hs0⟩ := hch 0 (by omega)
  have hz : (Cube.zeros (file 0).n_rows (file 0).n_cols (umul (file 0).n_slices n_files) :
      Cube α).n_slices = M * n_files := by
    simp [Cube.zeros, hs0, umul_of_lt _ _ hb]
  obtain ⟨acc0, e0, ⟨d1, d2, d3⟩, hmem0⟩ := loadNuStep_block file
    (Cube.zeros (file 0).n_rows (file 0).n_cols (umul (file 0).n_slices n_files)) n_files M 0
    hM hb (by omega) hr0 hc0 hs0 hz ⟨le_rfl, le_rfl⟩
  have hMle : M * 1 ≤ M * n_files := Nat.mul_le_mul_left M hn
  have u0 : umul (file 0).n_slices 0 = 0 := by simp [umul]
  have u1 : umul (file 0).n_slices (0 + 1) = (file 0).n_slices := by
    rw [umul_of_lt _ _ (by rw [hs0]; omega)]; simp
  unfold loadNuStep at e0
  simp only [u0, u1] at e0
  obtain ⟨acc, e, ⟨a1, a2, a3⟩, hdone, _⟩ := loadNu_loop_block file n_files M hM hb hch hsmall
    (n_files - 1) acc0 (by omega)
    ⟨⟨d1, d2, d3.trans hz⟩, by
      intro i j r c hi hj
      have hi0 : i = 0 := by omega
      subst hi0
      rw [hmem0 r c (0 * M + j)]
      by_cases hin : r < (file 0).n_rows ∧ c < (file 0).n_cols
      · rw [if_pos ⟨hin.1, hin.2, by omega, by omega⟩, if_pos hin]
        congr 1
        omega
      · rw [if_neg (fun h4 => hin ⟨h4.1, h4.2.1⟩), if_neg hin]
        rfl, by
      intro s r c hs
      rw [hmem0 r c s, if_neg (by omega)]
      rfl⟩
  have hres : loadNu file n_files = some acc := by
    unfold loadNu
    simp only [e0, Option.some_bind]
    exact e
  rw [hres] at hload
  have hEq : acc = nu_samp := Option.some.inj hload
  subst hEq
  refine ⟨⟨a1, a2, by rw [a3, Nat.mul_comm]⟩, ?_⟩
  intro i j r c hi hj
  exact hdone i j r c (by omega) hj

/-- C15 as amended, at a 2 by 2 chunk followed by a 1 by 1 chunk (one draw
each): the loop returns, and slice 1 holds the entry of chunk 1 in cell
`(0, 0)` and zeros in the three other cells. -/
theorem loadNu_larger_fails_smaller_copied_witness :
    (1 ≤ 2 ∧ 0 < 1 ∧ 1 * 2 < 2 ^ 64 ∧ ChunksOfCount (exChunksShrink : Nat → Cube ℚ) 2 1) ∧
    ∃ nu_samp, loadNu (exChunksShrink : Nat → Cube ℚ) 2 = some nu_samp ∧
      (nu_samp.n_rows = 2 ∧ nu_samp.n_cols = 2 ∧ nu_samp.n_slices = 2) ∧
      nu_samp.mem 0 0 1 = 20 ∧ nu_samp.mem 0 1 1 = 0 ∧ nu_samp.mem 1 0 1 = 0 ∧
      nu_samp.mem 1 1 1 = 0 := by
  have h : ChunksOfCount (exChunksShrink : Nat → Cube ℚ) 2 1 := by
    intro i hi
    interval_cases i
    · exact ⟨⟨by decide, by decide⟩, ⟨by decide, by decide⟩, rfl⟩
    · exact ⟨⟨by decide, by decide⟩, ⟨by decide, by decide⟩, rfl⟩
  refine ⟨⟨by decide, by decide, by norm_num, h⟩, ?_⟩
  cases hl : loadNu (exChunksShrink : Nat → Cube ℚ) 2 with
  | none => exact absurd (congrArg Option.isSome hl) (by decide)
  | some x =>
    obtain ⟨hd, hm⟩ := (loadNu_larger_fails_smaller_copied (exChunksShrink : Nat → Cube ℚ) 2 1
      (by decide) (by decide) (by norm_num) h).2 x hl
    have m00 := hm 1 0 0 0 (by decide) (by decide)
    have m01 := hm 1 0 0 1 (by decide) (by decide)
    have m10 := hm 1 0 1 0 (by decide) (by decide)
    have m11 := hm 1 0 1 1 (by decide) (by decide)
    refine ⟨x, rfl, hd, ?_, ?_, ?_, ?_⟩
    · rw [show (1 : Nat) = 1 * 1 + 0 from rfl, m00]
      simp [exChunksShrink, Cube.ofSlices]
    · rw [show (1 : Nat) = 1 * 1 + 0 from rfl, m01]
      simp [exChunksShrink, Cube.ofSlices]
    · rw [show (1 : Nat) = 1 * 1 + 0 from rfl, m10]
      simp [exChunksShrink, Cube.ofSlices]
    · rw [show (1 : Nat) = 1 * 1 + 0 from rfl, m11]
      simp [exChunksShrink, Cube.ofSlices]

end LoadingTheorems


section ListLemmas

variable {α : Type}

theorem fillVec_loop [LinearOrderedField α] (n : Nat) (f : Nat → α) (k : Nat) (hk : k ≤ n) :
    (List.range k).foldl (fun v i => v.set i (f i)) (List.replicate n 0) =
      (List.range k).map f ++ List.replicate (n - k) 0 := by
  induction k with
  | zero => simp
  | succ k ih =>
    rw [List.range_succ, List.foldl_append, ih (by omega)]
    simp only [List.foldl_cons, List.foldl_nil, List.map_append, List.map_cons, List.map_nil]
    have hlen : ((List.range k).map f).length = k := by simp
    have hrep : List.replicate (n - k) (0 : α) = 0 :: List.replicate (n - (k + 1)) 0 := by
      rw [show n - k = (n - (k + 1)) + 1 by omega, List.replicate_succ]
    rw [hrep, List.set_append_right _ _ (by rw [hlen]), hlen]
    simp

theorem foldl_CI_set (f2 f1 f0 : Nat → α) (l : List Nat) (a b c : List α) :
    l.foldl (fun ci i =>
        ({ CI_975 := ci.CI_975.set i (f2 i), CI_50 := ci.CI_50.set i (f1 i),
           CI_025 := ci.CI_025.set i (f0 i) } : CI α))
      { CI_975 := a, CI_50 := b, CI_025 := c } =
    { CI_975 := l.foldl (fun v i => v.set i (f2 i)) a,
      CI_50 := l.foldl (fun v i => v.set i (f1 i)) b,
      CI_025 := l.foldl (fun v i => v.set i (f0 i)) c } := by
  induction l generalizing a b c with
  | nil => rfl
  | cons i l ih => simp only [List.foldl_cons, ih]

theorem foldl_max_ge [LinearOrderedField α] (X : List α) (a : α) :
    a ≤ X.foldl max a ∧ ∀ x ∈ X, x ≤ X.foldl max a := by
  induction X generalizing a with
  | nil => simp
  | cons y X ih =>
    simp only [List.foldl_cons, List.mem_cons]
    refine ⟨le_trans (le_max_left a y) (ih (max a y)).1, ?_⟩
    rintro x (rfl | hx)
    · exact le_trans (le_max_right a x) (ih (max a x)).1
    · exact (ih (max a y)).2 x hx

theorem foldl_max_mem [LinearOrderedField α] (X : List α) (a : α) : X.foldl max a = a ∨ X.foldl max a ∈ X := by
  induction X generalizing a with
  | nil => simp
  | cons y X ih =>
    simp only [List.foldl_cons, List.mem_cons]
    rcases ih (max a y) with h | h
    · rcases max_choice a y with h2 | h2
      · left; rw [h, h2]
      · right; left; rw [h, h2]
    · right; right; exact h

theorem sorted_getD_mono [LinearOrderedField α] (Y : List α) (hs : Y.Sorted (fun a b => a ≤ b)) (i k : Nat)
    (hik : i ≤ k) (hk : k < Y.length) : Y.getD i 0 ≤ Y.getD k 0 := by
  rw [List.getD_eq_getElem _ _ (by omega), List.getD_eq_getElem _ _ hk]
  have hle : (⟨i, by omega⟩ : Fin Y.length) ≤ ⟨k, hk⟩ := hik
  exact hs.rel_get_of_le hle

/-- The position `N * p + 0.5` of the middle branch of `quantile` lies between
1 and `N`. -/
theorem quantile_position [LinearOrderedField α] (N p : α) (hN : 0 < N) (h1 : ¬ p < (1 - 1 / 2) / N)
    (h2 : ¬ p > (N - 1 / 2) / N) : 1 ≤ N * p + 1 / 2 ∧ N * p + 1 / 2 ≤ N := by
  have a1 : (1 - 1 / 2) / N ≤ p := not_lt.mp h1
  have a2 : p ≤ (N - 1 / 2) / N := not_lt.mp h2
  rw [div_le_iff₀ hN] at a1
  rw [le_div_iff₀ hN] at a2
  constructor <;> nlinarith

theorem sum_map_range [LinearOrderedField α] (f : Nat → α) (n : Nat) :
    ((List.range n).map f).sum = ∑ i in Finset.range n, f i := by
  induction n with
  | zero => simp
  | succ n ih => simp [List.range_succ, Finset.sum_range_succ, ih]

theorem sorted_replicate_append [LinearOrderedField α] (a b : α) (h : a ≤ b) (k : Nat) :
    (List.replicate k a ++ [b]).Sorted (fun x y => x ≤ y) := by
  simp [List.Sorted, List.pairwise_append, List.pairwise_replicate, h]

/-- Two entries at distinct positions that satisfy `P` are counted twice. -/
theorem two_le_countP [LinearOrderedField α] (P : α → Bool) (D : List α) (i k : Nat) (hik : i < k) (hk : k < D.length)
    (hi : P (D.getD i 0) = true) (hkP : P (D.getD k 0) = true) : 2 ≤ D.countP P := by
  rw [List.getD_eq_getElem _ _ (by omega)] at hi
  rw [List.getD_eq_getElem _ _ hk] at hkP
  have hsplit : D = D.take k ++ D.drop k := (List.take_append_drop k D).symm
  rw [hsplit, List.countP_append]
  have h1 : 0 < (D.take k).countP P :=
    List.countP_pos_iff.mpr ⟨D[i], List.mem_take_iff_getElem.mpr ⟨i, by omega, rfl⟩, hi⟩
  have h2 : 0 < (D.drop k).countP P :=
    List.countP_pos_iff.mpr ⟨D[k], List.mem_drop_iff_getElem.mpr ⟨0, by omega, rfl⟩, hkP⟩
  omega

theorem fillVec_eq_map [LinearOrderedField α] (n : Nat) (f : Nat → α) : fillVec n f = (List.range n).map f := by
  unfold fillVec
  rw [fillVec_loop n f n le_rfl]
  simp

/-- The largest entry of a non-empty vector is an entry and bounds the
entries. -/
theorem vecMax_isGreatest [LinearOrderedField α] (X : List α) (hX : X ≠ []) :
    vecMax X ∈ X ∧ ∀ x ∈ X, x ≤ vecMax X := by
  cases X with
  | nil => exact absurd rfl hX
  | cons y X =>
    unfold vecMax
    simp only [List.headD_cons, List.foldl_cons, max_self]
    refine ⟨?_, ?_⟩
    · rcases foldl_max_mem X y with h | h
      · rw [h]; exact List.mem_cons_self _ _
      · exact List.mem_cons_of_mem _ h
    · intro x hx
      rcases List.mem_cons.mp hx with rfl | hx
      · exact (foldl_max_ge X x).1
      · exact (foldl_max_ge X y).2 x hx

theorem mean_col [LinearOrderedField α] (f_samp : Mat α) (g : Nat) : mean (f_samp.col g) = colMean f_samp g := by
  unfold mean colMean Mat.col
  rw [sum_map_range]
  simp

/-- The two largest entries bound any two entries at distinct positions. -/
theorem sorted_top_two [LinearOrderedField α] (D : List α) (i k : Nat) (hik : i < k) (hk : k < D.length) (x y : α)
    (hx : x ≤ D.getD i 0) (hy : y ≤ D.getD k 0) :
    x + y ≤ (D.insertionSort (fun a b => a ≤ b)).getD (D.length - 2) 0
      + (D.insertionSort (fun a b => a ≤ b)).getD (D.length - 1) 0 := by
  have hs := List.sorted_insertionSort (fun a b : α => a ≤ b) D
  have hlen := List.length_insertionSort (fun a b : α => a ≤ b) D
  have hperm := List.perm_insertionSort (fun a b : α => a ≤ b) D
  have hmax : ∀ z ∈ D, z ≤ (D.insertionSort (fun a b => a ≤ b)).getD (D.length - 1) 0 := by
    intro z hz
    obtain ⟨n, hn, rfl⟩ := List.mem_iff_getElem.mp (hperm.symm.subset hz)
    rw [← List.getD_eq_getElem _ 0 hn]
    exact sorted_getD_mono _ hs _ _ (by omega) (by omega)
  have hiD : D.getD i 0 ∈ D := by
    rw [List.getD_eq_getElem _ _ (by omega)]; exact List.getElem_mem _
  have hkD : D.getD k 0 ∈ D := by
    rw [List.getD_eq_getElem _ _ hk]; exact List.getElem_mem _
  have hM : max (D.getD i 0) (D.getD k 0) ≤
      (D.insertionSort (fun a b => a ≤ b)).getD (D.length - 1) 0 :=
    max_le (hmax _ hiD) (hmax _ hkD)
  have hm : min (D.getD i 0) (D.getD k 0) ≤
      (D.insertionSort (fun a b => a ≤ b)).getD (D.length - 2) 0 := by
    by_contra hcon
    have hlt := not_le.mp hcon
    have c2 : 2 ≤ D.countP (fun z => decide (min (D.getD i 0) (D.getD k 0) ≤ z)) :=
      two_le_countP _ D i k hik hk (by simp) (by simp)
    rw [← hperm.countP_eq] at c2
    have hsplit : D.insertionSort (fun a b => a ≤ b) =
        (D.insertionSort (fun a b => a ≤ b)).take (D.length - 1) ++
          (D.insertionSort (fun a b => a ≤ b)).drop (D.length - 1) :=
      (List.take_append_drop _ _).symm
    rw [hsplit, List.countP_append] at c2
    have z1 : ((D.insertionSort (fun a b => a ≤ b)).take (D.length - 1)).countP
        (fun z => decide (min (D.getD i 0) (D.getD k 0) ≤ z)) = 0 := by
      rw [List.countP_eq_zero]
      intro a ha
      obtain ⟨n, hn, rfl⟩ := List.mem_take_iff_getElem.mp ha
      have hn2 : n < D.length - 1 := lt_of_lt_of_le hn (min_le_left _ _)
      have hle : (D.insertionSort (fun a b => a ≤ b)).getD n 0 ≤
          (D.insertionSort (fun a b => a ≤ b)).getD (D.length - 2) 0 :=
        sorted_getD_mono _ hs _ _ (by omega) (by omega)
      rw [List.getD_eq_getElem _ 0 (by omega)] at hle
      simp only [decide_eq_true_eq, not_le]
      exact lt_of_le_of_lt hle hlt
    have z2 : ((D.insertionSort (fun a b => a ≤ b)).drop (D.length - 1)).countP
        (fun z => decide (min (D.getD i 0) (D.getD k 0) ≤ z)) ≤ 1 := by
      refine le_trans (List.countP_le_length _) ?_
      rw [List.length_drop, hlen]
      omega
    omega
  have hsum : D.getD i 0 + D.getD k 0 =
      min (D.getD i 0) (D.getD k 0) + max (D.getD i 0) (D.getD k 0) :=
    (min_add_max _ _).symm
  linarith

theorem stddev_col [LinearOrderedField α] (L : Libm α) (f_samp : Mat α) (hS : 2 ≤ f_samp.n_rows) (g : Nat) :
    stddev L (f_samp.col g) = colSd L f_samp g := by
  unfold stddev
  rw [mean_col]
  unfold colSd Mat.col
  rw [List.map_map, sum_map_range]
  simp only [List.length_map, List.length_range, if_pos hS]
  rfl

/-- The largest studentized deviation of draw `s`, as computed in the loop
over the grid points, is the greatest element of `studentized`. -/
theorem vecMax_studentized [LinearOrderedField α] (L : Libm α) (f_samp : Mat α) (hG : 1 ≤ f_samp.n_cols)
    (hsd : ∀ g, g < f_samp.n_cols → 0 < colSd L f_samp g) (s : Nat) :
    IsGreatest (studentized L f_samp s)
      (vecMax ((List.range f_samp.n_cols).map (fun j =>
        |(f_samp.mem s j - colMean f_samp j) / colSd L f_samp j|))) := by
  have hne : (List.range f_samp.n_cols).map (fun j =>
      |(f_samp.mem s j - colMean f_samp j) / colSd L f_samp j|) ≠ [] := by
    intro h
    have := congrArg List.length h
    simp at this
    omega
  obtain ⟨hmem, hub⟩ := vecMax_isGreatest _ hne
  constructor
  · obtain ⟨g, hg, hgx⟩ := List.mem_map.mp hmem
    refine ⟨g, List.mem_range.mp hg, ?_⟩
    rw [← hgx, abs_div, abs_of_pos (hsd g (List.mem_range.mp hg))]
  · rintro x ⟨g, hg, rfl⟩
    apply hub
    refine List.mem_map.mpr ⟨g, List.mem_range.mpr hg, ?_⟩
    rw [abs_div, abs_of_pos (hsd g hg)]

/-- A loop of fallible steps over `0, ..., n - 1` that keeps an invariant
succeeds and ends in a state with the invariant at `n`. -/
theorem foldlM_range_inv {σ : Type} (f : σ → Nat → Option σ) (P : Nat → σ → Prop) (n : Nat)
    (s0 : σ) (h0 : P 0 s0)
    (hstep : ∀ k s, k < n → P k s → ∃ s', f s k = some s' ∧ P (k + 1) s') :
    ∃ s', (List.range n).foldlM f s0 = some s' ∧ P n s' := by
  induction n with
  | zero => exact ⟨s0, rfl, h0⟩
  | succ n ih =>
    obtain ⟨s1, e1, p1⟩ := ih (fun k s hk => hstep k s (by omega))
    obtain ⟨s2, e2, p2⟩ := hstep n s1 (by omega) p1
    refine ⟨s2, ?_, p2⟩
    rw [List.range_succ, List.foldlM_append, e1]
    simp [e2]

/-- The element assignment inside the bounds succeeds, keeps the shape and
changes the one entry. -/
theorem Mat.write_spec (m : Mat α) (i j : Nat) (v : α) (hi : i < m.n_rows) (hj : j < m.n_cols) :
    ∃ m2, m.write i j v = some m2 ∧ m2.n_rows = m.n_rows ∧ m2.n_cols = m.n_cols ∧
      m2.mem i j = v ∧ ∀ r c, ¬ (r = i ∧ c = j) → m2.mem r c = m.mem r c := by
  refine ⟨{ m with mem := fun r c => if r = i ∧ c = j then v else m.mem r c }, ?_, rfl, rfl, ?_, ?_⟩
  · unfold Mat.write
    rw [if_neg (by omega)]
  · simp
  · intro r c h
    simp [h]

/-- Two nested loops of fallible steps over a grid of `R` by `C` cells: when
every step keeps an invariant, settles its cell and leaves the settled cells
settled, the loops succeed and settle every cell. -/
theorem foldlM_grid {σ : Type} (R C : Nat) (step : σ → Nat → Nat → Option σ) (I : σ → Prop)
    (Done : Nat → Nat → σ → Prop) (s0 : σ) (h0 : I s0)
    (hstep : ∀ s i j, i < R → j < C → I s →
      ∃ s', step s i j = some s' ∧ I s' ∧ Done i j s' ∧ ∀ r c, Done r c s → Done r c s') :
    ∃ s', (List.range R).foldlM (fun s i => (List.range C).foldlM (fun s j => step s i j) s) s0
        = some s' ∧ I s' ∧ ∀ r c, r < R → c < C → Done r c s' := by
  obtain ⟨s1, e1, hI, hD⟩ := foldlM_range_inv
    (fun s i => (List.range C).foldlM (fun s j => step s i j) s)
    (fun i s => I s ∧ ∀ r c, r < i → c < C → Done r c s) R s0
    ⟨h0, fun r c h => absurd h (Nat.not_lt_zero r)⟩
    (by
      intro i s hi hs
      obtain ⟨s2, e2, hI2, hD2, hrow⟩ := foldlM_range_inv (fun s j => step s i j)
        (fun j s => I s ∧ (∀ r c, r < i → c < C → Done r c s) ∧ ∀ c, c < j → Done i c s) C s
        ⟨hs.1, hs.2, fun c h => absurd h (Nat.not_lt_zero c)⟩
        (by
          intro j t hj ht
          obtain ⟨t2, e, hI3, hd, hkeep⟩ := hstep t i j hi hj ht.1
          refine ⟨t2, e, hI3, fun r c hr hc => hkeep r c (ht.2.1 r c hr hc), ?_⟩
          intro c hc
          by_cases hcj : c = j
          · rw [hcj]; exact hd
          · exact hkeep i c (ht.2.2 c (by omega)))
      refine ⟨s2, e2, hI2, ?_⟩
      intro r c hr hc
      by_cases hri : r = i
      · rw [hri]; exact hrow c hc
      · exact hD2 r c (by omega) hc)
  exact ⟨s1, e1, hI, hD⟩

/-- The three assignments at a cell inside the three matrices succeed, keep
the shapes and change the one cell. -/
theorem MatCI.assignCell_spec (ci : MatCI α) (i j : Nat) (lo mid hi : α)
    (h1 : i < ci.CI_025.n_rows ∧ j < ci.CI_025.n_cols)
    (h2 : i < ci.CI_50.n_rows ∧ j < ci.CI_50.n_cols)
    (h3 : i < ci.CI_975.n_rows ∧ j < ci.CI_975.n_cols) :
    ∃ ci2, ci.assignCell i j lo mid hi = some ci2 ∧
      (ci2.CI_975.n_rows = ci.CI_975.n_rows ∧ ci2.CI_975.n_cols = ci.CI_975.n_cols) ∧
      (ci2.CI_50.n_rows = ci.CI_50.n_rows ∧ ci2.CI_50.n_cols = ci.CI_50.n_cols) ∧
      (ci2.CI_025.n_rows = ci.CI_025.n_rows ∧ ci2.CI_025.n_cols = ci.CI_025.n_cols) ∧
      (ci2.CI_025.mem i j = lo ∧ ci2.CI_50.mem i j = mid ∧ ci2.CI_975.mem i j = hi) ∧
      ∀ r c, ¬ (r = i ∧ c = j) →
        ci2.CI_025.mem r c = ci.CI_025.mem r c ∧ ci2.CI_50.mem r c = ci.CI_50.mem r c ∧
        ci2.CI_975.mem r c = ci.CI_975.mem r c := by
  obtain ⟨m1, e1, r1, k1, v1, o1⟩ := Mat.write_spec ci.CI_025 i j lo h1.1 h1.2
  obtain ⟨m2, e2, r2, k2, v2, o2⟩ := Mat.write_spec ci.CI_50 i j mid h2.1 h2.2
  obtain ⟨m3, e3, r3, k3, v3, o3⟩ := Mat.write_spec ci.CI_975 i j hi h3.1 h3.2
  refine ⟨{ CI_975 := m3, CI_50 := m2, CI_025 := m1 }, ?_, ⟨r3, k3⟩, ⟨r2, k2⟩, ⟨r1, k1⟩,
    ⟨v1, v2, v3⟩, fun r c h => ⟨o1 r c h, o2 r c h, o3 r c h⟩⟩
  unfold MatCI.assignCell
  simp only [e1, e2, e3, Option.some_bind]

end ListLemmas

section CredibleIntervalTheorems

variable {α : Type} [LinearOrderedField α] [FloorRing α]

/-- The pointwise band: entry `i` of each vector is a quantile of column `i`. -/
theorem GetMeanCI_PW_band_eq (f_samp : Mat α) :
    GetMeanCI_PW_band f_samp =
      { CI_975 := (List.range f_samp.n_cols).map (fun i => quantile (f_samp.col i) 0.975),
        CI_50 := (List.range f_samp.n_cols).map (fun i => quantile (f_samp.col i) 0.5),
        CI_025 := (List.range f_samp.n_cols).map (fun i => quantile (f_samp.col i) 0.025) } := by
  unfold GetMeanCI_PW_band
  simp only []
  rw [foldl_CI_set]
  simp only [← fillVec_eq_map]
  rfl

/-- The interpolated value at position `t` between 1 and the number of
entries: it lies between the entries below and above `t`. -/
theorem interp_bounds (Y : List α) (hs : Y.Sorted (fun a b => a ≤ b)) (t : α)
    (h1 : 1 ≤ t) (hn : t ≤ (Y.length : α)) :
    1 ≤ Nat.floor t ∧ Nat.floor t ≤ Y.length ∧
    Y.getD (Nat.floor t - 1) 0 ≤
      (1 - (t - (Nat.floor t : α))) * Y.getD (Nat.floor t - 1) 0
        + (t - (Nat.floor t : α)) * Y.getD (Nat.floor t) 0 ∧
    (1 - (t - (Nat.floor t : α))) * Y.getD (Nat.floor t - 1) 0
        + (t - (Nat.floor t : α)) * Y.getD (Nat.floor t) 0 ≤ Y.getD (Y.length - 1) 0 ∧
    (Nat.floor t < Y.length →
      (1 - (t - (Nat.floor t : α))) * Y.getD (Nat.floor t - 1) 0
        + (t - (Nat.floor t : α)) * Y.getD (Nat.floor t) 0 ≤ Y.getD (Nat.floor t) 0) := by
  have ht0 : (0 : α) ≤ t := le_trans zero_le_one h1
  have hj1 : 1 ≤ Nat.floor t := Nat.le_floor (by simpa using h1)
  have hfl : (Nat.floor t : α) ≤ t := Nat.floor_le ht0
  have hjn : Nat.floor t ≤ Y.length := by
    have : (Nat.floor t : α) ≤ (Y.length : α) := le_trans hfl hn
    exact_mod_cast this
  have hg0 : 0 ≤ t - (Nat.floor t : α) := sub_nonneg.mpr hfl
  have hg1 : t - (Nat.floor t : α) < 1 := by
    have := Nat.lt_floor_add_one t
    linarith
  refine ⟨hj1, hjn, ?_⟩
  rcases Nat.lt_or_ge (Nat.floor t) Y.length with hlt | hge
  · have hstep : Y.getD (Nat.floor t - 1) 0 ≤ Y.getD (Nat.floor t) 0 :=
      sorted_getD_mono Y hs _ _ (by omega) hlt
    have htop : Y.getD (Nat.floor t) 0 ≤ Y.getD (Y.length - 1) 0 :=
      sorted_getD_mono Y hs _ _ (by omega) (by omega)
    have hupper : (1 - (t - (Nat.floor t : α))) * Y.getD (Nat.floor t - 1) 0
        + (t - (Nat.floor t : α)) * Y.getD (Nat.floor t) 0 ≤ Y.getD (Nat.floor t) 0 := by
      nlinarith [mul_nonneg (sub_nonneg.mpr hg1.le) (sub_nonneg.mpr hstep)]
    refine ⟨?_, le_trans hupper htop, fun _ => hupper⟩
    nlinarith [mul_nonneg hg0 (sub_nonneg.mpr hstep)]
  · have hjeq : Nat.floor t = Y.length := le_antisymm hjn hge
    have hteq : t = (Y.length : α) := by
      apply le_antisymm hn
      rw [← hjeq]; exact hfl
    have hg : t - (Nat.floor t : α) = 0 := by rw [hjeq, hteq]; simp
    rw [hg, hjeq]
    simp

/-- The interpolated value does not decrease with the position. -/
theorem interp_mono (Y : List α) (hs : Y.Sorted (fun a b => a ≤ b)) (t u : α)
    (h1 : 1 ≤ t) (htu : t ≤ u) (hn : u ≤ (Y.length : α)) :
    (1 - (t - (Nat.floor t : α))) * Y.getD (Nat.floor t - 1) 0
        + (t - (Nat.floor t : α)) * Y.getD (Nat.floor t) 0 ≤
    (1 - (u - (Nat.floor u : α))) * Y.getD (Nat.floor u - 1) 0
        + (u - (Nat.floor u : α)) * Y.getD (Nat.floor u) 0 := by
  obtain ⟨tj1, tjn, tlow, ttop, tup⟩ := interp_bounds Y hs t h1 (le_trans htu hn)
  obtain ⟨uj1, ujn, ulow, utop, uup⟩ := interp_bounds Y hs u (le_trans h1 htu) hn
  have hjle : Nat.floor t ≤ Nat.floor u := Nat.floor_mono htu
  rcases Nat.lt_or_ge (Nat.floor t) (Nat.floor u) with hlt | hge
  · have hmid : Y.getD (Nat.floor t) 0 ≤ Y.getD (Nat.floor u - 1) 0 :=
      sorted_getD_mono Y hs _ _ (by omega) (by omega)
    exact le_trans (tup (by omega)) (le_trans hmid ulow)
  · have hjeq : Nat.floor u = Nat.floor t := le_antisymm hge hjle
    rw [hjeq]
    rcases Nat.lt_or_ge (Nat.floor t) Y.length with hlt | hge2
    · have hstep : Y.getD (Nat.floor t - 1) 0 ≤ Y.getD (Nat.floor t) 0 :=
        sorted_getD_mono Y hs _ _ (by omega) hlt
      nlinarith [mul_nonneg (sub_nonneg.mpr htu) (sub_nonneg.mpr hstep)]
    · have hjt : Nat.floor t = Y.length := le_antisymm tjn hge2
      have hfu : (Nat.floor u : α) ≤ u := Nat.floor_le (le_trans zero_le_one (le_trans h1 htu))
      have hft : (Nat.floor t : α) ≤ t := Nat.floor_le (le_trans zero_le_one h1)
      rw [hjeq] at hfu
      rw [hjt] at hfu hft
      have e1 : t = (Y.length : α) := le_antisymm (le_trans htu hn) hft
      have e2 : u = (Y.length : α) := le_antisymm hn hfu
      rw [e1, e2]

/-- A quantile of a non-empty vector lies between its smallest and its
largest entry in ascending order. -/
theorem quantile_between (X : List α) (hX : X ≠ []) (p : α) :
    (X.insertionSort (fun a b => a ≤ b)).getD 0 0 ≤ quantile X p ∧
    quantile X p ≤ (X.insertionSort (fun a b => a ≤ b)).getD (X.length - 1) 0 := by
  have hs := List.sorted_insertionSort (fun a b : α => a ≤ b) X
  have hlen := List.length_insertionSort (fun a b : α => a ≤ b) X
  have hpos : 0 < X.length := List.length_pos.mpr hX
  have hN : (0 : α) < (X.length : α) := by exact_mod_cast hpos
  have hends : (X.insertionSort (fun a b => a ≤ b)).getD 0 0 ≤
      (X.insertionSort (fun a b => a ≤ b)).getD (X.length - 1) 0 :=
    sorted_getD_mono _ hs _ _ (by omega) (by omega)
  unfold quantile
  simp only []
  split_ifs with h1 h2
  · exact ⟨le_refl _, hends⟩
  · exact ⟨hends, le_refl _⟩
  · obtain ⟨t1, tn⟩ := quantile_position _ p hN h1 h2
    have tn2 : (X.length : α) * p + 1 / 2 ≤
        ((X.insertionSort (fun a b => a ≤ b)).length : α) := by rw [hlen]; exact tn
    obtain ⟨j1, jn, low, top, _⟩ := interp_bounds _ hs _ t1 tn2
    rw [hlen] at top jn
    refine ⟨le_trans ?_ low, top⟩
    exact sorted_getD_mono _ hs _ _ (by omega) (by omega)

/-- The quantile of a non-empty vector does not decrease with the
probability. -/
theorem quantile_mono (X : List α) (hX : X ≠ []) (p q : α) (hpq : p ≤ q) :
    quantile X p ≤ quantile X q := by
  have hs := List.sorted_insertionSort (fun a b : α => a ≤ b) X
  have hlen := List.length_insertionSort (fun a b : α => a ≤ b) X
  have hpos : 0 < X.length := List.length_pos.mpr hX
  have hN : (0 : α) < (X.length : α) := by exact_mod_cast hpos
  by_cases hp1 : p < (1 - 1 / 2) / (X.length : α)
  · have e : quantile X p = (X.insertionSort (fun a b => a ≤ b)).getD 0 0 := by
      unfold quantile; simp only []; rw [if_pos hp1]
    rw [e]; exact (quantile_between X hX q).1
  · by_cases hq2 : q > ((X.length : α) - 1 / 2) / (X.length : α)
    · have hq1 : ¬ q < (1 - 1 / 2) / (X.length : α) := fun h => hp1 (lt_of_le_of_lt hpq h)
      have e : quantile X q = (X.insertionSort (fun a b => a ≤ b)).getD (X.length - 1) 0 := by
        unfold quantile; simp only []; rw [if_neg hq1, if_pos hq2]
      rw [e]; exact (quantile_between X hX p).2
    · have hq1 : ¬ q < (1 - 1 / 2) / (X.length : α) := fun h => hp1 (lt_of_le_of_lt hpq h)
      have hp2 : ¬ p > ((X.length : α) - 1 / 2) / (X.length : α) :=
        fun h => hq2 (lt_of_lt_of_le h hpq)
      obtain ⟨t1, _⟩ := quantile_position _ p hN hp1 hp2
      obtain ⟨_, un⟩ := quantile_position _ q hN hq1 hq2
      have htu : (X.length : α) * p + 1 / 2 ≤ (X.length : α) * q + 1 / 2 := by
        have := mul_le_mul_of_nonneg_left hpq hN.le
        linarith
      have un2 : (X.length : α) * q + 1 / 2 ≤
          ((X.insertionSort (fun a b => a ≤ b)).length : α) := by rw [hlen]; exact un
      have key := interp_mono _ hs _ _ t1 htu un2
      unfold quantile
      simp only []
      rw [if_neg hp1, if_neg hp2, if_neg hq1, if_neg hq2]
      exact key

/-- A quantile of a non-empty vector lies within any bounds of its entries. -/
theorem quantile_mem_Icc (X : List α) (hX : X ≠ []) (a b : α)
    (hab : ∀ x ∈ X, a ≤ x ∧ x ≤ b) (p : α) : a ≤ quantile X p ∧ quantile X p ≤ b := by
  have hlen := List.length_insertionSort (fun a b : α => a ≤ b) X
  have hpos : 0 < X.length := List.length_pos.mpr hX
  have hmem : ∀ i, i < X.length →
      (X.insertionSort (fun a b => a ≤ b)).getD i 0 ∈ X := by
    intro i hi
    rw [List.getD_eq_getElem _ _ (by omega)]
    exact (List.perm_insertionSort (fun a b : α => a ≤ b) X).subset (List.getElem_mem _)
  obtain ⟨h1, h2⟩ := quantile_between X hX p
  exact ⟨le_trans (hab _ (hmem 0 hpos)).1 h1, le_trans h2 (hab _ (hmem _ (by omega))).2⟩

/-- The simultaneous band in closed form. -/
theorem GetMeanCI_S_band_eq (L : Libm α) (f_samp : Mat α) :
    GetMeanCI_S_band L f_samp =
      { CI_975 := (List.range f_samp.n_cols).map (fun g => mean (f_samp.col g) +
          quantile ((List.range f_samp.n_rows).map (fun s =>
            vecMax ((List.range f_samp.n_cols).map (fun j =>
              |(f_samp.mem s j - mean (f_samp.col j)) / stddev L (f_samp.col j)|)))) 0.95
            * stddev L (f_samp.col g)),
        CI_50 := (List.range f_samp.n_cols).map (fun g => mean (f_samp.col g)),
        CI_025 := (List.range f_samp.n_cols).map (fun g => mean (f_samp.col g) -
          quantile ((List.range f_samp.n_rows).map (fun s =>
            vecMax ((List.range f_samp.n_cols).map (fun j =>
              |(f_samp.mem s j - mean (f_samp.col j)) / stddev L (f_samp.col j)|)))) 0.95
            * stddev L (f_samp.col g)) } := by
  unfold GetMeanCI_S_band
  simp only []
  rw [foldl_CI_set]
  simp only [← fillVec_eq_map]
  rfl

/-- The simultaneous band for at least two draws, in terms of the column
means and standard deviations. -/
theorem GetMeanCI_S_band_colwise (L : Libm α) (f_samp : Mat α) (hS : 2 ≤ f_samp.n_rows) :
    GetMeanCI_S_band L f_samp =
      { CI_975 := (List.range f_samp.n_cols).map (fun g => colMean f_samp g +
          quantile ((List.range f_samp.n_rows).map (fun s =>
            vecMax ((List.range f_samp.n_cols).map (fun j =>
              |(f_samp.mem s j - colMean f_samp j) / colSd L f_samp j|)))) 0.95
            * colSd L f_samp g),
        CI_50 := (List.range f_samp.n_cols).map (fun g => colMean f_samp g),
        CI_025 := (List.range f_samp.n_cols).map (fun g => colMean f_samp g -
          quantile ((List.range f_samp.n_rows).map (fun s =>
            vecMax ((List.range f_samp.n_cols).map (fun j =>
              |(f_samp.mem s j - colMean f_samp j) / colSd L f_samp j|)))) 0.95
            * colSd L f_samp g) } := by
  rw [GetMeanCI_S_band_eq]
  simp only [mean_col, stddev_col L f_samp hS]

/-- C8: for `S >= 2` draws over `G >= 1` grid points with positive standard
deviations, `GetMeanCI_S` returns `CI_025(g) = mean(g) - c * sd(g)`,
`CI_50(g) = mean(g)` and `CI_975(g) = mean(g) + c * sd(g)`, where `mean` and
`sd` are the mean and the standard deviation (normalised by `S - 1`) across
the draws, `c` is the 0.95 quantile of the statistics `d_s`, and `d_s` is the
greatest of `|f_samp(s,g) - mean(g)| / sd(g)` over the grid points `g`. -/
theorem GetMeanCI_S_band_spec (L : Libm α) (f_samp : Mat α) (hS : 2 ≤ f_samp.n_rows)
    (hG : 1 ≤ f_samp.n_cols) (hsd : ∀ g, g < f_samp.n_cols → 0 < colSd L f_samp g) :
    ∃ (d : Nat → α) (c : α),
      (∀ s, s < f_samp.n_rows → IsGreatest (studentized L f_samp s) (d s)) ∧
      c = quantile ((List.range f_samp.n_rows).map d) 0.95 ∧
      (GetMeanCI_S_band L f_samp).CI_025 =
        (List.range f_samp.n_cols).map (fun g => colMean f_samp g - c * colSd L f_samp g) ∧
      (GetMeanCI_S_band L f_samp).CI_50 =
        (List.range f_samp.n_cols).map (fun g => colMean f_samp g) ∧
      (GetMeanCI_S_band L f_samp).CI_975 =
        (List.range f_samp.n_cols).map (fun g => colMean f_samp g + c * colSd L f_samp g) := by
  have hd := vecMax_studentized L f_samp hG hsd
  have hband := GetMeanCI_S_band_colwise L f_samp hS
  refine ⟨fun s => vecMax ((List.range f_samp.n_cols).map (fun j =>
      |(f_samp.mem s j - colMean f_samp j) / colSd L f_samp j|)),
    quantile ((List.range f_samp.n_rows).map (fun s =>
      vecMax ((List.range f_samp.n_cols).map (fun j =>
        |(f_samp.mem s j - colMean f_samp j) / colSd L f_samp j|)))) 0.95,
    fun s _ => hd s, rfl, ?_, ?_, ?_⟩
  · rw [hband]
  · rw [hband]
  · rw [hband]

/-- C10: for a non-empty sample and every grid point `i`, the three values
returned by `GetMeanCI_PW` are the 0.025, 0.5 and 0.975 quantiles of the draws
of the curve value at `i`, and `CI_025(i) <= CI_50(i) <= CI_975(i)`. -/
theorem GetMeanCI_PW_band_ordered (f_samp : Mat α) (hS : 0 < f_samp.n_rows) (i : Nat)
    (hi : i < f_samp.n_cols) :
    (GetMeanCI_PW_band f_samp).CI_025.getD i 0 = quantile (f_samp.col i) 0.025 ∧
    (GetMeanCI_PW_band f_samp).CI_50.getD i 0 = quantile (f_samp.col i) 0.5 ∧
    (GetMeanCI_PW_band f_samp).CI_975.getD i 0 = quantile (f_samp.col i) 0.975 ∧
    (GetMeanCI_PW_band f_samp).CI_025.getD i 0 ≤ (GetMeanCI_PW_band f_samp).CI_50.getD i 0 ∧
    (GetMeanCI_PW_band f_samp).CI_50.getD i 0 ≤ (GetMeanCI_PW_band f_samp).CI_975.getD i 0 := by
  have hne : f_samp.col i ≠ [] := by
    intro h
    have := congrArg List.length h
    simp [Mat.col] at this
    omega
  have e0 : (GetMeanCI_PW_band f_samp).CI_025.getD i 0 = quantile (f_samp.col i) 0.025 := by
    rw [GetMeanCI_PW_band_eq]
    simp [List.getD_eq_getElem, hi]
  have e1 : (GetMeanCI_PW_band f_samp).CI_50.getD i 0 = quantile (f_samp.col i) 0.5 := by
    rw [GetMeanCI_PW_band_eq]
    simp [List.getD_eq_getElem, hi]
  have e2 : (GetMeanCI_PW_band f_samp).CI_975.getD i 0 = quantile (f_samp.col i) 0.975 := by
    rw [GetMeanCI_PW_band_eq]
    simp [List.getD_eq_getElem, hi]
  refine ⟨e0, e1, e2, ?_, ?_⟩
  · rw [e0, e1]; exact quantile_mono _ hne _ _ (by norm_num)
  · rw [e1, e2]; exact quantile_mono _ hne _ _ (by norm_num)

/-- The middle branch of `quantile` on entries given in ascending order. -/
theorem quantile_of_sorted (Y : List α) (hs : Y.Sorted (fun a b => a ≤ b)) (p : α) (j : Nat)
    (h1 : (1 - 1 / 2) / (Y.length : α) ≤ p) (h2 : p ≤ ((Y.length : α) - 1 / 2) / (Y.length : α))
    (hj : (j : α) ≤ (Y.length : α) * p + 1 / 2) (hj2 : (Y.length : α) * p + 1 / 2 < (j : α) + 1) :
    quantile Y p = (1 - ((Y.length : α) * p + 1 / 2 - (j : α))) * Y.getD (j - 1) 0
      + ((Y.length : α) * p + 1 / 2 - (j : α)) * Y.getD j 0 := by
  have hfl : Nat.floor ((Y.length : α) * p + 1 / 2) = j :=
    (Nat.floor_eq_iff (le_trans (Nat.cast_nonneg j) hj)).mpr ⟨hj, hj2⟩
  unfold quantile
  simp only []
  rw [hs.insertionSort_eq, if_neg (not_lt.mpr h1), if_neg (not_lt.mpr h2), hfl]

/-- The upper branch of `quantile` on entries given in ascending order. -/
theorem quantile_of_sorted_top (Y : List α) (hs : Y.Sorted (fun a b => a ≤ b)) (p : α)
    (h1 : (1 - 1 / 2) / (Y.length : α) ≤ p) (h2 : ((Y.length : α) - 1 / 2) / (Y.length : α) < p) :
    quantile Y p = Y.getD (Y.length - 1) 0 := by
  unfold quantile
  simp only []
  rw [hs.insertionSort_eq, if_neg (not_lt.mpr h1), if_pos h2]

/-- Where every draw lies inside the simultaneous band, the pointwise band is
not wider than the simultaneous band. -/
theorem pointwise_width_le (L : Libm α) (f_samp : Mat α) (hS : 0 < f_samp.n_rows) (g : Nat)
    (hg : g < f_samp.n_cols)
    (hin : ∀ s, s < f_samp.n_rows →
      (GetMeanCI_S_band L f_samp).CI_025.getD g 0 ≤ f_samp.mem s g ∧
      f_samp.mem s g ≤ (GetMeanCI_S_band L f_samp).CI_975.getD g 0) :
    (GetMeanCI_PW_band f_samp).CI_975.getD g 0 - (GetMeanCI_PW_band f_samp).CI_025.getD g 0 ≤
      (GetMeanCI_S_band L f_samp).CI_975.getD g 0 -
        (GetMeanCI_S_band L f_samp).CI_025.getD g 0 := by
  have hne : f_samp.col g ≠ [] := by
    intro h
    have := congrArg List.length h
    simp [Mat.col] at this
    omega
  have hmem : ∀ x ∈ f_samp.col g,
      (GetMeanCI_S_band L f_samp).CI_025.getD g 0 ≤ x ∧
      x ≤ (GetMeanCI_S_band L f_samp).CI_975.getD g 0 := by
    intro x hx
    obtain ⟨s, hs, rfl⟩ := List.mem_map.mp hx
    exact hin s (List.mem_range.mp hs)
  have e0 : (GetMeanCI_PW_band f_samp).CI_025.getD g 0 = quantile (f_samp.col g) 0.025 := by
    rw [GetMeanCI_PW_band_eq]
    simp [List.getD_eq_getElem, hg]
  have e2 : (GetMeanCI_PW_band f_samp).CI_975.getD g 0 = quantile (f_samp.col g) 0.975 := by
    rw [GetMeanCI_PW_band_eq]
    simp [List.getD_eq_getElem, hg]
  rw [e0, e2]
  have b0 := (quantile_mem_Icc _ hne _ _ hmem 0.025).1
  have b2 := (quantile_mem_Icc _ hne _ _ hmem 0.975).2
  linarith


/-- The middle branch of `quantile`. -/
theorem quantile_mid (X : List α) (p : α) (j : Nat)
    (h1 : (1 - 1 / 2) / (X.length : α) ≤ p) (h2 : p ≤ ((X.length : α) - 1 / 2) / (X.length : α))
    (hj : (j : α) ≤ (X.length : α) * p + 1 / 2) (hj2 : (X.length : α) * p + 1 / 2 < (j : α) + 1) :
    quantile X p =
      (1 - ((X.length : α) * p + 1 / 2 - (j : α))) *
          (X.insertionSort (fun a b => a ≤ b)).getD (j - 1) 0
        + ((X.length : α) * p + 1 / 2 - (j : α)) *
          (X.insertionSort (fun a b => a ≤ b)).getD j 0 := by
  have hfl : Nat.floor ((X.length : α) * p + 1 / 2) = j :=
    (Nat.floor_eq_iff (le_trans (Nat.cast_nonneg j) hj)).mpr ⟨hj, hj2⟩
  unfold quantile
  simp only []
  rw [if_neg (not_lt.mpr h1), if_neg (not_lt.mpr h2), hfl]

/-- For 2 to 20 entries the 0.95 quantile is at least the mean of the two
largest entries. -/
theorem quantile_ge_top_two (X : List α) (h2 : 2 ≤ X.length) (h20 : X.length ≤ 20) :
    ((X.insertionSort (fun a b => a ≤ b)).getD (X.length - 2) 0
      + (X.insertionSort (fun a b => a ≤ b)).getD (X.length - 1) 0) / 2 ≤ quantile X 0.95 := by
  have hX : X ≠ [] := by
    intro h; rw [h] at h2; simp at h2
  have hN2 : (2 : α) ≤ (X.length : α) := by exact_mod_cast h2
  have hN20 : (X.length : α) ≤ 20 := by exact_mod_cast h20
  have hNpos : (0 : α) < (X.length : α) := by linarith
  have hcast : ((X.length - 1 : Nat) : α) = (X.length : α) - 1 := by
    rw [Nat.cast_sub (by omega)]; simp
  have hmul : (X.length : α) * (((X.length : α) - 1) / (X.length : α)) = (X.length : α) - 1 := by
    field_simp
  have hp0 : ((X.length : α) - 1) / (X.length : α) ≤ 0.95 := by
    rw [div_le_iff₀ hNpos]
    norm_num
    linarith
  have hq := quantile_mid X (((X.length : α) - 1) / (X.length : α)) (X.length - 1)
    (by rw [div_le_div_iff_of_pos_right hNpos]; linarith)
    (by rw [div_le_div_iff_of_pos_right hNpos]; linarith)
    (by rw [hcast, hmul]; linarith) (by rw [hcast, hmul]; linarith)
  rw [hcast, hmul] at hq
  have hidx : X.length - 1 - 1 = X.length - 2 := by omega
  rw [hidx] at hq
  have hmono := quantile_mono X hX _ _ hp0
  rw [hq] at hmono
  linarith


/-- For 2 to 20 draws with positive standard deviations the pointwise band is
not wider than the simultaneous band. -/
theorem pointwise_width_le_of_le_twenty (L : Libm α) (f_samp : Mat α) (hS : 2 ≤ f_samp.n_rows)
    (h20 : f_samp.n_rows ≤ 20) (hsd : ∀ g, g < f_samp.n_cols → 0 < colSd L f_samp g)
    (g : Nat) (hg : g < f_samp.n_cols) :
    (GetMeanCI_PW_band f_samp).CI_975.getD g 0 - (GetMeanCI_PW_band f_samp).CI_025.getD g 0 ≤
      (GetMeanCI_S_band L f_samp).CI_975.getD g 0 -
        (GetMeanCI_S_band L f_samp).CI_025.getD g 0 := by
  have hne : f_samp.col g ≠ [] := by
    intro h
    have := congrArg List.length h
    simp [Mat.col] at this
    omega
  have e0 : (GetMeanCI_PW_band f_samp).CI_025.getD g 0 = quantile (f_samp.col g) 0.025 := by
    rw [GetMeanCI_PW_band_eq]
    simp [List.getD_eq_getElem, hg]
  have e2 : (GetMeanCI_PW_band f_samp).CI_975.getD g 0 = quantile (f_samp.col g) 0.975 := by
    rw [GetMeanCI_PW_band_eq]
    simp [List.getD_eq_getElem, hg]
  -- the simultaneous band at `g`
  obtain ⟨d, c, hd, hc, h025, h975⟩ : ∃ (d : Nat → α) (c : α),
      (∀ s, s < f_samp.n_rows → IsGreatest (studentized L f_samp s) (d s)) ∧
      c = quantile ((List.range f_samp.n_rows).map d) 0.95 ∧
      (GetMeanCI_S_band L f_samp).CI_025 =
        (List.range f_samp.n_cols).map (fun g => colMean f_samp g - c * colSd L f_samp g) ∧
      (GetMeanCI_S_band L f_samp).CI_975 =
        (List.range f_samp.n_cols).map (fun g => colMean f_samp g + c * colSd L f_samp g) :=
    ⟨_, _, fun s _ => vecMax_studentized L f_samp (by omega) hsd s, rfl,
      by rw [GetMeanCI_S_band_colwise L f_samp hS],
      by rw [GetMeanCI_S_band_colwise L f_samp hS]⟩
  have sb0 : (GetMeanCI_S_band L f_samp).CI_025.getD g 0 =
      colMean f_samp g - c * colSd L f_samp g := by
    rw [h025]; simp [List.getD_eq_getElem, hg]
  have sb2 : (GetMeanCI_S_band L f_samp).CI_975.getD g 0 =
      colMean f_samp g + c * colSd L f_samp g := by
    rw [h975]; simp [List.getD_eq_getElem, hg]
  have hsdg := hsd g hg
  have hdlen : ((List.range f_samp.n_rows).map d).length = f_samp.n_rows := by simp
  have hdget : ∀ s, s < f_samp.n_rows → ((List.range f_samp.n_rows).map d).getD s 0 = d s := by
    intro s hs
    simp [List.getD_eq_getElem, hs]
  have hdge : ∀ s, s < f_samp.n_rows →
      |f_samp.mem s g - colMean f_samp g| / colSd L f_samp g ≤ d s :=
    fun s hs => (hd s hs).2 ⟨g, hg, rfl⟩
  have hdne : (List.range f_samp.n_rows).map d ≠ [] := by
    intro h
    have := congrArg List.length h
    simp at this
    omega
  have hc0 : 0 ≤ c := by
    rw [hc]
    refine (quantile_mem_Icc _ hdne 0 (vecMax ((List.range f_samp.n_rows).map d)) ?_ 0.95).1
    intro x hx
    refine ⟨?_, (vecMax_isGreatest _ hdne).2 x hx⟩
    obtain ⟨s, hs, rfl⟩ := List.mem_map.mp hx
    exact le_trans (div_nonneg (abs_nonneg _) hsdg.le) (hdge s (List.mem_range.mp hs))
  have htop := quantile_ge_top_two ((List.range f_samp.n_rows).map d)
    (by rw [hdlen]; exact hS) (by rw [hdlen]; exact h20)
  rw [← hc, hdlen] at htop
  -- the extreme draws at `g`
  have hnonempty : (Finset.range f_samp.n_rows).Nonempty := ⟨0, Finset.mem_range.mpr (by omega)⟩
  obtain ⟨s1, hs1, hmax⟩ := Finset.exists_max_image (Finset.range f_samp.n_rows)
    (fun s => f_samp.mem s g) hnonempty
  obtain ⟨s2, hs2, hmin⟩ := Finset.exists_min_image (Finset.range f_samp.n_rows)
    (fun s => f_samp.mem s g) hnonempty
  have hs1 := Finset.mem_range.mp hs1
  have hs2 := Finset.mem_range.mp hs2
  have hmem : ∀ x ∈ f_samp.col g, f_samp.mem s2 g ≤ x ∧ x ≤ f_samp.mem s1 g := by
    intro x hx
    obtain ⟨s, hs, rfl⟩ := List.mem_map.mp hx
    exact ⟨hmin s (Finset.mem_range.mpr (List.mem_range.mp hs)),
      hmax s (Finset.mem_range.mpr (List.mem_range.mp hs))⟩
  have b0 := (quantile_mem_Icc _ hne _ _ hmem 0.025).1
  have b2 := (quantile_mem_Icc _ hne _ _ hmem 0.975).2
  rw [e0, e2, sb0, sb2]
  have hgoal : f_samp.mem s1 g - f_samp.mem s2 g ≤ 2 * (c * colSd L f_samp g) := by
    have ha : (f_samp.mem s1 g - colMean f_samp g) / colSd L f_samp g ≤ d s1 :=
      le_trans (div_le_div_of_nonneg_right (le_abs_self _) hsdg.le) (hdge s1 hs1)
    have hb : (colMean f_samp g - f_samp.mem s2 g) / colSd L f_samp g ≤ d s2 :=
      le_trans (div_le_div_of_nonneg_right (by rw [← neg_sub]; exact neg_le_abs _) hsdg.le)
        (hdge s2 hs2)
    rcases Nat.lt_trichotomy s1 s2 with hlt | heq | hgt
    · have h := sorted_top_two _ s1 s2 hlt (by rw [hdlen]; exact hs2)
        ((f_samp.mem s1 g - colMean f_samp g) / colSd L f_samp g)
        ((colMean f_samp g - f_samp.mem s2 g) / colSd L f_samp g)
        (by rw [hdget s1 hs1]; exact ha) (by rw [hdget s2 hs2]; exact hb)
      rw [hdlen] at h
      have hsum : (f_samp.mem s1 g - colMean f_samp g) / colSd L f_samp g +
          (colMean f_samp g - f_samp.mem s2 g) / colSd L f_samp g ≤ 2 * c := by linarith
      rw [← add_div, div_le_iff₀ hsdg] at hsum
      linarith
    · rw [heq]
      have := mul_nonneg hc0 hsdg.le
      linarith
    · have h := sorted_top_two _ s2 s1 hgt (by rw [hdlen]; exact hs1)
        ((colMean f_samp g - f_samp.mem s2 g) / colSd L f_samp g)
        ((f_samp.mem s1 g - colMean f_samp g) / colSd L f_samp g)
        (by rw [hdget s2 hs2]; exact hb) (by rw [hdget s1 hs1]; exact ha)
      rw [hdlen] at h
      have hsum : (f_samp.mem s1 g - colMean f_samp g) / colSd L f_samp g +
          (colMean f_samp g - f_samp.mem s2 g) / colSd L f_samp g ≤ 2 * c := by linarith
      rw [← add_div, div_le_iff₀ hsdg] at hsum
      linarith
  linarith

/-- C9 as amended: for `S >= 2` draws with positive standard deviations and
every grid point `g`, when there are at most 20 draws, or when every draw
lies inside the simultaneous band of `GetMeanCI_S` at `g`, that band is at
least as wide at `g` as the pointwise band of `GetMeanCI_PW` computed from the
same draws. -/
theorem simultaneous_width_ge_pointwise (L : Libm α) (f_samp : Mat α)
    (hS : 2 ≤ f_samp.n_rows) (hsd : ∀ g, g < f_samp.n_cols → 0 < colSd L f_samp g)
    (g : Nat) (hg : g < f_samp.n_cols)
    (hcase : f_samp.n_rows ≤ 20 ∨ ∀ s, s < f_samp.n_rows →
      (GetMeanCI_S_band L f_samp).CI_025.getD g 0 ≤ f_samp.mem s g ∧
      f_samp.mem s g ≤ (GetMeanCI_S_band L f_samp).CI_975.getD g 0) :
    (GetMeanCI_S_band L f_samp).CI_975.getD g 0 - (GetMeanCI_S_band L f_samp).CI_025.getD g 0 ≥
      (GetMeanCI_PW_band f_samp).CI_975.getD g 0 -
        (GetMeanCI_PW_band f_samp).CI_025.getD g 0 := by
  rcases hcase with h20 | hin
  · exact pointwise_width_le_of_le_twenty L f_samp hS h20 hsd g hg
  · exact pointwise_width_le L f_samp (by omega) g hg hin

end CredibleIntervalTheorems

section CredibleIntervalExamples

theorem exDraws21_col : (exDraws21 : Mat ℝ).col 0 = List.replicate 20 0 ++ [21] := by
  simp [Mat.col, exDraws21, List.range_succ, List.replicate]

theorem exDraws21_colMean : colMean (exDraws21 : Mat ℝ) 0 = 1 := by
  simp [colMean, exDraws21, Finset.sum_range_succ]

theorem exDraws21_colSd :
    colSd (Libm.mk Real.sqrt Real.log Real.exp Real.pi) (exDraws21 : Mat ℝ) 0 = Real.sqrt 21 := by
  unfold colSd
  rw [exDraws21_colMean]
  show Real.sqrt _ = Real.sqrt 21
  congr 1
  simp [exDraws21, Finset.sum_range_succ]
  norm_num

/-- The statistics `d_s` of the twenty-one draws: twenty times `1 / sqrt 21`,
then `20 / sqrt 21`. -/
theorem exDraws21_C :
    (List.range (exDraws21 : Mat ℝ).n_rows).map (fun s =>
      vecMax ((List.range (exDraws21 : Mat ℝ).n_cols).map (fun j =>
        |((exDraws21 : Mat ℝ).mem s j - colMean exDraws21 j) /
          colSd (Libm.mk Real.sqrt Real.log Real.exp Real.pi) exDraws21 j|))) =
    List.replicate 20 (1 / Real.sqrt 21) ++ [20 / Real.sqrt 21] := by
  have hr : (0 : ℝ) < Real.sqrt 21 := Real.sqrt_pos.mpr (by norm_num)
  have e1 : |((0 : ℝ) - 1) / Real.sqrt 21| = 1 / Real.sqrt 21 := by
    rw [abs_div, abs_of_pos hr]; norm_num
  have e2 : |((21 : ℝ) - 1) / Real.sqrt 21| = 20 / Real.sqrt 21 := by
    rw [abs_div, abs_of_pos hr]; norm_num
  have hcols : (exDraws21 : Mat ℝ).n_cols = 1 := rfl
  have hrows : (exDraws21 : Mat ℝ).n_rows = 21 := rfl
  have hf : ∀ s, vecMax ((List.range (exDraws21 : Mat ℝ).n_cols).map (fun j =>
        |((exDraws21 : Mat ℝ).mem s j - colMean exDraws21 j) /
          colSd (Libm.mk Real.sqrt Real.log Real.exp Real.pi) exDraws21 j|)) =
      if s = 20 then 20 / Real.sqrt 21 else 1 / Real.sqrt 21 := by
    intro s
    rw [hcols]
    simp only [List.range_succ, List.range_zero, List.nil_append, List.map_cons, List.map_nil,
      vecMax, List.headD_cons, List.foldl_cons, List.foldl_nil, max_self, exDraws21_colMean,
      exDraws21_colSd]
    by_cases h : s = 20
    · simp only [exDraws21, h, if_true]; exact e2
    · simp only [exDraws21, h, if_false]; exact e1
  simp only [hf, hrows]
  simp [List.range_succ, List.replicate]

/-- The simultaneous band of the twenty-one draws is `1 - 191/20`, `1`,
`1 + 191/20`. -/
theorem exDraws21_S_band :
    (GetMeanCI_S_band (Libm.mk Real.sqrt Real.log Real.exp Real.pi)
      (exDraws21 : Mat ℝ)).CI_975.getD 0 0 = 1 + 191 / 20 ∧
    (GetMeanCI_S_band (Libm.mk Real.sqrt Real.log Real.exp Real.pi)
      (exDraws21 : Mat ℝ)).CI_025.getD 0 0 = 1 - 191 / 20 := by
  have hr : (0 : ℝ) < Real.sqrt 21 := Real.sqrt_pos.mpr (by norm_num)
  have hS : 2 ≤ (exDraws21 : Mat ℝ).n_rows := by show 2 ≤ 21; norm_num
  have hq : quantile (List.replicate 20 (1 / Real.sqrt 21) ++ [20 / Real.sqrt 21]) 0.95 =
      (191 / 20) / Real.sqrt 21 := by
    rw [quantile_of_sorted _ (sorted_replicate_append _ _
      (div_le_div_of_nonneg_right (by norm_num) hr.le) 20) _ 20
      (by norm_num) (by norm_num) (by norm_num) (by norm_num)]
    simp [List.replicate]
    field_simp
    ring
  rw [GetMeanCI_S_band_eq]
  simp only [mean_col, stddev_col _ _ hS, exDraws21_C, hq]
  have hcols : (exDraws21 : Mat ℝ).n_cols = 1 := rfl
  rw [hcols]
  simp only [List.range_succ, List.range_zero, List.nil_append, List.map_cons, List.map_nil,
    List.getD_cons_zero, exDraws21_colMean, exDraws21_colSd]
  constructor <;> field_simp <;> ring

/-- The pointwise band of the twenty-one draws runs from 0 to `819/40`. -/
theorem exDraws21_PW_band :
    (GetMeanCI_PW_band (exDraws21 : Mat ℝ)).CI_975.getD 0 0 = 819 / 40 ∧
    (GetMeanCI_PW_band (exDraws21 : Mat ℝ)).CI_025.getD 0 0 = 0 := by
  have hs := sorted_replicate_append (0 : ℝ) 21 (by norm_num) 20
  have q2 : quantile (List.replicate 20 (0 : ℝ) ++ [21]) 0.975 = 819 / 40 := by
    rw [quantile_of_sorted _ hs _ 20 (by norm_num) (by norm_num) (by norm_num) (by norm_num)]
    simp [List.replicate]
    norm_num
  have q0 : quantile (List.replicate 20 (0 : ℝ) ++ [21]) 0.025 = 0 := by
    rw [quantile_of_sorted _ hs _ 1 (by norm_num) (by norm_num) (by norm_num) (by norm_num)]
    simp [List.replicate]
  rw [GetMeanCI_PW_band_eq]
  have hcols : (exDraws21 : Mat ℝ).n_cols = 1 := rfl
  rw [hcols]
  simp only [List.range_succ, List.range_zero, List.nil_append, List.map_cons, List.map_nil,
    List.getD_cons_zero, exDraws21_col, q2, q0]
  exact ⟨trivial, trivial⟩

/-- C9 fails for twenty draws 0 and one draw 21 at a single grid point (mean
1, standard deviation `sqrt 21 > 0`): the simultaneous band has width
`191/10`, the pointwise band has width `819/40`, which is larger. -/
theorem simultaneous_band_narrower_at_21_draws :
    2 ≤ (exDraws21 : Mat ℝ).n_rows ∧
    (∀ g, g < (exDraws21 : Mat ℝ).n_cols →
      0 < colSd (Libm.mk Real.sqrt Real.log Real.exp Real.pi) (exDraws21 : Mat ℝ) g) ∧
    (GetMeanCI_S_band (Libm.mk Real.sqrt Real.log Real.exp Real.pi)
        (exDraws21 : Mat ℝ)).CI_975.getD 0 0 -
      (GetMeanCI_S_band (Libm.mk Real.sqrt Real.log Real.exp Real.pi)
        (exDraws21 : Mat ℝ)).CI_025.getD 0 0 = 191 / 10 ∧
    (GetMeanCI_PW_band (exDraws21 : Mat ℝ)).CI_975.getD 0 0 -
      (GetMeanCI_PW_band (exDraws21 : Mat ℝ)).CI_025.getD 0 0 = 819 / 40 ∧
    (GetMeanCI_S_band (Libm.mk Real.sqrt Real.log Real.exp Real.pi)
        (exDraws21 : Mat ℝ)).CI_975.getD 0 0 -
      (GetMeanCI_S_band (Libm.mk Real.sqrt Real.log Real.exp Real.pi)
        (exDraws21 : Mat ℝ)).CI_025.getD 0 0 <
    (GetMeanCI_PW_band (exDraws21 : Mat ℝ)).CI_975.getD 0 0 -
      (GetMeanCI_PW_band (exDraws21 : Mat ℝ)).CI_025.getD 0 0 := by
  obtain ⟨s1, s2⟩ := exDraws21_S_band
  obtain ⟨p1, p2⟩ := exDraws21_PW_band
  refine ⟨by show 2 ≤ 21; norm_num, ?_, ?_, ?_, ?_⟩
  · intro g hg
    have hg1 : g < 1 := hg
    have hg0 : g = 0 := by omega
    rw [hg0, exDraws21_colSd]
    exact Real.sqrt_pos.mpr (by norm_num)
  · rw [s1, s2]; norm_num
  · rw [p1, p2]; norm_num
  · rw [s1, s2, p1, p2]; norm_num

theorem exDraws3_colMean : colMean (exDraws3 : Mat ℝ) 0 = 8 := by
  simp [colMean, exDraws3, Mat.ofRows, Finset.sum_range_succ]
  norm_num

theorem exDraws3_colSd :
    colSd (Libm.mk Real.sqrt Real.log Real.exp Real.pi) (exDraws3 : Mat ℝ) 0 = 7 := by
  unfold colSd
  rw [exDraws3_colMean]
  have h : (∑ s in Finset.range (exDraws3 : Mat ℝ).n_rows,
      ((exDraws3 : Mat ℝ).mem s 0 - 8) ^ 2) / (((exDraws3 : Mat ℝ).n_rows : ℝ) - 1)
      = 7 ^ 2 := by
    simp [exDraws3, Mat.ofRows, Finset.sum_range_succ]
    norm_num
  show Real.sqrt _ = 7
  rw [h]
  exact Real.sqrt_sq (by norm_num)

theorem exDraws3_valid :
    2 ≤ (exDraws3 : Mat ℝ).n_rows ∧ 1 ≤ (exDraws3 : Mat ℝ).n_cols ∧
    ∀ g, g < (exDraws3 : Mat ℝ).n_cols →
      0 < colSd (Libm.mk Real.sqrt Real.log Real.exp Real.pi) (exDraws3 : Mat ℝ) g := by
  refine ⟨by show 2 ≤ 3; norm_num, by show 1 ≤ 1; norm_num, ?_⟩
  intro g hg
  have hg1 : g < 1 := hg
  have hg0 : g = 0 := by omega
  rw [hg0, exDraws3_colSd]
  norm_num

/-- The simultaneous band of the draws 11, 13 and 0 (mean 8, standard
deviation 7): the statistics `d_s` are `3/7`, `5/7` and `8/7`, their 0.95
quantile is `c = 8/7`, and the band is `8 - 8`, `8`, `8 + 8`. -/
theorem exDraws3_S_band :
    (GetMeanCI_S_band (Libm.mk Real.sqrt Real.log Real.exp Real.pi)
      (exDraws3 : Mat ℝ)).CI_975 = [16] ∧
    (GetMeanCI_S_band (Libm.mk Real.sqrt Real.log Real.exp Real.pi)
      (exDraws3 : Mat ℝ)).CI_50 = [8] ∧
    (GetMeanCI_S_band (Libm.mk Real.sqrt Real.log Real.exp Real.pi)
      (exDraws3 : Mat ℝ)).CI_025 = [0] := by
  have hcols : (exDraws3 : Mat ℝ).n_cols = 1 := rfl
  have hrows : (exDraws3 : Mat ℝ).n_rows = 3 := rfl
  have hC : (List.range (exDraws3 : Mat ℝ).n_rows).map (fun s =>
      vecMax ((List.range (exDraws3 : Mat ℝ).n_cols).map (fun j =>
        |((exDraws3 : Mat ℝ).mem s j - colMean exDraws3 j) /
          colSd (Libm.mk Real.sqrt Real.log Real.exp Real.pi) exDraws3 j|))) =
      [3 / 7, 5 / 7, 8 / 7] := by
    rw [hcols, hrows]
    simp only [List.range_succ, List.range_zero, List.nil_append, List.cons_append,
      List.map_cons, List.map_nil, vecMax, List.headD_cons, List.foldl_cons, List.foldl_nil,
      max_self, exDraws3_colMean, exDraws3_colSd]
    simp only [exDraws3, Mat.ofRows, List.getD_cons_zero, List.getD_cons_succ]
    norm_num [abs_of_pos, abs_of_neg]
  have hs : ([3 / 7, 5 / 7, 8 / 7] : List ℝ).Sorted (fun a b => a ≤ b) := by
    simp [List.Sorted]
    norm_num
  have hq : quantile ([3 / 7, 5 / 7, 8 / 7] : List ℝ) 0.95 = 8 / 7 := by
    rw [quantile_of_sorted_top _ hs _ (by norm_num) (by norm_num)]
    simp
  rw [GetMeanCI_S_band_eq]
  simp only [mean_col, stddev_col _ _ exDraws3_valid.1, hC, hq]
  rw [hcols]
  simp only [List.range_succ, List.range_zero, List.nil_append, List.map_cons, List.map_nil,
    exDraws3_colMean, exDraws3_colSd]
  norm_num

/-- C8 at the draws 11, 13 and 0 of a curve at one grid point. -/
theorem GetMeanCI_S_band_spec_witness :
    (2 ≤ (exDraws3 : Mat ℝ).n_rows ∧ 1 ≤ (exDraws3 : Mat ℝ).n_cols ∧
      ∀ g, g < (exDraws3 : Mat ℝ).n_cols →
        0 < colSd (Libm.mk Real.sqrt Real.log Real.exp Real.pi) (exDraws3 : Mat ℝ) g) ∧
    ∃ (d : Nat → ℝ) (c : ℝ),
      (∀ s, s < (exDraws3 : Mat ℝ).n_rows →
        IsGreatest (studentized (Libm.mk Real.sqrt Real.log Real.exp Real.pi) exDraws3 s) (d s)) ∧
      c = quantile ((List.range (exDraws3 : Mat ℝ).n_rows).map d) 0.95 ∧
      (GetMeanCI_S_band (Libm.mk Real.sqrt Real.log Real.exp Real.pi) exDraws3).CI_025 =
        (List.range (exDraws3 : Mat ℝ).n_cols).map (fun g => colMean exDraws3 g -
          c * colSd (Libm.mk Real.sqrt Real.log Real.exp Real.pi) exDraws3 g) ∧
      (GetMeanCI_S_band (Libm.mk Real.sqrt Real.log Real.exp Real.pi) exDraws3).CI_50 =
        (List.range (exDraws3 : Mat ℝ).n_cols).map (fun g => colMean exDraws3 g) ∧
      (GetMeanCI_S_band (Libm.mk Real.sqrt Real.log Real.exp Real.pi) exDraws3).CI_975 =
        (List.range (exDraws3 : Mat ℝ).n_cols).map (fun g => colMean exDraws3 g +
          c * colSd (Libm.mk Real.sqrt Real.log Real.exp Real.pi) exDraws3 g) :=
  ⟨exDraws3_valid, GetMeanCI_S_band_spec _ _ exDraws3_valid.1 exDraws3_valid.2.1
    exDraws3_valid.2.2⟩

/-- C9 as amended, at the three draws 11, 13 and 0. -/
theorem simultaneous_width_ge_pointwise_witness :
    (2 ≤ (exDraws3 : Mat ℝ).n_rows ∧ 1 ≤ (exDraws3 : Mat ℝ).n_cols ∧
      ∀ g, g < (exDraws3 : Mat ℝ).n_cols →
        0 < colSd (Libm.mk Real.sqrt Real.log Real.exp Real.pi) (exDraws3 : Mat ℝ) g) ∧
    (exDraws3 : Mat ℝ).n_rows ≤ 20 ∧
    (GetMeanCI_S_band (Libm.mk Real.sqrt Real.log Real.exp Real.pi)
        (exDraws3 : Mat ℝ)).CI_975.getD 0 0 -
      (GetMeanCI_S_band (Libm.mk Real.sqrt Real.log Real.exp Real.pi)
        (exDraws3 : Mat ℝ)).CI_025.getD 0 0 ≥
    (GetMeanCI_PW_band (exDraws3 : Mat ℝ)).CI_975.getD 0 0 -
      (GetMeanCI_PW_band (exDraws3 : Mat ℝ)).CI_025.getD 0 0 :=
  ⟨exDraws3_valid, by show 3 ≤ 20; norm_num,
    simultaneous_width_ge_pointwise _ _ exDraws3_valid.1 exDraws3_valid.2.2 0
      (by show 0 < 1; norm_num) (Or.inl (by show 3 ≤ 20; norm_num))⟩

/-- C10 at the draws 11, 13 and 0 of a curve at one grid point. -/
theorem GetMeanCI_PW_band_ordered_witness :
    0 < (exDraws3 : Mat ℝ).n_rows ∧ 0 < (exDraws3 : Mat ℝ).n_cols ∧
    (GetMeanCI_PW_band (exDraws3 : Mat ℝ)).CI_025.getD 0 0 =
      quantile ((exDraws3 : Mat ℝ).col 0) 0.025 ∧
    (GetMeanCI_PW_band (exDraws3 : Mat ℝ)).CI_50.getD 0 0 =
      quantile ((exDraws3 : Mat ℝ).col 0) 0.5 ∧
    (GetMeanCI_PW_band (exDraws3 : Mat ℝ)).CI_975.getD 0 0 =
      quantile ((exDraws3 : Mat ℝ).col 0) 0.975 ∧
    (GetMeanCI_PW_band (exDraws3 : Mat ℝ)).CI_025.getD 0 0 ≤
      (GetMeanCI_PW_band (exDraws3 : Mat ℝ)).CI_50.getD 0 0 ∧
    (GetMeanCI_PW_band (exDraws3 : Mat ℝ)).CI_50.getD 0 0 ≤
      (GetMeanCI_PW_band (exDraws3 : Mat ℝ)).CI_975.getD 0 0 :=
  ⟨by show 0 < 3; norm_num, by show 0 < 1; norm_num,
    GetMeanCI_PW_band_ordered exDraws3 (by show 0 < 3; norm_num) 0 (by show 0 < 1; norm_num)⟩

end CredibleIntervalExamples

section IntervalRoutineTheorems

variable {α : Type} [LinearOrderedField α]

/-- The lower branch of `quantile` on entries given in ascending order. -/
theorem quantile_of_sorted_bot [FloorRing α] (Y : List α) (hs : Y.Sorted (fun a b => a ≤ b)) (p : α)
    (h1 : p < (1 - 1 / 2) / (Y.length : α)) :
    quantile Y p = Y.getD 0 0 := by
  unfold quantile
  simp only []
  rw [hs.insertionSort_eq, if_pos h1]

/-- The three quantiles of the draws 1, 2, 3, 4. -/
theorem quantile_1234 :
    quantile ([1, 2, 3, 4] : List ℚ) 0.025 = 1 ∧ quantile ([1, 2, 3, 4] : List ℚ) 0.5 = 5 / 2 ∧
    quantile ([1, 2, 3, 4] : List ℚ) 0.975 = 4 := by
  have hs : ([1, 2, 3, 4] : List ℚ).Sorted (fun a b => a ≤ b) := by
    simp [List.Sorted]
    norm_num
  refine ⟨?_, ?_, ?_⟩
  · rw [quantile_of_sorted_bot _ hs _ (by norm_num)]
    rfl
  · rw [quantile_of_sorted _ hs _ 2 (by norm_num) (by norm_num) (by norm_num) (by norm_num)]
    norm_num
  · rw [quantile_of_sorted_top _ hs _ (by norm_num) (by norm_num)]
    rfl

/-- The draws assembled from the two files `(1, 2)` and `(3, 4)`. -/
theorem loadSigma_exSigmaChunks :
    (loadSigma (exSigmaChunks : Nat → Vec ℚ) 2).map Vec.toList = some [1, 2, 3, 4] := by
  decide

/-- C11: the three numbers returned by `GetSigamCI` are the 0.025, 0.5 and
0.975 quantiles of the assembled draws, stored in this order in the fields
`CI_975`, `CI_50` and `CI_025`: the field `CI_975` holds the 2.5th percentile
and the field `CI_025` the 97.5th, so that `CI_975 <= CI_50 <= CI_025`. -/
theorem GetSigamCI_fields [FloorRing α] (file : Nat → Vec α) (n_files : Nat) (ci : ScalarCI α)
    (h : GetSigamCI file n_files = some ci) :
    ∃ sigma_samp, loadSigma file n_files = some sigma_samp ∧
      ci.CI_975 = quantile sigma_samp.toList 0.025 ∧
      ci.CI_50 = quantile sigma_samp.toList 0.5 ∧
      ci.CI_025 = quantile sigma_samp.toList 0.975 := by
  unfold GetSigamCI at h
  cases hl : loadSigma file n_files with
  | none => rw [hl] at h; exact absurd h (by simp)
  | some sigma_samp =>
    rw [hl] at h
    simp only [Option.map_some', Option.some.injEq] at h
    subst h
    exact ⟨sigma_samp, rfl, rfl, rfl, rfl⟩

/-- C11 at the two files `(1, 2)` and `(3, 4)`: the field `CI_975` is 1, the
smallest draw, and the field `CI_025` is 4, the largest. -/
theorem GetSigamCI_fields_witness :
    GetSigamCI (exSigmaChunks : Nat → Vec ℚ) 2 = some { CI_975 := 1, CI_50 := 5 / 2, CI_025 := 4 } ∧
    ∃ sigma_samp, loadSigma (exSigmaChunks : Nat → Vec ℚ) 2 = some sigma_samp ∧
      (1 : ℚ) = quantile sigma_samp.toList 0.025 ∧
      (5 / 2 : ℚ) = quantile sigma_samp.toList 0.5 ∧
      (4 : ℚ) = quantile sigma_samp.toList 0.975 :=
  have h : GetSigamCI (exSigmaChunks : Nat → Vec ℚ) 2 =
      some { CI_975 := 1, CI_50 := 5 / 2, CI_025 := 4 } := by
    have hl := loadSigma_exSigmaChunks
    unfold GetSigamCI
    cases hv : loadSigma (exSigmaChunks : Nat → Vec ℚ) 2 with
    | none => rw [hv] at hl; exact absurd hl (by simp)
    | some v =>
      rw [hv] at hl
      simp only [Option.map_some', Option.some.injEq] at hl
      simp only [Option.map_some', hl, quantile_1234.1, quantile_1234.2.1, quantile_1234.2.2]
  ⟨h, GetSigamCI_fields (exSigmaChunks : Nat → Vec ℚ) 2
    ({ CI_975 := 1, CI_50 := 5 / 2, CI_025 := 4 } : ScalarCI ℚ) h⟩

/-- The loops of `GetZCI` succeed and store at every cell `(i, j)` the 0.025
quantile of the draws of the cell in `CI_975`, the 0.5 quantile in `CI_50`
and the 0.975 quantile in `CI_025`. -/
theorem GetZCI_band_spec [FloorRing α] (Z_samp Z_i : Cube α) :
    ∃ ci, GetZCI_band Z_samp Z_i = some ci ∧
      ∀ i j, i < Z_i.n_rows → j < Z_i.n_cols →
        ci.CI_975.mem i j = quantile (Z_samp.tube i j) 0.025 ∧
        ci.CI_50.mem i j = quantile (Z_samp.tube i j) 0.5 ∧
        ci.CI_025.mem i j = quantile (Z_samp.tube i j) 0.975 := by
  let Inv : (Nat → Nat → Prop) → MatCI α → Prop := fun done ci =>
    (ci.CI_975.n_rows = Z_i.n_rows ∧ ci.CI_975.n_cols = Z_i.n_cols) ∧
    (ci.CI_50.n_rows = Z_i.n_rows ∧ ci.CI_50.n_cols = Z_i.n_cols) ∧
    (ci.CI_025.n_rows = Z_i.n_rows ∧ ci.CI_025.n_cols = Z_i.n_cols) ∧
    ∀ r c, done r c →
      ci.CI_975.mem r c = quantile (Z_samp.tube r c) 0.025 ∧
      ci.CI_50.mem r c = quantile (Z_samp.tube r c) 0.5 ∧
      ci.CI_025.mem r c = quantile (Z_samp.tube r c) 0.975
  have houter := foldlM_range_inv
    (fun ci i =>
      (List.range Z_i.n_cols).foldlM
        (fun ci j =>
          let q0 := quantile (Z_samp.tube i j) 0.025
          let q1 := quantile (Z_samp.tube i j) 0.5
          let q2 := quantile (Z_samp.tube i j) 0.975
          (ci.CI_975.write i j q0).bind (fun CI_975 =>
            (ci.CI_50.write i j q1).bind (fun CI_50 =>
              (ci.CI_025.write i j q2).bind (fun CI_025 =>
                some ({ CI_975 := CI_975, CI_50 := CI_50, CI_025 := CI_025 } : MatCI α)))))
        ci)
    (fun i ci => Inv (fun r c => r < i ∧ c < Z_i.n_cols) ci) Z_i.n_rows
    { CI_975 := Mat.zeros Z_i.n_rows Z_i.n_cols,
      CI_50 := Mat.zeros Z_i.n_rows Z_i.n_cols,
      CI_025 := Mat.zeros Z_i.n_rows Z_i.n_cols }
    ⟨⟨rfl, rfl⟩, ⟨rfl, rfl⟩, ⟨rfl, rfl⟩, fun r c h => absurd h.1 (Nat.not_lt_zero r)⟩
    (by
      intro i ci hi hinv
      have hinner := foldlM_range_inv
        (fun ci j =>
          let q0 := quantile (Z_samp.tube i j) 0.025
          let q1 := quantile (Z_samp.tube i j) 0.5
          let q2 := quantile (Z_samp.tube i j) 0.975
          (ci.CI_975.write i j q0).bind (fun CI_975 =>
            (ci.CI_50.write i j q1).bind (fun CI_50 =>
              (ci.CI_025.write i j q2).bind (fun CI_025 =>
                some ({ CI_975 := CI_975, CI_50 := CI_50, CI_025 := CI_025 } : MatCI α)))))
        (fun j ci => Inv (fun r c => (r < i ∧ c < Z_i.n_cols) ∨ (r = i ∧ c < j)) ci)
        Z_i.n_cols ci
        ⟨hinv.1, hinv.2.1, hinv.2.2.1, fun r c h => by
          rcases h with h | h
          · exact hinv.2.2.2 r c h
          · exact absurd h.2 (Nat.not_lt_zero c)⟩
        (by
          intro j s hj hs
          obtain ⟨⟨a1, a2⟩, ⟨b1, b2⟩, ⟨c1, c2⟩, hcells⟩ := hs
          obtain ⟨m1, e1, r1, k1, v1, o1⟩ := Mat.write_spec s.CI_975 i j
            (quantile (Z_samp.tube i j) 0.025) (by omega) (by omega)
          obtain ⟨m2, e2, r2, k2, v2, o2⟩ := Mat.write_spec s.CI_50 i j
            (quantile (Z_samp.tube i j) 0.5) (by omega) (by omega)
          obtain ⟨m3, e3, r3, k3, v3, o3⟩ := Mat.write_spec s.CI_025 i j
            (quantile (Z_samp.tube i j) 0.975) (by omega) (by omega)
          refine ⟨{ CI_975 := m1, CI_50 := m2, CI_025 := m3 }, ?_, ⟨r1.trans a1, k1.trans a2⟩,
            ⟨r2.trans b1, k2.trans b2⟩, ⟨r3.trans c1, k3.trans c2⟩, ?_⟩
          · simp only [e1, e2, e3, Option.some_bind]
          · intro r c h
            by_cases hrc : r = i ∧ c = j
            · obtain ⟨rfl, rfl⟩ := hrc
              exact ⟨v1, v2, v3⟩
            · show m1.mem r c = _ ∧ m2.mem r c = _ ∧ m3.mem r c = _
              rw [o1 r c hrc, o2 r c hrc, o3 r c hrc]
              apply hcells
              rcases h with h | h
              · exact Or.inl h
              · refine Or.inr ⟨h.1, ?_⟩
                have : c ≠ j := fun hc => hrc ⟨h.1, hc⟩
                omega)
      obtain ⟨s2, e, hi2⟩ := hinner
      refine ⟨s2, e, hi2.1, hi2.2.1, hi2.2.2.1, ?_⟩
      intro r c h
      apply hi2.2.2.2
      by_cases hr : r = i
      · exact Or.inr ⟨hr, h.2⟩
      · exact Or.inl ⟨by omega, h.2⟩)
  obtain ⟨ci, e, hci⟩ := houter
  exact ⟨ci, e, fun i j hi hj => hci.2.2.2 i j ⟨hi, hj⟩⟩

/-- The three quantiles of the draws 0, 0, 1. -/
theorem quantile_0_0_1 :
    quantile ([0, 0, 1] : List ℚ) 0.025 = 0 ∧ quantile ([0, 0, 1] : List ℚ) 0.5 = 0 ∧
    quantile ([0, 0, 1] : List ℚ) 0.975 = 1 := by
  have hs : ([0, 0, 1] : List ℚ).Sorted (fun a b => a ≤ b) := by
    simp [List.Sorted]
  refine ⟨?_, ?_, ?_⟩
  · rw [quantile_of_sorted_bot _ hs _ (by norm_num)]
    rfl
  · rw [quantile_of_sorted _ hs _ 2 (by norm_num) (by norm_num) (by norm_num) (by norm_num)]
    norm_num
  · rw [quantile_of_sorted_top _ hs _ (by norm_num) (by norm_num)]
    rfl

/-- C12: when the chunks of `Z` are assembled into `Z_samp`, `GetZCI` returns
three matrices that hold at every cell `(i, j)` the 0.025, 0.5 and 0.975
quantiles of the draws of `Z(i,j)`, stored in this order in the fields
`CI_975`, `CI_50` and `CI_025`: the field `CI_975` holds the 2.5th percentile
and the field `CI_025` the 97.5th. -/
theorem GetZCI_fields [FloorRing α] (file : Nat → Cube α) (n_files : Nat) (Z_samp : Cube α)
    (h : loadNu file n_files = some Z_samp) :
    ∃ ci, GetZCI file n_files = some ci ∧
      ∀ i j, i < (file (n_files - 1)).n_rows → j < (file (n_files - 1)).n_cols →
        ci.CI_975.mem i j = quantile (Z_samp.tube i j) 0.025 ∧
        ci.CI_50.mem i j = quantile (Z_samp.tube i j) 0.5 ∧
        ci.CI_025.mem i j = quantile (Z_samp.tube i j) 0.975 := by
  unfold GetZCI
  rw [h, Option.some_bind]
  exact GetZCI_band_spec Z_samp (file (n_files - 1))

/-- C12 at one file with the draws 0, 0, 1 of a 1 by 1 matrix: the field
`CI_975` holds 0, the smallest draw, and the field `CI_025` holds 1, the
largest. -/
theorem GetZCI_fields_witness :
    ∃ Z_samp, loadNu (exZChunks : Nat → Cube ℚ) 1 = some Z_samp ∧
      ∃ ci, GetZCI (exZChunks : Nat → Cube ℚ) 1 = some ci ∧
        ci.CI_975.mem 0 0 = 0 ∧ ci.CI_50.mem 0 0 = 0 ∧ ci.CI_025.mem 0 0 = 1 := by
  cases h : loadNu (exZChunks : Nat → Cube ℚ) 1 with
  | none => exact absurd (congrArg Option.isSome h) (by decide)
  | some Z_samp =>
    have h1 : (loadNu (exZChunks : Nat → Cube ℚ) 1).map (fun Z => Z.tube 0 0) =
        some [0, 0, 1] := by
      decide
    rw [h] at h1
    simp only [Option.map_some', Option.some.injEq] at h1
    obtain ⟨ci, e, hci⟩ := GetZCI_fields (exZChunks : Nat → Cube ℚ) 1 Z_samp h
    have h00 := hci 0 0 (by decide) (by decide)
    rw [h1, quantile_0_0_1.1, quantile_0_0_1.2.1, quantile_0_0_1.2.2] at h00
    exact ⟨Z_samp, rfl, ci, e, h00⟩

/-- The loops over the grid succeed when `time1` has at most as many points
as `time2` (or `time2` has none): `CI_975` and `CI_50` have the shape
`|time1|` by `|time2|`, `CI_025` has the shape `|time2|` by `|time2|`, and
every cell of the grid holds the three values assigned to it. -/
theorem fillCovCI_spec (T1 T2 : Nat) (lo mid hi : Nat → Nat → α) (h : T1 ≤ T2 ∨ T2 = 0) :
    ∃ ci, fillCovCI T1 T2 lo mid hi = some ci ∧
      ((ci.CI_975.n_rows = T1 ∧ ci.CI_975.n_cols = T2) ∧
        (ci.CI_50.n_rows = T1 ∧ ci.CI_50.n_cols = T2) ∧
        (ci.CI_025.n_rows = T2 ∧ ci.CI_025.n_cols = T2)) ∧
      ∀ i j, i < T1 → j < T2 →
        ci.CI_025.mem i j = lo i j ∧ ci.CI_50.mem i j = mid i j ∧
          ci.CI_975.mem i j = hi i j := by
  unfold fillCovCI
  refine foldlM_grid T1 T2 (fun (ci : MatCI α) i j => ci.assignCell i j (lo i j) (mid i j) (hi i j))
    (fun (ci : MatCI α) => (ci.CI_975.n_rows = T1 ∧ ci.CI_975.n_cols = T2) ∧
        (ci.CI_50.n_rows = T1 ∧ ci.CI_50.n_cols = T2) ∧
        (ci.CI_025.n_rows = T2 ∧ ci.CI_025.n_cols = T2))
    (fun i j (ci : MatCI α) => ci.CI_025.mem i j = lo i j ∧ ci.CI_50.mem i j = mid i j ∧
          ci.CI_975.mem i j = hi i j) _ ⟨⟨rfl, rfl⟩, ⟨rfl, rfl⟩, ⟨rfl, rfl⟩⟩ ?_
  intro s i j hlt hj hI
  obtain ⟨⟨a1, a2⟩, ⟨b1, b2⟩, ⟨c1, c2⟩⟩ := hI
  obtain ⟨s2, e, d3, d2, d1, hv, ho⟩ := MatCI.assignCell_spec s i j (lo i j) (mid i j) (hi i j)
    ⟨by omega, by omega⟩ ⟨by omega, by omega⟩ ⟨by omega, by omega⟩
  refine ⟨s2, e, ⟨⟨d3.1.trans a1, d3.2.trans a2⟩, ⟨d2.1.trans b1, d2.2.trans b2⟩,
    ⟨d1.1.trans c1, d1.2.trans c2⟩⟩, hv, ?_⟩
  intro r c hd
  by_cases hrc : r = i ∧ c = j
  · obtain ⟨rfl, rfl⟩ := hrc
    exact hv
  · obtain ⟨o1, o2, o3⟩ := ho r c hrc
    rw [o1, o2, o3]
    exact hd

/-- The loops over the grid fail when `time1` has more points than `time2`
(and `time2` has some): the assignment `CI_025(i,j)` at row `i = |time2|` is
out of the bounds of `CI_025`. -/
theorem fillCovCI_fails (T1 T2 : Nat) (lo mid hi : Nat → Nat → α) (h : 0 < T2 ∧ T2 < T1) :
    fillCovCI T1 T2 lo mid hi = none := by
  unfold fillCovCI
  rw [foldlM_none_iff
    (fun (ci : MatCI α) i => (List.range T2).foldlM
      (fun (ci : MatCI α) j => ci.assignCell i j (lo i j) (mid i j) (hi i j)) ci)
    (fun (ci : MatCI α) => (ci.CI_975.n_rows = T1 ∧ ci.CI_975.n_cols = T2) ∧
        (ci.CI_50.n_rows = T1 ∧ ci.CI_50.n_cols = T2) ∧
        (ci.CI_025.n_rows = T2 ∧ ci.CI_025.n_cols = T2))
    (fun i => T2 ≤ i) (List.range T1) _ ⟨⟨rfl, rfl⟩, ⟨rfl, rfl⟩, ⟨rfl, rfl⟩⟩]
  · exact ⟨T2, List.mem_range.mpr h.2, le_rfl⟩
  · intro s i hlt hI hgood
    rw [List.mem_range] at hlt
    obtain ⟨s2, e, hI2⟩ := foldlM_range_inv
      (fun (ci : MatCI α) j => ci.assignCell i j (lo i j) (mid i j) (hi i j))
      (fun _ (ci : MatCI α) => (ci.CI_975.n_rows = T1 ∧ ci.CI_975.n_cols = T2) ∧
        (ci.CI_50.n_rows = T1 ∧ ci.CI_50.n_cols = T2) ∧
        (ci.CI_025.n_rows = T2 ∧ ci.CI_025.n_cols = T2)) T2 s hI
      (by
        intro j t hj ht
        obtain ⟨⟨a1, a2⟩, ⟨b1, b2⟩, ⟨c1, c2⟩⟩ := ht
        obtain ⟨t2, e, d3, d2, d1, _, _⟩ := MatCI.assignCell_spec t i j (lo i j) (mid i j)
          (hi i j) ⟨by omega, by omega⟩ ⟨by omega, by omega⟩ ⟨by omega, by omega⟩
        exact ⟨t2, e, ⟨d3.1.trans a1, d3.2.trans a2⟩, ⟨d2.1.trans b1, d2.2.trans b2⟩,
          ⟨d1.1.trans c1, d1.2.trans c2⟩⟩)
    exact ⟨s2, e, hI2⟩
  · intro s i _ hI hbad
    obtain ⟨n, hn⟩ : ∃ n, T2 = n + 1 := ⟨T2 - 1, by omega⟩
    have hw : s.CI_025.write i 0 (lo i 0) = none := by
      unfold Mat.write
      rw [if_pos (Or.inl (by rw [hI.2.2.1]; exact hbad))]
    rw [hn, List.range_succ_eq_map, List.foldlM_cons]
    unfold MatCI.assignCell
    rw [hw]
    rfl

/-- C16: the three values that `GetCovCI_Pw` stores at cell `(i, j)` are the
quantiles of the sample `cov_samp.col(i)`, in which `j` does not occur: every
cell of row `i` of the grid receives the same three values, whatever the
draws `cov_samp(i,j,.)` of the cell are. -/
theorem GetCovCI_Pw_band_cells [FloorRing α] (colOf : Cube α → Nat → List α) (cov_samp : Cube α)
    (h : cov_samp.n_rows ≤ cov_samp.n_cols ∨ cov_samp.n_cols = 0) :
    ∃ ci, GetCovCI_Pw_band colOf cov_samp = some ci ∧
      ∀ i j, i < cov_samp.n_rows → j < cov_samp.n_cols →
        ci.CI_025.mem i j = quantile (colOf cov_samp i) 0.025 ∧
        ci.CI_50.mem i j = quantile (colOf cov_samp i) 0.5 ∧
        ci.CI_975.mem i j = quantile (colOf cov_samp i) 0.975 := by
  obtain ⟨ci, e, _, hc⟩ := fillCovCI_spec cov_samp.n_rows cov_samp.n_cols
      (fun i _ => quantile (colOf cov_samp i) 0.025)
      (fun i _ => quantile (colOf cov_samp i) 0.5)
      (fun i _ => quantile (colOf cov_samp i) 0.975) h
  exact ⟨ci, e, hc⟩

/-- The three quantiles of three equal draws. -/
theorem quantile_three_equal (a : ℚ) :
    quantile [a, a, a] 0.025 = a ∧ quantile [a, a, a] 0.5 = a ∧ quantile [a, a, a] 0.975 = a := by
  have hs : ([a, a, a] : List ℚ).Sorted (fun a b => a ≤ b) := by
    simp [List.Sorted]
  refine ⟨?_, ?_, ?_⟩
  · rw [quantile_of_sorted_bot _ hs _ (by norm_num)]
    rfl
  · rw [quantile_of_sorted _ hs _ 2 (by norm_num) (by norm_num) (by norm_num) (by norm_num)]
    norm_num
  · rw [quantile_of_sorted_top _ hs _ (by norm_num) (by norm_num)]
    rfl

/-- C16 on a grid of one point by two points with the draws 1, 1, 1 at cell
`(0, 0)` and 2, 2, 2 at cell `(0, 1)`: whatever sample `cov_samp.col(0)`
stands for, the two cells receive the same median, while the medians of
their draws are 1 and 2. -/
theorem GetCovCI_Pw_band_cells_witness :
    ((exCovSamp : Cube ℚ).n_rows ≤ (exCovSamp : Cube ℚ).n_cols ∨
      (exCovSamp : Cube ℚ).n_cols = 0) ∧
    (∀ colOf : Cube ℚ → Nat → List ℚ, ∃ ci, GetCovCI_Pw_band colOf exCovSamp = some ci ∧
      ci.CI_025.mem 0 0 = ci.CI_025.mem 0 1 ∧ ci.CI_50.mem 0 0 = ci.CI_50.mem 0 1 ∧
      ci.CI_975.mem 0 0 = ci.CI_975.mem 0 1) ∧
    quantile ((exCovSamp : Cube ℚ).tube 0 0) 0.5 = 1 ∧
    quantile ((exCovSamp : Cube ℚ).tube 0 1) 0.5 = 2 := by
  have h : (exCovSamp : Cube ℚ).n_rows ≤ (exCovSamp : Cube ℚ).n_cols ∨
      (exCovSamp : Cube ℚ).n_cols = 0 := Or.inl (by decide)
  have t0 : (exCovSamp : Cube ℚ).tube 0 0 = [1, 1, 1] := by
    simp [Cube.tube, exCovSamp, List.range_succ]
  have t1 : (exCovSamp : Cube ℚ).tube 0 1 = [2, 2, 2] := by
    simp [Cube.tube, exCovSamp, List.range_succ]
  refine ⟨h, ?_, by rw [t0]; exact (quantile_three_equal 1).2.1,
    by rw [t1]; exact (quantile_three_equal 2).2.1⟩
  intro colOf
  obtain ⟨ci, e, hc⟩ := GetCovCI_Pw_band_cells colOf (exCovSamp : Cube ℚ) h
  obtain ⟨a1, a2, a3⟩ := hc 0 0 (by decide) (by decide)
  obtain ⟨b1, b2, b3⟩ := hc 0 1 (by decide) (by decide)
  exact ⟨ci, e, a1.trans b1.symm, a2.trans b2.symm, a3.trans b3.symm⟩

/-- C17: where `GetCovCI_Pw` and `GetCovCI_S` return, `CI_975` and `CI_50`
have the shape `|time1|` by `|time2|` and `CI_025` has the shape `|time2|` by
`|time2|`; they return when `|time1| <= |time2|` (or `|time2| = 0`), and for
`0 < |time2| < |time1|` the assignment to `CI_025` is out of bounds. -/
theorem GetCovCI_shapes [FloorRing α] (L : Libm α) (colOf : Cube α → Nat → List α)
    (cov_samp : Cube α) :
    (cov_samp.n_rows ≤ cov_samp.n_cols ∨ cov_samp.n_cols = 0 →
      (∃ ci, GetCovCI_Pw_band colOf cov_samp = some ci ∧
        (ci.CI_975.n_rows = cov_samp.n_rows ∧ ci.CI_975.n_cols = cov_samp.n_cols) ∧
        (ci.CI_50.n_rows = cov_samp.n_rows ∧ ci.CI_50.n_cols = cov_samp.n_cols) ∧
        (ci.CI_025.n_rows = cov_samp.n_cols ∧ ci.CI_025.n_cols = cov_samp.n_cols)) ∧
      (∃ ci, GetCovCI_S_band L cov_samp = some ci ∧
        (ci.CI_975.n_rows = cov_samp.n_rows ∧ ci.CI_975.n_cols = cov_samp.n_cols) ∧
        (ci.CI_50.n_rows = cov_samp.n_rows ∧ ci.CI_50.n_cols = cov_samp.n_cols) ∧
        (ci.CI_025.n_rows = cov_samp.n_cols ∧ ci.CI_025.n_cols = cov_samp.n_cols))) ∧
    (0 < cov_samp.n_cols ∧ cov_samp.n_cols < cov_samp.n_rows →
      GetCovCI_Pw_band colOf cov_samp = none ∧ GetCovCI_S_band L cov_samp = none) := by
  constructor
  · intro h
    have key : ∀ lo mid hi : Nat → Nat → α,
        ∃ ci, fillCovCI cov_samp.n_rows cov_samp.n_cols lo mid hi = some ci ∧
          (ci.CI_975.n_rows = cov_samp.n_rows ∧ ci.CI_975.n_cols = cov_samp.n_cols) ∧
          (ci.CI_50.n_rows = cov_samp.n_rows ∧ ci.CI_50.n_cols = cov_samp.n_cols) ∧
          (ci.CI_025.n_rows = cov_samp.n_cols ∧ ci.CI_025.n_cols = cov_samp.n_cols) := by
      intro lo mid hi
      obtain ⟨ci, e, hs, _⟩ := fillCovCI_spec cov_samp.n_rows cov_samp.n_cols lo mid hi h
      exact ⟨ci, e, hs⟩
    exact ⟨key _ _ _, key _ _ _⟩
  · intro h
    exact ⟨fillCovCI_fails _ _ _ _ _ h, fillCovCI_fails _ _ _ _ _ h⟩

/-- C17 on a grid of one point by two points: both routines return `CI_975`
and `CI_50` of shape 1 by 2 and `CI_025` of shape 2 by 2. -/
theorem GetCovCI_shapes_witness :
    ((exCovSamp : Cube ℚ).n_rows ≤ (exCovSamp : Cube ℚ).n_cols ∨
      (exCovSamp : Cube ℚ).n_cols = 0) ∧
    ∀ (L : Libm ℚ) (colOf : Cube ℚ → Nat → List ℚ),
      (∃ ci, GetCovCI_Pw_band colOf exCovSamp = some ci ∧
        (ci.CI_975.n_rows = 1 ∧ ci.CI_975.n_cols = 2) ∧
        (ci.CI_50.n_rows = 1 ∧ ci.CI_50.n_cols = 2) ∧
        (ci.CI_025.n_rows = 2 ∧ ci.CI_025.n_cols = 2)) ∧
      (∃ ci, GetCovCI_S_band L exCovSamp = some ci ∧
        (ci.CI_975.n_rows = 1 ∧ ci.CI_975.n_cols = 2) ∧
        (ci.CI_50.n_rows = 1 ∧ ci.CI_50.n_cols = 2) ∧
        (ci.CI_025.n_rows = 2 ∧ ci.CI_025.n_cols = 2)) :=
  have h : (exCovSamp : Cube ℚ).n_rows ≤ (exCovSamp : Cube ℚ).n_cols ∨
      (exCovSamp : Cube ℚ).n_cols = 0 := Or.inl (by decide)
  ⟨h, fun L colOf => (GetCovCI_shapes L colOf (exCovSamp : Cube ℚ)).1 h⟩

/-- The curve samples of `GetMeanCI_PW` and `GetMeanCI_S` for the cluster
index `k` with `1 <= k <= K`: draw `s` of the curve at point `t` is the
product of row `t` of `B` with row `k - 1` of draw `s` of `nu`. -/
theorem curveSamples_spec (B : Mat α) (nu_samp : Cube α) (k : Nat)
    (hk : 1 ≤ k ∧ k ≤ nu_samp.n_rows) (hkb : k < 2 ^ 64) (hB : B.n_cols = nu_samp.n_cols) :
    ∃ f_samp, curveSamples B nu_samp k = some f_samp ∧
      ∀ s t, s < nu_samp.n_slices →
        f_samp.mem s t = ∑ p in Finset.range nu_samp.n_cols, B.mem t p * nu_samp.mem (k - 1) p s := by
  unfold curveSamples
  refine foldlM_range_inv _
    (fun i (f_samp : Mat α) => ∀ s t, s < i →
      f_samp.mem s t = ∑ p in Finset.range nu_samp.n_cols, B.mem t p * nu_samp.mem (k - 1) p s)
    nu_samp.n_slices _ (fun s t h => absurd h (Nat.not_lt_zero s)) ?_
  intro i f hi hf
  have hrow : nu_samp.sliceRowAt i (usub k 1) = some (nu_samp.sliceRow i (k - 1)) := by
    unfold Cube.sliceRowAt
    rw [usub_one k (by omega) hkb, if_pos ⟨hi, by omega⟩]
  refine ⟨{ f with mem := fun r c =>
      if r = i then dot B.n_cols (B.row c) (nu_samp.sliceRow i (k - 1)) else f.mem r c }, ?_, ?_⟩
  · simp only [hrow, Option.some_bind]
    rw [if_neg (by simpa using hB)]
  · intro s t hs
    by_cases hsi : s = i
    · subst hsi
      simp only [if_true, dot_eq_sum, hB]
      rfl
    · simp only [if_neg hsi]
      exact hf s t (by omega)

/-- The covariance samples of `GetCovCI_Pw` and `GetCovCI_S` for the cluster
indices `l` and `m` below the number of rows of every draw: draw `i` at the
cell `(r, c)` is the sum over the components `j` of the product of row `r` of
`B1` with row `l` of slice `j`, times the product of row `c` of `B2` with row
`m` of slice `j`. -/
theorem covSamples_spec (B1 B2 : Mat α) (phi_samp : ArmaField (Cube α)) (n_draws l m : Nat)
    (h : ∀ i, i < n_draws → l < (phi_samp.mem i).n_rows ∧ m < (phi_samp.mem i).n_rows) :
    ∃ cov_samp, covSamples B1 B2 phi_samp n_draws l m = some cov_samp ∧
      ∀ i r c, i < n_draws →
        cov_samp.mem r c i = ∑ j in Finset.range (phi_samp.mem i).n_slices,
          (∑ p in Finset.range B1.n_cols, B1.mem r p * (phi_samp.mem i).mem l p j) *
          (∑ p in Finset.range B2.n_cols, B2.mem c p * (phi_samp.mem i).mem m p j) := by
  unfold covSamples
  obtain ⟨cov, e, hcov⟩ := foldlM_range_inv _
    (fun i (cov_samp : Cube α) =>
      (∀ s r c, s < i → cov_samp.mem r c s = ∑ j in Finset.range (phi_samp.mem s).n_slices,
          (∑ p in Finset.range B1.n_cols, B1.mem r p * (phi_samp.mem s).mem l p j) *
          (∑ p in Finset.range B2.n_cols, B2.mem c p * (phi_samp.mem s).mem m p j)) ∧
      ∀ s r c, i ≤ s → cov_samp.mem r c s = 0)
    n_draws (Cube.zeros B1.n_rows B2.n_rows n_draws)
    ⟨fun s r c hs => absurd hs (Nat.not_lt_zero s), fun s r c _ => rfl⟩
    (by
      intro i cov hi hinv
      obtain ⟨cov2, e2, h2⟩ := foldlM_range_inv
        (fun (cov_samp : Cube α) j =>
          ((phi_samp.mem i).sliceRowAt j l).bind (fun row_l =>
            ((phi_samp.mem i).sliceRowAt j m).bind (fun row_m =>
              some ({ cov_samp with
                mem := fun r c s =>
                  if s = i then
                    cov_samp.mem r c s +
                      dot B1.n_cols (B1.row r) row_l * dot B2.n_cols (B2.row c) row_m
                  else cov_samp.mem r c s } : Cube α))))
        (fun j (cov_samp : Cube α) =>
          (∀ s r c, s < i → cov_samp.mem r c s = ∑ j in Finset.range (phi_samp.mem s).n_slices,
              (∑ p in Finset.range B1.n_cols, B1.mem r p * (phi_samp.mem s).mem l p j) *
              (∑ p in Finset.range B2.n_cols, B2.mem c p * (phi_samp.mem s).mem m p j)) ∧
          (∀ r c, cov_samp.mem r c i = ∑ j2 in Finset.range j,
              (∑ p in Finset.range B1.n_cols, B1.mem r p * (phi_samp.mem i).mem l p j2) *
              (∑ p in Finset.range B2.n_cols, B2.mem c p * (phi_samp.mem i).mem m p j2)) ∧
          ∀ s r c, i < s → cov_samp.mem r c s = 0)
        (phi_samp.mem i).n_slices cov
        ⟨hinv.1, fun r c => by rw [hinv.2 i r c le_rfl]; simp,
          fun s r c hs => hinv.2 s r c (by omega)⟩
        (by
          intro j t hj ht
          have hl : (phi_samp.mem i).sliceRowAt j l = some ((phi_samp.mem i).sliceRow j l) := by
            unfold Cube.sliceRowAt
            rw [if_pos ⟨hj, (h i hi).1⟩]
          have hm : (phi_samp.mem i).sliceRowAt j m = some ((phi_samp.mem i).sliceRow j m) := by
            unfold Cube.sliceRowAt
            rw [if_pos ⟨hj, (h i hi).2⟩]
          refine ⟨_, by simp only [hl, hm, Option.some_bind]; rfl, ?_, ?_, ?_⟩
          · intro s r c hs
            simp only [if_neg (Nat.ne_of_lt hs)]
            exact ht.1 s r c hs
          · intro r c
            simp only [if_true, Finset.sum_range_succ, ht.2.1 r c, dot_eq_sum]
            rfl
          · intro s r c hs
            simp only [if_neg (Nat.ne_of_gt hs)]
            exact ht.2.2 s r c hs)
      refine ⟨cov2, e2, ?_, fun s r c hs => h2.2.2 s r c (by omega)⟩
      intro s r c hs
      by_cases hsi : s = i
      · subst hsi
        exact h2.2.1 r c
      · exact h2.1 s r c (by omega))
  exact ⟨cov, e, fun i r c hi => hcov.1 i r c hi⟩

/-- C18: for a cluster index `k` with `1 <= k <= K`, the mean routines
`GetMeanCI_PW` and `GetMeanCI_S` read row `k - 1` of every draw of `nu`; for
cluster indices `l` and `m`, the covariance routines `GetCovCI_Pw` and
`GetCovCI_S` read the rows `l` and `m` of every draw of `Phi`, not the rows
`l - 1` and `m - 1`. -/
theorem cluster_rows_read (B : Mat α) (nu_samp : Cube α) (k : Nat) (B1 B2 : Mat α)
    (phi_samp : ArmaField (Cube α)) (n_draws l m : Nat)
    (hk : 1 ≤ k ∧ k ≤ nu_samp.n_rows) (hkb : k < 2 ^ 64) (hB : B.n_cols = nu_samp.n_cols)
    (h : ∀ i, i < n_draws → l < (phi_samp.mem i).n_rows ∧ m < (phi_samp.mem i).n_rows) :
    (∃ f_samp, curveSamples B nu_samp k = some f_samp ∧
      ∀ s t, s < nu_samp.n_slices →
        f_samp.mem s t =
          ∑ p in Finset.range nu_samp.n_cols, B.mem t p * nu_samp.mem (k - 1) p s) ∧
    (∃ cov_samp, covSamples B1 B2 phi_samp n_draws l m = some cov_samp ∧
      ∀ i r c, i < n_draws →
        cov_samp.mem r c i = ∑ j in Finset.range (phi_samp.mem i).n_slices,
          (∑ p in Finset.range B1.n_cols, B1.mem r p * (phi_samp.mem i).mem l p j) *
          (∑ p in Finset.range B2.n_cols, B2.mem c p * (phi_samp.mem i).mem m p j)) :=
  ⟨curveSamples_spec B nu_samp k hk hkb hB, covSamples_spec B1 B2 phi_samp n_draws l m h⟩

/-- C18 at `K = 2` clusters with the values 3 and 5 on one basis function
(`B = B1 = B2 = [[1]]`, one draw, one component): with `k = 1` the curve sample
is 3, the value of the first cluster; with `l = m = 1` the covariance sample
is `5 * 5 = 25`, from the second cluster, not `3 * 3 = 9`; and with
`l = m = 2` the rows are out of bounds. -/
theorem cluster_rows_read_witness :
    ((1 ≤ 1 ∧ 1 ≤ (exNuSamp : Cube ℚ).n_rows) ∧ 1 < 2 ^ 64 ∧
      (Mat.ofRows [[1]] : Mat ℚ).n_cols = (exNuSamp : Cube ℚ).n_cols ∧
      ∀ i, i < 1 → 1 < ((exPhiSamp : ArmaField (Cube ℚ)).mem i).n_rows ∧
        1 < ((exPhiSamp : ArmaField (Cube ℚ)).mem i).n_rows) ∧
    (∃ f_samp, curveSamples (Mat.ofRows [[1]]) (exNuSamp : Cube ℚ) 1 = some f_samp ∧
      f_samp.mem 0 0 = 3) ∧
    (∃ cov_samp, covSamples (Mat.ofRows [[1]]) (Mat.ofRows [[1]])
        (exPhiSamp : ArmaField (Cube ℚ)) 1 1 1 = some cov_samp ∧ cov_samp.mem 0 0 0 = 25) ∧
    (covSamples (Mat.ofRows [[1]]) (Mat.ofRows [[1]])
        (exPhiSamp : ArmaField (Cube ℚ)) 1 2 2).isNone = true := by
  have hk : 1 ≤ 1 ∧ 1 ≤ (exNuSamp : Cube ℚ).n_rows := ⟨le_rfl, by decide⟩
  have hkb : 1 < 2 ^ 64 := by norm_num
  have hB : (Mat.ofRows [[1]] : Mat ℚ).n_cols = (exNuSamp : Cube ℚ).n_cols := rfl
  have h : ∀ i, i < 1 → 1 < ((exPhiSamp : ArmaField (Cube ℚ)).mem i).n_rows ∧
      1 < ((exPhiSamp : ArmaField (Cube ℚ)).mem i).n_rows :=
    fun _ _ => ⟨by show 1 < 2; decide, by show 1 < 2; decide⟩
  obtain ⟨⟨f, ef, hf⟩, ⟨cov, ec, hc⟩⟩ := cluster_rows_read (Mat.ofRows [[1]]) (exNuSamp : Cube ℚ) 1
    (Mat.ofRows [[1]]) (Mat.ofRows [[1]]) (exPhiSamp : ArmaField (Cube ℚ)) 1 1 1 hk hkb hB h
  refine ⟨⟨hk, hkb, hB, h⟩, ⟨f, ef, ?_⟩, ⟨cov, ec, ?_⟩, by decide⟩
  · rw [hf 0 0 (by decide)]
    simp [exNuSamp, Mat.ofRows]
  · rw [hc 0 0 0 (by decide)]
    simp [exPhiSamp, Mat.ofRows]
    norm_num

/-- The simultaneous band in terms of the critical value `q(0)`. -/
theorem GetMeanCI_S_band_q [FloorRing α] (L : Libm α) (f_samp : Mat α) (g : Nat)
    (hg : g < f_samp.n_cols) :
    (GetMeanCI_S_band L f_samp).CI_025.getD g 0 =
      mean (f_samp.col g) - GetMeanCI_S_q L f_samp * stddev L (f_samp.col g) ∧
    (GetMeanCI_S_band L f_samp).CI_50.getD g 0 = mean (f_samp.col g) ∧
    (GetMeanCI_S_band L f_samp).CI_975.getD g 0 =
      mean (f_samp.col g) + GetMeanCI_S_q L f_samp * stddev L (f_samp.col g) := by
  have hget : ∀ (F : Nat → α), ((List.range f_samp.n_cols).map F).getD g 0 = F g := by
    intro F
    rw [List.getD_eq_getElem _ _ (by simpa using hg)]
    simp
  have hq : GetMeanCI_S_q L f_samp =
      quantile ((List.range f_samp.n_rows).map (fun s =>
        vecMax ((List.range f_samp.n_cols).map (fun j =>
          |(f_samp.mem s j - mean (f_samp.col j)) / stddev L (f_samp.col j)|)))) 0.95 := by
    unfold GetMeanCI_S_q GetMeanCI_S_C
    simp only [fillVec_eq_map]
  rw [hq, GetMeanCI_S_band_eq]
  exact ⟨hget _, hget _, hget _⟩

/-- The statistic `C(s)` bounds the studentized deviation of draw `s` at every
grid point. -/
theorem GetMeanCI_S_C_ge (L : Libm α) (f_samp : Mat α) (s g : Nat) (hg : g < f_samp.n_cols) :
    |(f_samp.mem s g - mean (f_samp.col g)) / stddev L (f_samp.col g)| ≤
      GetMeanCI_S_C L f_samp s := by
  unfold GetMeanCI_S_C
  rw [fillVec_eq_map]
  have hmem : |(f_samp.mem s g - mean (f_samp.col g)) / stddev L (f_samp.col g)| ∈
      (List.range f_samp.n_cols).map (fun j =>
        |(f_samp.mem s j - mean (f_samp.col j)) / stddev L (f_samp.col j)|) :=
    List.mem_map.mpr ⟨g, List.mem_range.mpr hg, rfl⟩
  exact (vecMax_isGreatest _ (List.ne_nil_of_mem hmem)).2 _ hmem

/-- With a positive standard deviation at some grid point, the critical value
`q(0)` is not negative. -/
theorem GetMeanCI_S_q_nonneg [FloorRing α] (L : Libm α) (f_samp : Mat α) (g : Nat)
    (hg : g < f_samp.n_cols) (hsd : 0 < stddev L (f_samp.col g)) :
    0 ≤ GetMeanCI_S_q L f_samp := by
  have hS : 2 ≤ f_samp.n_rows := by
    by_contra hlt
    have h0 : stddev L (f_samp.col g) = 0 := by
      unfold stddev
      rw [if_neg (by simpa [Mat.col] using hlt)]
    rw [h0] at hsd
    exact lt_irrefl _ hsd
  unfold GetMeanCI_S_q
  rw [fillVec_eq_map]
  have hne : (List.range f_samp.n_rows).map (fun i => GetMeanCI_S_C L f_samp i) ≠ [] := by
    intro h
    have := congrArg List.length h
    simp at this
    omega
  refine (quantile_mem_Icc _ hne 0
    (vecMax ((List.range f_samp.n_rows).map (fun i => GetMeanCI_S_C L f_samp i))) ?_ 0.95).1
  intro x hx
  refine ⟨?_, (vecMax_isGreatest _ hne).2 x hx⟩
  obtain ⟨s, _, rfl⟩ := List.mem_map.mp hx
  exact le_trans (abs_nonneg _) (GetMeanCI_S_C_ge L f_samp s g hg)

/-- C24: for a sample matrix with positive standard deviation at every grid
point, every draw `s` whose statistic `C(s)`, the largest studentized
deviation, is at most the critical value `q(0)` lies inside the band of
`GetMeanCI_S` at every grid point `g`, and the band is ordered:
`CI_025(g) <= CI_50(g) <= CI_975(g)`. -/
theorem draws_within_S_band [FloorRing α] (L : Libm α) (f_samp : Mat α)
    (hsd : ∀ g, g < f_samp.n_cols → 0 < stddev L (f_samp.col g)) :
    (∀ s, s < f_samp.n_rows → GetMeanCI_S_C L f_samp s ≤ GetMeanCI_S_q L f_samp →
      ∀ g, g < f_samp.n_cols →
        (GetMeanCI_S_band L f_samp).CI_025.getD g 0 ≤ f_samp.mem s g ∧
        f_samp.mem s g ≤ (GetMeanCI_S_band L f_samp).CI_975.getD g 0) ∧
    (∀ g, g < f_samp.n_cols →
      (GetMeanCI_S_band L f_samp).CI_025.getD g 0 ≤ (GetMeanCI_S_band L f_samp).CI_50.getD g 0 ∧
      (GetMeanCI_S_band L f_samp).CI_50.getD g 0 ≤
        (GetMeanCI_S_band L f_samp).CI_975.getD g 0) := by
  constructor
  · intro s _ hle g hg
    obtain ⟨e1, _, e3⟩ := GetMeanCI_S_band_q L f_samp g hg
    have hpos := hsd g hg
    have hdev := le_trans (GetMeanCI_S_C_ge L f_samp s g hg) hle
    rw [abs_div, abs_of_pos hpos, div_le_iff₀ hpos] at hdev
    obtain ⟨h1, h2⟩ := abs_le.mp hdev
    rw [e1, e3]
    constructor <;> linarith
  · intro g hg
    obtain ⟨e1, e2, e3⟩ := GetMeanCI_S_band_q L f_samp g hg
    have hq := GetMeanCI_S_q_nonneg L f_samp g hg (hsd g hg)
    have hprod := mul_nonneg hq (hsd g hg).le
    rw [e1, e2, e3]
    constructor <;> linarith

/-- C24 at the draws 11, 13 and 0 of a curve at one grid point (standard
deviation 7). -/
theorem draws_within_S_band_witness :
    (∀ g, g < (exDraws3 : Mat ℝ).n_cols →
      0 < stddev (Libm.mk Real.sqrt Real.log Real.exp Real.pi) ((exDraws3 : Mat ℝ).col g)) ∧
    (∀ s, s < (exDraws3 : Mat ℝ).n_rows →
      GetMeanCI_S_C (Libm.mk Real.sqrt Real.log Real.exp Real.pi) (exDraws3 : Mat ℝ) s ≤
        GetMeanCI_S_q (Libm.mk Real.sqrt Real.log Real.exp Real.pi) (exDraws3 : Mat ℝ) →
      ∀ g, g < (exDraws3 : Mat ℝ).n_cols →
        (GetMeanCI_S_band (Libm.mk Real.sqrt Real.log Real.exp Real.pi)
          (exDraws3 : Mat ℝ)).CI_025.getD g 0 ≤ (exDraws3 : Mat ℝ).mem s g ∧
        (exDraws3 : Mat ℝ).mem s g ≤
          (GetMeanCI_S_band (Libm.mk Real.sqrt Real.log Real.exp Real.pi)
            (exDraws3 : Mat ℝ)).CI_975.getD g 0) ∧
    (∀ g, g < (exDraws3 : Mat ℝ).n_cols →
      (GetMeanCI_S_band (Libm.mk Real.sqrt Real.log Real.exp Real.pi)
          (exDraws3 : Mat ℝ)).CI_025.getD g 0 ≤
        (GetMeanCI_S_band (Libm.mk Real.sqrt Real.log Real.exp Real.pi)
          (exDraws3 : Mat ℝ)).CI_50.getD g 0 ∧
      (GetMeanCI_S_band (Libm.mk Real.sqrt Real.log Real.exp Real.pi)
          (exDraws3 : Mat ℝ)).CI_50.getD g 0 ≤
        (GetMeanCI_S_band (Libm.mk Real.sqrt Real.log Real.exp Real.pi)
          (exDraws3 : Mat ℝ)).CI_975.getD g 0) :=
  have h : ∀ g, g < (exDraws3 : Mat ℝ).n_cols →
      0 < stddev (Libm.mk Real.sqrt Real.log Real.exp Real.pi) ((exDraws3 : Mat ℝ).col g) := by
    intro g hg
    have hg1 : g < 1 := hg
    have hg0 : g = 0 := by omega
    rw [hg0, stddev_col _ _ (by show 2 ≤ 3; norm_num), exDraws3_colSd]
    norm_num
  ⟨h, draws_within_S_band (Libm.mk Real.sqrt Real.log Real.exp Real.pi) (exDraws3 : Mat ℝ) h⟩

/-- The loop of `Model_DIC` over samples that hold a draw for every slice of
`nu_samp` ends with `expected_log_f` the sum of the log-likelihoods of the
draws. -/
theorem Model_DIC_loop_eq (L : Libm α) (Y : ArmaField (Vec α)) (B_obs : ArmaField (Mat α))
    (nu_samp : Cube α) (phi_samp : ArmaField (Cube α)) (Z_samp chi_samp : Cube α)
    (sigma_samp : Vec α)
    (h : nu_samp.n_slices ≤ phi_samp.n_elem ∧ nu_samp.n_slices ≤ Z_samp.n_slices ∧
      nu_samp.n_slices ≤ chi_samp.n_slices ∧ nu_samp.n_slices ≤ sigma_samp.n_elem) :
    Model_DIC_loop L Y B_obs nu_samp phi_samp Z_samp chi_samp sigma_samp =
      some (∑ s in Finset.range nu_samp.n_slices,
        calcLikelihood L Y B_obs (nu_samp.slice s) (phi_samp.mem s) (Z_samp.slice s)
          (chi_samp.slice s) (sigma_samp.mem s)) := by
  unfold Model_DIC_loop
  obtain ⟨e, he, hv⟩ := foldlM_range_inv
    (fun (expected_log_f : α) i =>
      (phi_samp.read i).bind (fun Phi =>
        (Z_samp.sliceAt i).bind (fun Z =>
          (chi_samp.sliceAt i).bind (fun chi =>
            (sigma_samp.read i).bind (fun sigma =>
              some (expected_log_f +
                calcLikelihood L Y B_obs (nu_samp.slice i) Phi Z chi sigma))))))
    (fun i acc => acc = ∑ s in Finset.range i,
        calcLikelihood L Y B_obs (nu_samp.slice s) (phi_samp.mem s) (Z_samp.slice s)
          (chi_samp.slice s) (sigma_samp.mem s))
    nu_samp.n_slices 0 (by simp)
    (by
      intro i acc hi hacc
      have h1 : phi_samp.read i = some (phi_samp.mem i) := by
        unfold ArmaField.read; rw [if_pos (by omega)]
      have h2 : Z_samp.sliceAt i = some (Z_samp.slice i) := by
        unfold Cube.sliceAt; rw [if_pos (by omega)]
      have h3 : chi_samp.sliceAt i = some (chi_samp.slice i) := by
        unfold Cube.sliceAt; rw [if_pos (by omega)]
      have h4 : sigma_samp.read i = some (sigma_samp.mem i) := by
        unfold Vec.read; rw [if_pos (by omega)]
      refine ⟨_, by simp only [h1, h2, h3, h4, Option.some_bind]; rfl, ?_⟩
      show _ = ∑ s in Finset.range (i + 1), _
      rw [Finset.sum_range_succ, hacc])
  rw [he, hv]

/-- C21: a run of `Model_DIC` that reaches the end of its body returns no
value: the body ends after the loop that adds the log-likelihoods of the
draws.  At that point `expected_log_f` is the sum over the draws `s` of
`calcLikelihood(draw s)`, that is `-1/2` times the sum of the deviances
`D(s)`; no mean over the draws is formed and the deviance at the posterior
mean is not evaluated. -/
theorem Model_DIC_returns_no_value (L : Libm α) (nuFile : Nat → Cube α)
    (phiFile : Nat → ArmaField (Cube α)) (ZFile chiFile : Nat → Cube α)
    (sigmaFile : Nat → Vec α) (n_files n_MCMC : Nat) (Y : ArmaField (Vec α))
    (B_obs : ArmaField (Mat α)) :
    (∀ r, Model_DIC L nuFile phiFile ZFile chiFile sigmaFile n_files n_MCMC Y B_obs = some r →
      r.returned = none) ∧
    (∀ (nu_samp : Cube α) (phi_samp : ArmaField (Cube α)) (Z_samp chi_samp : Cube α)
      (sigma_samp : Vec α),
      nu_samp.n_slices ≤ phi_samp.n_elem ∧ nu_samp.n_slices ≤ Z_samp.n_slices ∧
        nu_samp.n_slices ≤ chi_samp.n_slices ∧ nu_samp.n_slices ≤ sigma_samp.n_elem →
      ∃ e, Model_DIC_loop L Y B_obs nu_samp phi_samp Z_samp chi_samp sigma_samp = some e ∧
        e = ∑ s in Finset.range nu_samp.n_slices,
          calcLikelihood L Y B_obs (nu_samp.slice s) (phi_samp.mem s) (Z_samp.slice s)
            (chi_samp.slice s) (sigma_samp.mem s) ∧
        -2 * e = ∑ s in Finset.range nu_samp.n_slices,
          deviance L Y B_obs (nu_samp.slice s) (phi_samp.mem s) (Z_samp.slice s)
            (chi_samp.slice s) (sigma_samp.mem s)) := by
  constructor
  · intro r hr
    unfold Model_DIC at hr
    simp only [Option.bind_eq_some, Option.map_eq_some'] at hr
    obtain ⟨_, _, _, _, _, _, _, _, _, _, _, _, rfl⟩ := hr
    rfl
  · intro nu_samp phi_samp Z_samp chi_samp sigma_samp h
    refine ⟨_, Model_DIC_loop_eq L Y B_obs nu_samp phi_samp Z_samp chi_samp sigma_samp h,
      rfl, ?_⟩
    simp only [deviance, Finset.mul_sum]

/-- C21 at one file per parameter holding one draw (the scenario with one
subject and four points, `sigma = 1`): the run reaches the end of the body
and returns no value. -/
theorem Model_DIC_returns_no_value_witness :
    ∃ r, Model_DIC (Libm.mk Real.sqrt Real.log Real.exp Real.pi) exNuFile exPhiFile exZFile
        exChiFile exSigmaFile 1 1 exY exB = some r ∧ r.returned = none := by
  cases h : Model_DIC (Libm.mk Real.sqrt Real.log Real.exp Real.pi) exNuFile exPhiFile exZFile
      exChiFile exSigmaFile 1 1 exY exB with
  | none =>
    have hs : (Model_DIC (Libm.mk Real.sqrt Real.log Real.exp Real.pi) exNuFile exPhiFile
      exZFile exChiFile exSigmaFile 1 1 exY exB).isSome = true := rfl
    rw [h] at hs
    exact absurd hs (by decide)
  | some r =>
    exact ⟨r, rfl, (Model_DIC_returns_no_value (Libm.mk Real.sqrt Real.log Real.exp Real.pi)
      exNuFile exPhiFile exZFile exChiFile exSigmaFile 1 1 exY exB).1 r h⟩

end IntervalRoutineTheorems

section SpecialValueLemmas

variable {α : Type}

theorem fillVecD_loop [LinearOrderedField α] (n : Nat) (f : Nat → Dbl α) (k : Nat)
    (hk : k ≤ n) :
    (List.range k).foldl (fun v i => v.set i (f i)) (List.replicate n (Dbl.fin 0)) =
      (List.range k).map f ++ List.replicate (n - k) (Dbl.fin 0) := by
  induction k with
  | zero => simp
  | succ k ih =>
    rw [List.range_succ, List.foldl_append, ih (by omega)]
    simp only [List.foldl_cons, List.foldl_nil, List.map_append, List.map_cons, List.map_nil]
    have hlen : ((List.range k).map f).length = k := by simp
    have hrep : List.replicate (n - k) (Dbl.fin (0 : α)) =
        Dbl.fin 0 :: List.replicate (n - (k + 1)) (Dbl.fin 0) := by
      rw [show n - k = (n - (k + 1)) + 1 by omega, List.replicate_succ]
    rw [hrep, List.set_append_right _ _ (by rw [hlen]), hlen]
    simp

theorem fillVecD_eq_map [LinearOrderedField α] (n : Nat) (f : Nat → Dbl α) :
    fillVecD n f = (List.range n).map f := by
  unfold fillVecD
  rw [fillVecD_loop n f n le_rfl]
  simp

/-- On finite entries the running maximum of `arma::max` is the running
maximum of the numbers. -/
theorem armaMax_loop_fin [LinearOrderedField α] (X : List α) (a : α) :
    (X.map Dbl.fin).foldl (fun max_val x => if x.gt max_val then x else max_val)
      (Dbl.fin a) = Dbl.fin (X.foldl max a) := by
  induction X generalizing a with
  | nil => rfl
  | cons x X ih =>
    simp only [List.map_cons, List.foldl_cons, Dbl.gt]
    by_cases h : a < x
    · simp only [h, decide_True, if_true, max_eq_right h.le]
      exact ih x
    · simp only [h, decide_False, Bool.false_eq_true, if_false, max_eq_left (not_lt.mp h)]
      exact ih a

/-- On a non-empty vector of finite entries `arma::max` returns the largest
entry. -/
theorem armaMax_map_fin [LinearOrderedField α] (X : List α) (hX : X ≠ []) :
    armaMax (X.map Dbl.fin) = Dbl.fin (vecMax X) := by
  cases X with
  | nil => exact absurd rfl hX
  | cons x X =>
    unfold armaMax vecMax
    simp only [List.map_cons, List.foldl_cons, Dbl.gt, List.headD_cons, max_self, if_true]
    exact armaMax_loop_fin X x

/-- On a vector of finite entries the quantile with the special values is the
quantile of the numbers. -/
theorem quantileD_map_fin [LinearOrderedField α] [FloorRing α] (X : List α) (p : α) :
    quantileD (X.map Dbl.fin) p = Dbl.fin (quantile X p) := by
  have hsort : (X.map Dbl.fin).insertionSort (fun a b => a.gt b = false) =
      (X.insertionSort (fun a b => a ≤ b)).map Dbl.fin := by
    refine (List.map_insertionSort (fun a b => a ≤ b) (fun a b => Dbl.gt a b = false)
      Dbl.fin X ?_).symm
    intro a _ b _
    simp [Dbl.gt]
  have hget : ∀ (Y : List α) (k : Nat),
      (Y.map Dbl.fin).getD k (Dbl.fin 0) = Dbl.fin (Y.getD k 0) :=
    fun Y k => List.getD_map Y 0 Dbl.fin
  unfold quantileD quantile
  simp only [hsort, hget, List.length_map]
  split_ifs <;> rfl

end SpecialValueLemmas

section SpecialValueTheorems

variable {α : Type} [LinearOrderedField α]

/-- The simultaneous band with the special values, in closed form. -/
theorem GetMeanCI_S_band_dbl_eq [FloorRing α] (L : Libm α) (f_samp : Mat α) :
    GetMeanCI_S_band_dbl L f_samp =
      { CI_975 := (List.range f_samp.n_cols).map (fun g => (Dbl.fin (mean (f_samp.col g))).add
          ((quantileD (GetMeanCI_S_Cvec L f_samp) 0.95).mul
            (Dbl.fin (stddev L (f_samp.col g))))),
        CI_50 := (List.range f_samp.n_cols).map (fun g => Dbl.fin (mean (f_samp.col g))),
        CI_025 := (List.range f_samp.n_cols).map (fun g => (Dbl.fin (mean (f_samp.col g))).sub
          ((quantileD (GetMeanCI_S_Cvec L f_samp) 0.95).mul
            (Dbl.fin (stddev L (f_samp.col g))))) } := by
  unfold GetMeanCI_S_band_dbl
  simp only []
  rw [foldl_CI_set]
  simp only [← fillVecD_eq_map]
  rfl

/-- For at least one grid point and standard deviations different from 0 at
every grid point, the band with the special values is the band of
`GetMeanCI_S_band`: every entry is the finite number computed there. -/
theorem GetMeanCI_S_band_dbl_of_sd_ne_zero [FloorRing α] (L : Libm α) (f_samp : Mat α)
    (hG : 1 ≤ f_samp.n_cols)
    (hsd : ∀ j, j < f_samp.n_cols → stddev L (f_samp.col j) ≠ 0) :
    GetMeanCI_S_band_dbl L f_samp =
      { CI_975 := (GetMeanCI_S_band L f_samp).CI_975.map Dbl.fin,
        CI_50 := (GetMeanCI_S_band L f_samp).CI_50.map Dbl.fin,
        CI_025 := (GetMeanCI_S_band L f_samp).CI_025.map Dbl.fin } := by
  have hph : ∀ i, GetMeanCI_S_ph1 L f_samp i =
      ((List.range f_samp.n_cols).map (fun j =>
        |(f_samp.mem i j - mean (f_samp.col j)) / stddev L (f_samp.col j)|)).map Dbl.fin := by
    intro i
    unfold GetMeanCI_S_ph1
    simp only [fillVecD_eq_map, List.map_map]
    refine List.map_congr_left (fun j hj => ?_)
    simp [Dbl.divFin, hsd j (List.mem_range.mp hj), Dbl.abs]
  have hne : ∀ i, (List.range f_samp.n_cols).map (fun j =>
      |(f_samp.mem i j - mean (f_samp.col j)) / stddev L (f_samp.col j)|) ≠ [] := by
    intro i h
    have := congrArg List.length h
    simp at this
    omega
  have hC : GetMeanCI_S_Cvec L f_samp =
      ((List.range f_samp.n_rows).map (fun s =>
        vecMax ((List.range f_samp.n_cols).map (fun j =>
          |(f_samp.mem s j - mean (f_samp.col j)) / stddev L (f_samp.col j)|)))).map
        Dbl.fin := by
    unfold GetMeanCI_S_Cvec
    simp only [fillVecD_eq_map, List.map_map]
    refine List.map_congr_left (fun i _ => ?_)
    rw [hph i, armaMax_map_fin _ (hne i)]
    rfl
  rw [GetMeanCI_S_band_dbl_eq, GetMeanCI_S_band_eq, hC, quantileD_map_fin]
  simp only [List.map_map, Function.comp_def, Dbl.add, Dbl.sub, Dbl.mul, Dbl.neg,
    sub_eq_add_neg]

/-- Three draws that agree at the first of two grid points: the standard
deviations are 0 and 7 and the means 5 and 8. -/
theorem exDrawsAgree_stats :
    stddev (Libm.mk Real.sqrt Real.log Real.exp Real.pi) ((exDrawsAgree : Mat ℝ).col 0) = 0 ∧
    stddev (Libm.mk Real.sqrt Real.log Real.exp Real.pi) ((exDrawsAgree : Mat ℝ).col 1) = 7 ∧
    mean ((exDrawsAgree : Mat ℝ).col 0) = 5 ∧ mean ((exDrawsAgree : Mat ℝ).col 1) = 8 := by
  have hm1 : mean ((exDrawsAgree : Mat ℝ).col 1) = 8 := by
    simp [mean, Mat.col, exDrawsAgree, Mat.ofRows, List.range_succ]
    norm_num
  refine ⟨?_, ?_, ?_, hm1⟩
  · have hm0 : mean ((exDrawsAgree : Mat ℝ).col 0) = 5 := by
      simp [mean, Mat.col, exDrawsAgree, Mat.ofRows, List.range_succ]
      norm_num
    have h : (((exDrawsAgree : Mat ℝ).col 0).map
        (fun x => (x - mean ((exDrawsAgree : Mat ℝ).col 0)) ^ 2)).sum /
        ((((exDrawsAgree : Mat ℝ).col 0).length : ℝ) - 1) = 0 := by
      rw [hm0]
      simp [Mat.col, exDrawsAgree, Mat.ofRows, List.range_succ]
    unfold stddev
    rw [if_pos (by simp [Mat.col, exDrawsAgree, Mat.ofRows]), h]
    exact Real.sqrt_zero
  · have h : (((exDrawsAgree : Mat ℝ).col 1).map
        (fun x => (x - mean ((exDrawsAgree : Mat ℝ).col 1)) ^ 2)).sum /
        ((((exDrawsAgree : Mat ℝ).col 1).length : ℝ) - 1) = 7 ^ 2 := by
      rw [hm1]
      simp [Mat.col, exDrawsAgree, Mat.ofRows, List.range_succ]
      norm_num
    unfold stddev
    rw [if_pos (by simp [Mat.col, exDrawsAgree, Mat.ofRows]), h]
    exact Real.sqrt_sq (by norm_num)
  · simp [mean, Mat.col, exDrawsAgree, Mat.ofRows, List.range_succ]
    norm_num

/-- Three draws that agree at the first of two grid points: the entries of
`ph1` at the first point are NaN, the maxima `C` are those of the second
point, `q(0) = 8 / 7` is finite, and the band is the mean 5 at the first point
and `8 -+ 8` at the second. -/
theorem exDrawsAgree_S_band :
    GetMeanCI_S_Cvec (Libm.mk Real.sqrt Real.log Real.exp Real.pi) (exDrawsAgree : Mat ℝ) =
      [Dbl.fin (3 / 7), Dbl.fin (5 / 7), Dbl.fin (8 / 7)] ∧
    GetMeanCI_S_band_dbl (Libm.mk Real.sqrt Real.log Real.exp Real.pi) (exDrawsAgree : Mat ℝ) =
      { CI_975 := [Dbl.fin 5, Dbl.fin 16], CI_50 := [Dbl.fin 5, Dbl.fin 8],
        CI_025 := [Dbl.fin 5, Dbl.fin 0] } := by
  obtain ⟨hs0, hs1, hm0, hm1⟩ := exDrawsAgree_stats
  have hcols : (exDrawsAgree : Mat ℝ).n_cols = 2 := rfl
  have hrows : (exDrawsAgree : Mat ℝ).n_rows = 3 := rfl
  have hC : GetMeanCI_S_Cvec (Libm.mk Real.sqrt Real.log Real.exp Real.pi)
      (exDrawsAgree : Mat ℝ) = [Dbl.fin (3 / 7), Dbl.fin (5 / 7), Dbl.fin (8 / 7)] := by
    unfold GetMeanCI_S_Cvec GetMeanCI_S_ph1
    simp only [fillVecD_eq_map, hcols, hrows]
    simp only [List.range_succ, List.range_zero, List.nil_append, List.cons_append,
      List.map_cons, List.map_nil, hs0, hs1, hm0, hm1, armaMax, List.foldl_cons,
      List.foldl_nil]
    simp only [exDrawsAgree, Mat.ofRows, List.getD_cons_zero, List.getD_cons_succ]
    norm_num [Dbl.divFin, Dbl.infOfSign, Dbl.abs, Dbl.gt, abs_of_pos, abs_of_neg]
  have hs : ([3 / 7, 5 / 7, 8 / 7] : List ℝ).Sorted (fun a b => a ≤ b) := by
    simp [List.Sorted]
    norm_num
  have hq : quantileD ([Dbl.fin (3 / 7), Dbl.fin (5 / 7), Dbl.fin (8 / 7)] : List (Dbl ℝ))
      0.95 = Dbl.fin (8 / 7) := by
    have := quantileD_map_fin ([3 / 7, 5 / 7, 8 / 7] : List ℝ) 0.95
    simp only [List.map_cons, List.map_nil] at this
    rw [this, quantile_of_sorted_top _ hs _ (by norm_num) (by norm_num)]
    simp
  refine ⟨hC, ?_⟩
  rw [GetMeanCI_S_band_dbl_eq, hC, hq, hcols]
  simp only [List.range_succ, List.range_zero, List.nil_append, List.cons_append,
    List.map_cons, List.map_nil, hs0, hs1, hm0, hm1]
  norm_num [Dbl.add, Dbl.sub, Dbl.mul, Dbl.neg]

end SpecialValueTheorems

end BayesFMMM
